import Mathlib

/-!
Verification of the JCE binary codec (serde_jce).

This file gives a shallow embedding of the wire-format engine of the
`serde_jce` crate: the `JceType` header codec (src/types.rs), the
`Jcebuilder` byte emitter (src/ser/builder.rs), the `JceParser` cursor
reader (src/de/parser.rs), the `Value` tree with its total order
(src/value.rs), and the serde-driven encode/decode pipelines for `Value`
(src/ser/serializer.rs and src/de/deserializer.rs), together with proofs
of the specified properties.

Modelling conventions:
* a byte is a `Nat` (kept `< 256` by construction; machine-integer
  wrap-around is written with explicit `% 2^w`);
* Rust signed integers are `Int` with explicit range hypotheses;
* `f32`/`f64` values are modelled by their raw bit patterns (`Nat`),
  which is exact for byte-level encoding and for the bit-pattern
  comparisons the library performs;
* Rust `Result` is `Except JErr`; the `todo!()` panic reachable from
  `deserialize_any` is modelled by a distinguished `DFail.panicked`
  outcome, distinct from every error value;
* the recursive decode functions take a fuel parameter (a modelling
  artefact for termination; every theorem supplies sufficient fuel and
  the distinguished `DFail.noFuel` outcome never appears in any proved
  conclusion).
-/

namespace SerdeJce

/-- Big-endian bytes of `v`, `k` bytes wide (mirrors `to_be_bytes`). -/
def beBytes : Nat → Nat → List Nat
  | 0, _ => []
  | k + 1, v => beBytes k (v / 256) ++ [v % 256]

/-- Big-endian value of a byte list (mirrors `from_be_bytes`). -/
def beVal (l : List Nat) : Nat :=
  l.foldl (fun acc b => acc * 256 + b) 0

/-- Two's-complement unsigned view of a signed value, width `w` bits. -/
def toUnsigned (w : Nat) (v : Int) : Nat :=
  (v % (2 ^ w : Nat)).toNat

/-- Signed value of an unsigned `w`-bit pattern (two's complement). -/
def toSigned (w : Nat) (n : Nat) : Int :=
  if n < 2 ^ (w - 1) then (n : Int) else (n : Int) - (2 ^ w : Nat)

/-- Wire type codes, from `enum JceType` in src/types.rs. -/
inductive JceType where
  | i8 | i16 | i32 | i64 | f32 | f64
  | string1 | string4
  | map | list
  | structBegin | structEnd
  | zero | bytes
  deriving DecidableEq, Repr

/-- The `#[repr(u8)]` discriminant of a wire type. -/
def JceType.toNat : JceType → Nat
  | .i8 => 0 | .i16 => 1 | .i32 => 2 | .i64 => 3
  | .f32 => 4 | .f64 => 5 | .string1 => 6 | .string4 => 7
  | .map => 8 | .list => 9 | .structBegin => 10 | .structEnd => 11
  | .zero => 12 | .bytes => 13

/-- Error kinds, from `enum Error` in src/error.rs (the `Message`
payload string is irrelevant to every claim and is dropped). -/
inductive JErr where
  | message
  | unknownJceType
  | notEnoughtBytes
  | trailingBytes
  | errorFieldTag
  | duplicateFieldTag
  | duplicateFieldTagName
  | wrongType
  | needLength
  | wrongLength
  | stringIsNotUtf8
  | intTooBig
  | stringTooLong
  | bytesTooLong
  | seqTooLong
  | mapTooLong
  deriving DecidableEq, Repr

/-- `TryFrom<u8> for JceType` (src/types.rs). -/
def JceType.tryFrom (value : Nat) : Except JErr JceType :=
  match value with
  | 0 => .ok .i8
  | 1 => .ok .i16
  | 2 => .ok .i32
  | 3 => .ok .i64
  | 4 => .ok .f32
  | 5 => .ok .f64
  | 6 => .ok .string1
  | 7 => .ok .string4
  | 8 => .ok .map
  | 9 => .ok .list
  | 10 => .ok .structBegin
  | 11 => .ok .structEnd
  | 12 => .ok .zero
  | 13 => .ok .bytes
  | _ => .error .unknownJceType

/-! ## Builder (src/ser/builder.rs)

Each builder operation is modelled as the byte list it appends; the
Rust `&mut self` chaining is list concatenation. -/

/-- `Jcebuilder::push_head`: one byte `tag<<4 | type` for tag < 15, else
`0xf0 + type` followed by the raw tag byte (`tag` is a `u8`, hence the
explicit `% 256`). -/
def pushHead (tag : Nat) (tp : JceType) : List Nat :=
  if tag < 15 then [tag * 16 + tp.toNat]
  else [0xf0 + tp.toNat, tag % 256]

/-- `Jcebuilder::zero`. -/
def bzero (tag : Nat) : List Nat := pushHead tag .zero

/-- `Jcebuilder::i8`. -/
def bi8 (tag : Nat) (v : Int) : List Nat :=
  if v = 0 then bzero tag
  else pushHead tag .i8 ++ beBytes 1 (toUnsigned 8 v)

/-- `Jcebuilder::i16`. -/
def bi16 (tag : Nat) (v : Int) : List Nat :=
  if -128 ≤ v ∧ v ≤ 127 then bi8 tag v
  else pushHead tag .i16 ++ beBytes 2 (toUnsigned 16 v)

/-- `Jcebuilder::i32`. -/
def bi32 (tag : Nat) (v : Int) : List Nat :=
  if -32768 ≤ v ∧ v ≤ 32767 then bi16 tag v
  else pushHead tag .i32 ++ beBytes 4 (toUnsigned 32 v)

/-- `Jcebuilder::i64`. -/
def bi64 (tag : Nat) (v : Int) : List Nat :=
  if -2147483648 ≤ v ∧ v ≤ 2147483647 then bi32 tag v
  else pushHead tag .i64 ++ beBytes 8 (toUnsigned 64 v)

/-- `Jcebuilder::f32` (`v` is the raw bit pattern of the `f32`). -/
def bf32 (tag : Nat) (bits : Nat) : List Nat :=
  pushHead tag .f32 ++ beBytes 4 (bits % 2 ^ 32)

/-- `Jcebuilder::f64` (`v` is the raw bit pattern of the `f64`). -/
def bf64 (tag : Nat) (bits : Nat) : List Nat :=
  pushHead tag .f64 ++ beBytes 8 (bits % 2 ^ 64)

/-- `Jcebuilder::STRING_MAX_LENGTH = u32::MAX`. -/
def STRING_MAX_LENGTH : Nat := 2 ^ 32 - 1

/-- `Jcebuilder::BYTES_MAX_LENGTH = i32::MAX`. -/
def BYTES_MAX_LENGTH : Nat := 2 ^ 31 - 1

/-- `Jcebuilder::str` (`s` is the UTF-8 byte sequence of the string). -/
def bstr (tag : Nat) (s : List Nat) : List Nat :=
  if s.length ≤ 255 then
    pushHead tag .string1 ++ [s.length] ++ s
  else
    let n := min s.length STRING_MAX_LENGTH
    pushHead tag .string4 ++ beBytes 4 n ++ s.take n

/-- `Jcebuilder::map_begin`. -/
def bmapBegin (tag : Nat) (len : Int) : List Nat :=
  pushHead tag .map ++ bi32 0 len

/-- `Jcebuilder::list_begin`. -/
def blistBegin (tag : Nat) (len : Int) : List Nat :=
  pushHead tag .list ++ bi32 0 len

/-- `Jcebuilder::struct_begin`. -/
def bstructBegin (tag : Nat) : List Nat := pushHead tag .structBegin

/-- `Jcebuilder::struct_end` (fixed tag 0). -/
def bstructEnd : List Nat := pushHead 0 .structEnd

/-- `Jcebuilder::bytes`. -/
def bbytes (tag : Nat) (v : List Nat) : List Nat :=
  let n := min v.length BYTES_MAX_LENGTH
  pushHead tag .bytes ++ pushHead 0 .i8 ++ bi32 0 (n : Int) ++ v.take n

/-! ## Parser (src/de/parser.rs)

The parser state is the remaining byte slice; consuming operations
return the value together with the remaining bytes. -/

/-- `JceParser::pick_type` (non-consuming). -/
def pickType (b : List Nat) : Except JErr JceType :=
  match b with
  | [] => .error .notEnoughtBytes
  | head :: _ => JceType.tryFrom (head % 16)

/-- `JceParser::pick_head` (non-consuming): the tag nibble is the high
nibble; nibble 15 marks the long form whose tag is the next raw byte. -/
def pickHead (b : List Nat) : Except JErr (Nat × JceType) :=
  match b with
  | [] => .error .notEnoughtBytes
  | head :: rest =>
    match JceType.tryFrom (head % 16) with
    | .error e => .error e
    | .ok tp =>
      if head / 16 ≠ 15 then .ok (head / 16, tp)
      else
        match rest with
        | [] => .error .notEnoughtBytes
        | t :: _ => .ok (t, tp)

/-- `JceParser::get_head`: `pick_head`, then advance 1 byte if the
resolved tag is < 15, else 2 bytes (this mirrors the source exactly,
including its behaviour on long-form headers whose raw tag byte is
< 15). -/
def getHead (b : List Nat) : Except JErr ((Nat × JceType) × List Nat) :=
  match pickHead b with
  | .error e => .error e
  | .ok (tag, tp) =>
    if tag < 15 then .ok ((tag, tp), b.drop 1)
    else .ok ((tag, tp), b.drop 2)

/-- `JceParser::get_bytes` / `get_bytes_fixed`. -/
def getBytes (len : Nat) (b : List Nat) : Except JErr (List Nat × List Nat) :=
  if len ≤ b.length then .ok (b.take len, b.drop len)
  else .error .notEnoughtBytes

/-- `JceParser::i8`. -/
def pi8 (b : List Nat) : Except JErr (Int × List Nat) := do
  let ((_, tp), b) ← getHead b
  match tp with
  | .zero => .ok (0, b)
  | .i8 => do
    let (buf, b) ← getBytes 1 b
    .ok (toSigned 8 (beVal buf), b)
  | _ => .error .wrongType

/-- `JceParser::i16`. -/
def pi16 (b : List Nat) : Except JErr (Int × List Nat) := do
  let ((_, tp), b) ← getHead b
  match tp with
  | .zero => .ok (0, b)
  | .i8 => do
    let (buf, b) ← getBytes 1 b
    .ok (toSigned 8 (beVal buf), b)
  | .i16 => do
    let (buf, b) ← getBytes 2 b
    .ok (toSigned 16 (beVal buf), b)
  | _ => .error .wrongType

/-- `JceParser::i32`. -/
def pi32 (b : List Nat) : Except JErr (Int × List Nat) := do
  let ((_, tp), b) ← getHead b
  match tp with
  | .zero => .ok (0, b)
  | .i8 => do
    let (buf, b) ← getBytes 1 b
    .ok (toSigned 8 (beVal buf), b)
  | .i16 => do
    let (buf, b) ← getBytes 2 b
    .ok (toSigned 16 (beVal buf), b)
  | .i32 => do
    let (buf, b) ← getBytes 4 b
    .ok (toSigned 32 (beVal buf), b)
  | _ => .error .wrongType

/-- `JceParser::i64`. -/
def pi64 (b : List Nat) : Except JErr (Int × List Nat) := do
  let ((_, tp), b) ← getHead b
  match tp with
  | .zero => .ok (0, b)
  | .i8 => do
    let (buf, b) ← getBytes 1 b
    .ok (toSigned 8 (beVal buf), b)
  | .i16 => do
    let (buf, b) ← getBytes 2 b
    .ok (toSigned 16 (beVal buf), b)
  | .i32 => do
    let (buf, b) ← getBytes 4 b
    .ok (toSigned 32 (beVal buf), b)
  | .i64 => do
    let (buf, b) ← getBytes 8 b
    .ok (toSigned 64 (beVal buf), b)
  | _ => .error .wrongType

/-- Exact value-preserving conversion of an `f32` bit pattern to the
`f64` bit pattern (the `as f64` widening in `JceParser::f64`; NaN
payloads are shifted into the wide fraction field). -/
def f32BitsToF64Bits (n : Nat) : Nat :=
  let n := n % 2 ^ 32
  let sign := n / 2 ^ 31
  let exp := (n / 2 ^ 23) % 2 ^ 8
  let frac := n % 2 ^ 23
  if exp = 255 then sign * 2 ^ 63 + 0x7ff * 2 ^ 52 + frac * 2 ^ 29
  else if exp = 0 then
    if frac = 0 then sign * 2 ^ 63
    else
      let k := Nat.log2 frac
      sign * 2 ^ 63 + (k + 874) * 2 ^ 52 + (frac - 2 ^ k) * 2 ^ (52 - k)
  else sign * 2 ^ 63 + (exp - 127 + 1023) * 2 ^ 52 + frac * 2 ^ 29

/-- `JceParser::f32` (result is the raw bit pattern; `Zero` decodes to
`0.0`, whose bit pattern is 0). -/
def pf32 (b : List Nat) : Except JErr (Nat × List Nat) := do
  let ((_, tp), b) ← getHead b
  match tp with
  | .zero => .ok (0, b)
  | .f32 => do
    let (buf, b) ← getBytes 4 b
    .ok (beVal buf, b)
  | _ => .error .wrongType

/-- `JceParser::f64` (result is the raw bit pattern; a stored `F32` is
widened value-exactly, as `as f64` does). -/
def pf64 (b : List Nat) : Except JErr (Nat × List Nat) := do
  let ((_, tp), b) ← getHead b
  match tp with
  | .zero => .ok (0, b)
  | .f32 => do
    let (buf, b) ← getBytes 4 b
    .ok (f32BitsToF64Bits (beVal buf), b)
  | .f64 => do
    let (buf, b) ← getBytes 8 b
    .ok (beVal buf, b)
  | _ => .error .wrongType

/-- UTF-8 validity of a byte sequence (the check behind
`std::str::from_utf8`): well-formed sequences only, rejecting overlong
forms, surrogates and code points above U+10FFFF. -/
def validUtf8 : List Nat → Bool
  | [] => true
  | b :: rest =>
    if b < 0x80 then validUtf8 rest
    else if 0xC2 ≤ b ∧ b ≤ 0xDF then
      match rest with
      | c1 :: rest => 0x80 ≤ c1 && c1 ≤ 0xBF && validUtf8 rest
      | _ => false
    else if b = 0xE0 then
      match rest with
      | c1 :: c2 :: rest =>
        0xA0 ≤ c1 && c1 ≤ 0xBF && 0x80 ≤ c2 && c2 ≤ 0xBF && validUtf8 rest
      | _ => false
    else if (0xE1 ≤ b ∧ b ≤ 0xEC) ∨ b = 0xEE ∨ b = 0xEF then
      match rest with
      | c1 :: c2 :: rest =>
        0x80 ≤ c1 && c1 ≤ 0xBF && 0x80 ≤ c2 && c2 ≤ 0xBF && validUtf8 rest
      | _ => false
    else if b = 0xED then
      match rest with
      | c1 :: c2 :: rest =>
        0x80 ≤ c1 && c1 ≤ 0x9F && 0x80 ≤ c2 && c2 ≤ 0xBF && validUtf8 rest
      | _ => false
    else if b = 0xF0 then
      match rest with
      | c1 :: c2 :: c3 :: rest =>
        0x90 ≤ c1 && c1 ≤ 0xBF && 0x80 ≤ c2 && c2 ≤ 0xBF &&
        0x80 ≤ c3 && c3 ≤ 0xBF && validUtf8 rest
      | _ => false
    else if 0xF1 ≤ b ∧ b ≤ 0xF3 then
      match rest with
      | c1 :: c2 :: c3 :: rest =>
        0x80 ≤ c1 && c1 ≤ 0xBF && 0x80 ≤ c2 && c2 ≤ 0xBF &&
        0x80 ≤ c3 && c3 ≤ 0xBF && validUtf8 rest
      | _ => false
    else if b = 0xF4 then
      match rest with
      | c1 :: c2 :: c3 :: rest =>
        0x80 ≤ c1 && c1 ≤ 0x8F && 0x80 ≤ c2 && c2 ≤ 0xBF &&
        0x80 ≤ c3 && c3 ≤ 0xBF && validUtf8 rest
      | _ => false
    else false

/-- `JceParser::str_small` (the string is its UTF-8 byte sequence;
`Zero` decodes to the empty string). -/
def pstrSmall (b : List Nat) : Except JErr (List Nat × List Nat) := do
  let ((_, tp), b) ← getHead b
  match tp with
  | .zero => .ok ([], b)
  | .string1 => do
    let (lenBuf, b) ← getBytes 1 b
    let (buf, b) ← getBytes (beVal lenBuf) b
    if validUtf8 buf then .ok (buf, b) else .error .stringIsNotUtf8
  | _ => .error .wrongType

/-- `JceParser::str_big`. -/
def pstrBig (b : List Nat) : Except JErr (List Nat × List Nat) := do
  let ((_, tp), b) ← getHead b
  match tp with
  | .zero => .ok ([], b)
  | .string4 => do
    let (lenBuf, b) ← getBytes 4 b
    let (buf, b) ← getBytes (beVal lenBuf) b
    if validUtf8 buf then .ok (buf, b) else .error .stringIsNotUtf8
  | _ => .error .wrongType

/-- `JceParser::str` (either string width). -/
def pstr (b : List Nat) : Except JErr (List Nat × List Nat) := do
  let ((_, tp), b) ← getHead b
  match tp with
  | .zero => .ok ([], b)
  | .string1 => do
    let (lenBuf, b) ← getBytes 1 b
    let (buf, b) ← getBytes (beVal lenBuf) b
    if validUtf8 buf then .ok (buf, b) else .error .stringIsNotUtf8
  | .string4 => do
    let (lenBuf, b) ← getBytes 4 b
    let (buf, b) ← getBytes (beVal lenBuf) b
    if validUtf8 buf then .ok (buf, b) else .error .stringIsNotUtf8
  | _ => .error .wrongType

/-- `JceParser::map`: swallows the header and returns the entry count
(`i32` narrowed; a negative count fails the `usize` conversion with
`WrongLength`). -/
def pmap (b : List Nat) : Except JErr (Nat × List Nat) := do
  let ((_, tp), b) ← getHead b
  match tp with
  | .zero => .ok (0, b)
  | .map => do
    let (len, b) ← pi32 b
    if 0 ≤ len then .ok (len.toNat, b) else .error .wrongLength
  | _ => .error .wrongType

/-- `JceParser::list`. -/
def plist (b : List Nat) : Except JErr (Nat × List Nat) := do
  let ((_, tp), b) ← getHead b
  match tp with
  | .zero => .ok (0, b)
  | .list => do
    let (len, b) ← pi32 b
    if 0 ≤ len then .ok (len.toNat, b) else .error .wrongLength
  | _ => .error .wrongType

/-- `JceParser::struct_begin`. -/
def pstructBegin (b : List Nat) : Except JErr (List Nat) := do
  let ((_, tp), b) ← getHead b
  match tp with
  | .structBegin => .ok b
  | _ => .error .wrongType

/-- `JceParser::struct_end`. -/
def pstructEnd (b : List Nat) : Except JErr (List Nat) := do
  let ((_, tp), b) ← getHead b
  match tp with
  | .structEnd => .ok b
  | _ => .error .wrongType

/-- `JceParser::zero`. -/
def pzero (b : List Nat) : Except JErr (List Nat) := do
  let ((_, tp), b) ← getHead b
  match tp with
  | .zero => .ok b
  | _ => .error .wrongType

/-- `JceParser::bytes`. -/
def pbytes (b : List Nat) : Except JErr (List Nat × List Nat) := do
  let ((_, tp), b) ← getHead b
  match tp with
  | .zero => .ok ([], b)
  | .bytes => do
    let ((_, tp2), b) ← getHead b
    match tp2 with
    | .i8 => do
      let (len, b) ← pi32 b
      if 0 ≤ len then getBytes len.toNat b else .error .wrongLength
    | _ => .error .wrongType
  | _ => .error .wrongType

/-! ## Value (src/value.rs)

`Value::Float`/`Value::Double` carry raw bit patterns; `Value::String`
carries the UTF-8 byte sequence; `Value::Map` and `Value::Object` carry
the ordered entry lists of the backing `BTreeMap`s (strictly ascending
keys — the `BTreeMap` invariant — is imposed by `wf` below).  With bit
patterns as payloads, structural equality of this model is exactly the
source `PartialEq for Value` (which compares floats via `to_bits`). -/

inductive Value where
  | zero
  | int (v : Int)
  | float (bits : Nat)
  | double (bits : Nat)
  | string (s : List Nat)
  | bytes (b : List Nat)
  | list (l : List Value)
  | map (entries : List (Value × Value))
  | object (entries : List (Nat × Value))

/-- `Ord::cmp` for `i64` (`if lt then Less else if eq then Equal else Greater`). -/
def intCmp (a b : Int) : Ordering :=
  if a < b then .lt else if a = b then .eq else .gt

/-- `Ord::cmp` for `u8`/`u32` (modelled on `Nat`). -/
def natCmp (a b : Nat) : Ordering :=
  if a < b then .lt else if a = b then .eq else .gt

/-- `Ord::cmp` for `Vec<u8>` and `String` (byte-wise lexicographic). -/
def byteListCmp : List Nat → List Nat → Ordering
  | [], [] => .eq
  | [], _ :: _ => .lt
  | _ :: _, [] => .gt
  | x :: xs, y :: ys =>
    match natCmp x y with
    | .eq => byteListCmp xs ys
    | o => o

mutual

/-- `impl Ord for Value` (src/value.rs, lines 175-232), the per-variant
nested match transcribed case by case. -/
def Value.cmp : Value → Value → Ordering
  | .zero, other =>
    match other with
    | .zero => .eq
    | _ => .lt
  | .int lhs, other =>
    match other with
    | .zero => .gt
    | .int rhs => intCmp lhs rhs
    | _ => .lt
  | .float lhs, other =>
    match other with
    | .zero => .gt
    | .int _ => .gt
    | .float rhs => natCmp lhs rhs
    | _ => .lt
  | .double lhs, other =>
    match other with
    | .zero => .gt
    | .int _ => .gt
    | .float _ => .gt
    | .double rhs => natCmp lhs rhs
    | _ => .lt
  | .string lhs, other =>
    match other with
    | .zero => .gt
    | .int _ => .gt
    | .float _ => .gt
    | .double _ => .gt
    | .string rhs => byteListCmp lhs rhs
    | _ => .lt
  | .bytes lhs, other =>
    match other with
    | .bytes rhs => byteListCmp lhs rhs
    | .list _ => .lt
    | .map _ => .lt
    | .object _ => .lt
    | _ => .gt
  | .list lhs, other =>
    match other with
    | .list rhs => Value.listCmp lhs rhs
    | .map _ => .lt
    | .object _ => .lt
    | _ => .gt
  | .map lhs, other =>
    match other with
    | .map rhs => Value.entriesCmp lhs rhs
    | .object _ => .lt
    | _ => .gt
  | .object lhs, other =>
    match other with
    | .object rhs => Value.objEntriesCmp lhs rhs
    | _ => .gt

/-- `Ord::cmp` for `Vec<Value>` (lexicographic). -/
def Value.listCmp : List Value → List Value → Ordering
  | [], [] => .eq
  | [], _ :: _ => .lt
  | _ :: _, [] => .gt
  | x :: xs, y :: ys =>
    match Value.cmp x y with
    | .eq => Value.listCmp xs ys
    | o => o

/-- `Ord::cmp` for `BTreeMap<Value, Value>` (lexicographic over ordered
`(key, value)` pairs). -/
def Value.entriesCmp : List (Value × Value) → List (Value × Value) → Ordering
  | [], [] => .eq
  | [], _ :: _ => .lt
  | _ :: _, [] => .gt
  | (k1, v1) :: xs, (k2, v2) :: ys =>
    match Value.cmp k1 k2 with
    | .eq =>
      match Value.cmp v1 v2 with
      | .eq => Value.entriesCmp xs ys
      | o => o
    | o => o

/-- `Ord::cmp` for `BTreeMap<u8, Value>` (lexicographic over ordered
`(tag, value)` pairs). -/
def Value.objEntriesCmp : List (Nat × Value) → List (Nat × Value) → Ordering
  | [], [] => .eq
  | [], _ :: _ => .lt
  | _ :: _, [] => .gt
  | (k1, v1) :: xs, (k2, v2) :: ys =>
    match natCmp k1 k2 with
    | .eq =>
      match Value.cmp v1 v2 with
      | .eq => Value.objEntriesCmp xs ys
      | o => o
    | o => o

end

/-- `BTreeMap::insert` on the ordered entry list of a
`BTreeMap<Value, Value>` (an existing key keeps its stored key and only
the value is replaced, as in Rust). -/
def mapInsert : List (Value × Value) → Value → Value → List (Value × Value)
  | [], k, v => [(k, v)]
  | (k0, v0) :: rest, k, v =>
    match Value.cmp k k0 with
    | .lt => (k, v) :: (k0, v0) :: rest
    | .eq => (k0, v) :: rest
    | .gt => (k0, v0) :: mapInsert rest k v

/-- `BTreeMap::insert` on the ordered entry list of a
`BTreeMap<u8, Value>`. -/
def objInsert : List (Nat × Value) → Nat → Value → List (Nat × Value)
  | [], k, v => [(k, v)]
  | (k0, v0) :: rest, k, v =>
    match natCmp k k0 with
    | .lt => (k, v) :: (k0, v0) :: rest
    | .eq => (k0, v) :: rest
    | .gt => (k0, v0) :: objInsert rest k v

/-- Strictly ascending keys of a `BTreeMap<Value, Value>` entry list. -/
def sortedKeys : List (Value × Value) → Bool
  | [] => true
  | [_] => true
  | (k1, _) :: (k2, v2) :: rest =>
    (Value.cmp k1 k2 == .lt) && sortedKeys ((k2, v2) :: rest)

/-- Strictly ascending tags of a `BTreeMap<u8, Value>` entry list. -/
def sortedTags : List (Nat × Value) → Bool
  | [] => true
  | [_] => true
  | (k1, _) :: (k2, v2) :: rest =>
    decide (k1 < k2) && sortedTags ((k2, v2) :: rest)

mutual

/-- Well-formedness of a `Value`: the invariants every Rust `Value`
satisfies by construction (payloads in machine-integer range, strings
valid UTF-8 no longer than `u32::MAX`, bytes/list/map lengths at most
`i32::MAX`, `BTreeMap` entry lists strictly ascending, tags in `u8`).
These are exactly the "representable" values of the specification. -/
def wf : Value → Bool
  | .zero => true
  | .int v => decide (-(2 ^ 63 : Int) ≤ v ∧ v ≤ 2 ^ 63 - 1)
  | .float bits => decide (bits < 2 ^ 32)
  | .double bits => decide (bits < 2 ^ 64)
  | .string s =>
    decide (s.length ≤ 2 ^ 32 - 1) && s.all (fun c => decide (c < 256)) &&
      validUtf8 s
  | .bytes v => decide (v.length ≤ 2 ^ 31 - 1) && v.all (fun c => decide (c < 256))
  | .list l => decide (l.length ≤ 2 ^ 31 - 1) && wfElems l
  | .map es => decide (es.length ≤ 2 ^ 31 - 1) && sortedKeys es && wfEntries es
  | .object fs => sortedTags fs && wfFields fs

def wfElems : List Value → Bool
  | [] => true
  | v :: rest => wf v && wfElems rest

def wfEntries : List (Value × Value) → Bool
  | [] => true
  | (k, v) :: rest => wf k && wf v && wfEntries rest

def wfFields : List (Nat × Value) → Bool
  | [] => true
  | (t, v) :: rest => decide (t < 256) && wf v && wfFields rest

end

mutual

/-- `true` iff no `Int` sub-value of the tree carries the value 0
(0 being canonically represented by the `Zero` variant on the wire). -/
def noZeroInt : Value → Bool
  | .zero => true
  | .int v => decide (v ≠ 0)
  | .float _ => true
  | .double _ => true
  | .string _ => true
  | .bytes _ => true
  | .list l => noZeroElems l
  | .map es => noZeroEntries es
  | .object fs => noZeroFields fs

def noZeroElems : List Value → Bool
  | [] => true
  | v :: rest => noZeroInt v && noZeroElems rest

def noZeroEntries : List (Value × Value) → Bool
  | [] => true
  | (k, v) :: rest => noZeroInt k && noZeroInt v && noZeroEntries rest

def noZeroFields : List (Nat × Value) → Bool
  | [] => true
  | (_, v) :: rest => noZeroInt v && noZeroFields rest

end

/-! ## Encoding a `Value` (`impl Serialize for Value` driven through
`Serializer` into `Jcebuilder`, src/value.rs + src/ser/serializer.rs)

The serde plumbing collapses to a recursive function: list elements are
serialized under tag 0, map keys under tag 0 and map values under tag 1
(`SerializeSeq`/`SerializeMap`), object entries under their own numeric
tag with the `StructSerializer` duplicate-tag check. -/

mutual

/-- Byte encoding of a `Value` under `tag`; errors mirror the length
and duplicate-tag guards of `Serializer`. -/
def encodeValue (tag : Nat) : Value → Except JErr (List Nat)
  | .zero => .ok (bzero tag)
  | .int v => .ok (bi64 tag v)
  | .float bits => .ok (bf32 tag bits)
  | .double bits => .ok (bf64 tag bits)
  | .string s =>
    if s.length ≤ STRING_MAX_LENGTH then .ok (bstr tag s)
    else .error .stringTooLong
  | .bytes v =>
    if v.length ≤ BYTES_MAX_LENGTH then .ok (bbytes tag v)
    else .error .bytesTooLong
  | .list l =>
    if l.length ≤ 2 ^ 31 - 1 then do
      let body ← encodeElems l
      .ok (blistBegin tag l.length ++ body)
    else .error .seqTooLong
  | .map es =>
    if es.length ≤ 2 ^ 31 - 1 then do
      let body ← encodeEntries es
      .ok (bmapBegin tag es.length ++ body)
    else .error .mapTooLong
  | .object fs => do
    let body ← encodeFields [] fs
    .ok (bstructBegin tag ++ body ++ bstructEnd)

/-- `SerializeSeq::serialize_element` over all elements (tag 0). -/
def encodeElems : List Value → Except JErr (List Nat)
  | [] => .ok []
  | v :: rest => do
    let b ← encodeValue 0 v
    let bs ← encodeElems rest
    .ok (b ++ bs)

/-- `SerializeMap::serialize_entry` over all entries (tags 0 and 1). -/
def encodeEntries : List (Value × Value) → Except JErr (List Nat)
  | [] => .ok []
  | (k, v) :: rest => do
    let kb ← encodeValue 0 k
    let vb ← encodeValue 1 v
    let bs ← encodeEntries rest
    .ok (kb ++ vb ++ bs)

/-- `StructSerializer::serialize_field` over all fields: the seen-tag
set is checked before any byte of the field is produced. -/
def encodeFields (seen : List Nat) : List (Nat × Value) → Except JErr (List Nat)
  | [] => .ok []
  | (t, v) :: rest =>
    if t ∈ seen then .error .duplicateFieldTag
    else do
      let b ← encodeValue t v
      let bs ← encodeFields (t :: seen) rest
      .ok (b ++ bs)

end

/-- The encode-side field multiplexer with its builder state exposed:
`(buffer, seenTags)` evolves per field exactly as
`StructSerializer::serialize_field` drives `Jcebuilder`; on an error the
buffer retains the bytes flushed for prior fields and nothing of the
failing field. -/
def serFields : (List Nat × List Nat) → List (Nat × Value) →
    ((List Nat × List Nat) × Option JErr)
  | st, [] => (st, none)
  | (buf, seen), (t, v) :: rest =>
    if t ∈ seen then ((buf, seen), some .duplicateFieldTag)
    else
      match encodeValue t v with
      | .ok b => serFields (buf ++ b, t :: seen) rest
      | .error e => ((buf, seen), some e)

/-! ## Decoding (src/de/deserializer.rs)

`deserialize_any` with `ValueVisitor` collapses to a recursive decode:
the dispatch is on the peeked wire type; `Sequence` drives list/map
entries (its `size_hint` is `Some`, so `visit_map` builds a `Map`);
`TagsAccess` without an expected field set drives record fields (its
`size_hint` is `None`, so `visit_map` builds an `Object`). The
`StructEnd` arm of `deserialize_any` is `todo!()`, modelled by the
distinguished `DFail.panicked` outcome. -/

/-- Failure outcomes of a decode: a returned `Error`, the `todo!()`
panic, or fuel exhaustion (a modelling artefact, see the header). -/
inductive DFail where
  | err (e : JErr)
  | panicked
  | noFuel
  deriving DecidableEq, Repr

/-- Lift a parser result into the decode failure monad. -/
def liftP : Except JErr α → Except DFail α
  | .ok a => .ok a
  | .error e => .error (.err e)

mutual

/-- `deserialize_any` with `ValueVisitor`. -/
def decodeAny : Nat → List Nat → Except DFail (Value × List Nat)
  | 0, _ => .error .noFuel
  | fuel + 1, b => do
    let (_, tp) ← liftP (pickHead b)
    match tp with
    | .i8 => do
      let (v, b) ← liftP (pi8 b)
      .ok (.int v, b)
    | .i16 => do
      let (v, b) ← liftP (pi16 b)
      .ok (.int v, b)
    | .i32 => do
      let (v, b) ← liftP (pi32 b)
      .ok (.int v, b)
    | .i64 => do
      let (v, b) ← liftP (pi64 b)
      .ok (.int v, b)
    | .f32 => do
      let (bits, b) ← liftP (pf32 b)
      .ok (.float bits, b)
    | .f64 => do
      let (bits, b) ← liftP (pf64 b)
      .ok (.double bits, b)
    | .string1 => do
      let (s, b) ← liftP (pstrSmall b)
      .ok (.string s, b)
    | .string4 => do
      let (s, b) ← liftP (pstrBig b)
      .ok (.string s, b)
    | .map => do
      let (len, b) ← liftP (pmap b)
      decodeEntries fuel len [] b
    | .list => do
      let (len, b) ← liftP (plist b)
      decodeElems fuel len [] b
    | .structBegin => do
      let b ← liftP (pstructBegin b)
      decodeObjFields fuel [] [] b
    | .structEnd => .error .panicked
    | .zero => do
      let b ← liftP (pzero b)
      .ok (.zero, b)
    | .bytes => do
      let (v, b) ← liftP (pbytes b)
      .ok (.bytes v, b)
termination_by fuel b => (fuel, 0)

/-- `Sequence` as `SeqAccess`: decode `n` elements. -/
def decodeElems : Nat → Nat → List Value → List Nat →
    Except DFail (Value × List Nat)
  | _, 0, acc, b => .ok (.list acc.reverse, b)
  | fuel, n + 1, acc, b => do
    let (v, b) ← decodeAny fuel b
    decodeElems fuel n (v :: acc) b
termination_by fuel n acc b => (fuel, n)

/-- `Sequence` as `MapAccess`: decode `n` (key, value) pairs into a
`BTreeMap<Value, Value>`. -/
def decodeEntries : Nat → Nat → List (Value × Value) → List Nat →
    Except DFail (Value × List Nat)
  | _, 0, acc, b => .ok (.map acc, b)
  | fuel, n + 1, acc, b => do
    let (k, b) ← decodeAny fuel b
    let (v, b) ← decodeAny fuel b
    decodeEntries fuel n (mapInsert acc k v) b
termination_by fuel n acc b => (fuel, n)

/-- `TagsAccess` without an expected field set (schema-less record
decode): `get_tag` consumes the terminator, rejects a repeated tag with
`DuplicateFieldTag`, and each field value is decoded in full. -/
def decodeObjFields : Nat → List Nat → List (Nat × Value) → List Nat →
    Except DFail (Value × List Nat)
  | 0, _, _, _ => .error .noFuel
  | fuel + 1, seen, acc, b => do
    let (tag, tp) ← liftP (pickHead b)
    match tp with
    | .structEnd => do
      let b ← liftP (pstructEnd b)
      .ok (.object acc, b)
    | _ =>
      if tag ∈ seen then .error (.err .duplicateFieldTag)
      else do
        let (v, b) ← decodeAny fuel b
        decodeObjFields fuel (tag :: seen) (objInsert acc tag v) b
termination_by fuel seen acc b => (fuel, 0)

end

mutual

/-- `JceParser::ignore`: fully consume one value of any wire type. -/
def pignore : Nat → List Nat → Except DFail (List Nat)
  | 0, _ => .error .noFuel
  | fuel + 1, b => do
    let tp ← liftP (pickType b)
    match tp with
    | .i8 => do
      let (_, b) ← liftP (pi8 b)
      .ok b
    | .i16 => do
      let (_, b) ← liftP (pi16 b)
      .ok b
    | .i32 => do
      let (_, b) ← liftP (pi32 b)
      .ok b
    | .i64 => do
      let (_, b) ← liftP (pi64 b)
      .ok b
    | .f32 => do
      let (_, b) ← liftP (pf32 b)
      .ok b
    | .f64 => do
      let (_, b) ← liftP (pf64 b)
      .ok b
    | .string1 => do
      let (_, b) ← liftP (pstrSmall b)
      .ok b
    | .string4 => do
      let (_, b) ← liftP (pstrBig b)
      .ok b
    | .map => do
      let (len, b) ← liftP (pmap b)
      pignoreN fuel (2 * len) b
    | .list => do
      let (len, b) ← liftP (plist b)
      pignoreN fuel len b
    | .structBegin => do
      let b ← liftP (pstructBegin b)
      pignoreStruct fuel b
    | .structEnd => liftP (pstructEnd b)
    | .zero => liftP (pzero b)
    | .bytes => do
      let (_, b) ← liftP (pbytes b)
      .ok b
termination_by fuel b => (fuel, 0)

/-- The `for _ in 0..len` skip loops of `ignore`. -/
def pignoreN : Nat → Nat → List Nat → Except DFail (List Nat)
  | _, 0, b => .ok b
  | fuel, n + 1, b => do
    let b ← pignore fuel b
    pignoreN fuel n b
termination_by fuel n b => (fuel, n)

/-- The record-field skip loop of `ignore` (stop at `StructEnd`). -/
def pignoreStruct : Nat → List Nat → Except DFail (List Nat)
  | 0, _ => .error .noFuel
  | fuel + 1, b => do
    let tp ← liftP (pickType b)
    match tp with
    | .structEnd => liftP (pstructEnd b)
    | _ => do
      let b ← pignore fuel b
      pignoreStruct fuel b
termination_by fuel b => (fuel, 0)

end

/-- `from_bytes::<Value>`: decode one value, then require the input to
be exhausted (`TrailingBytes` otherwise). -/
def fromBytesValue (fuel : Nat) (b : List Nat) : Except DFail Value :=
  match decodeAny fuel b with
  | .ok (v, []) => .ok v
  | .ok (_, _ :: _) => .error (.err .trailingBytes)
  | .error e => .error e

/-- `TagsAccess::get_tag`: peek the header; consume the terminator and
signal end-of-record, otherwise check the seen-tag set and record the
tag (the cursor stays on the field header). -/
def getTag (seen : List Nat) (b : List Nat) :
    Except JErr (Option Nat × List Nat × List Nat) :=
  match pickHead b with
  | .error e => .error e
  | .ok (tag, tp) =>
    match tp with
    | .structEnd =>
      match pstructEnd b with
      | .error e => .error e
      | .ok b => .ok (none, seen, b)
    | _ =>
      if tag ∈ seen then .error .duplicateFieldTag
      else .ok (some tag, tag :: seen, b)

/-- `TagsAccess::next_key_seed` in typed-record mode (an expected tag
set is known): loop `get_tag`, skipping any unexpected field wholesale
via `ignore` and stopping at an expected tag or the terminator. -/
def nextKeyTyped (fields : List Nat) : Nat → List Nat → List Nat →
    Except DFail (Option Nat × List Nat × List Nat)
  | 0, _, _ => .error .noFuel
  | fuel + 1, seen, b => do
    let (opt, seen, b) ← liftP (getTag seen b)
    match opt with
    | none => .ok (none, seen, b)
    | some tag =>
      if tag ∈ fields then .ok (some tag, seen, b)
      else do
        let b ← pignore fuel b
        nextKeyTyped fields fuel seen b

/-- The typed-record decode loop: repeatedly fetch the next expected
key and decode its value, collecting `(tag, value)` pairs in wire
order. -/
def scanTyped (fields : List Nat) : Nat → List Nat → List (Nat × Value) →
    List Nat → Except DFail (List (Nat × Value) × List Nat)
  | 0, _, _, _ => .error .noFuel
  | fuel + 1, seen, acc, b => do
    let (opt, seen, b) ← nextKeyTyped fields (fuel + 1) seen b
    match opt with
    | none => .ok (acc.reverse, b)
    | some tag => do
      let (v, b) ← decodeAny fuel b
      scanTyped fields fuel seen ((tag, v) :: acc) b

/-- Typed-record decoding of one whole record: consume the
`StructBegin` header, then run the `next_key_seed`/`next_value_seed`
loop against the expected tag set. -/
def scanStructTyped (fields : List Nat) (fuel : Nat) (b : List Nat) :
    Except DFail (List (Nat × Value) × List Nat) := do
  let b ← liftP (pstructBegin b)
  scanTyped fields fuel [] [] b

/-! ## Basic byte-level lemmas -/

theorem beBytes_length (k v : Nat) : (beBytes k v).length = k := by
  induction k generalizing v with
  | zero => rfl
  | succ k ih => simp [beBytes, ih]

theorem beVal_append_singleton (l : List Nat) (b : Nat) :
    beVal (l ++ [b]) = beVal l * 256 + b := by
  simp [beVal, List.foldl_append]

theorem beVal_beBytes (k v : Nat) : beVal (beBytes k v) = v % 256 ^ k := by
  induction k generalizing v with
  | zero => simp [beBytes, beVal, Nat.mod_one]
  | succ k ih =>
    rw [beBytes, beVal_append_singleton, ih]
    symm
    have h1 := Nat.div_add_mod v 256
    have h2 := Nat.div_add_mod (v / 256) (256 ^ k)
    have hm : v / 256 % 256 ^ k < 256 ^ k :=
      Nat.mod_lt _ (Nat.pos_pow_of_pos k (by norm_num))
    have hr : v % 256 < 256 := Nat.mod_lt _ (by norm_num)
    have hv : v = (v / 256 % 256 ^ k * 256 + v % 256) +
        256 ^ k * 256 * (v / 256 / 256 ^ k) := by
      have hexp : (v / 256 % 256 ^ k * 256 + v % 256) +
          256 ^ k * 256 * (v / 256 / 256 ^ k)
          = 256 * (256 ^ k * (v / 256 / 256 ^ k) + v / 256 % 256 ^ k) + v % 256 := by
        ring
      rw [hexp, h2, h1]
    have hlt : v / 256 % 256 ^ k * 256 + v % 256 < 256 ^ k * 256 := by
      have : (v / 256 % 256 ^ k) * 256 + 256 ≤ 256 ^ k * 256 := by
        have := Nat.succ_le_of_lt hm
        calc (v / 256 % 256 ^ k) * 256 + 256 = (v / 256 % 256 ^ k + 1) * 256 := by ring
        _ ≤ 256 ^ k * 256 := Nat.mul_le_mul_right _ this
      omega
    calc v % 256 ^ (k + 1)
        = ((v / 256 % 256 ^ k * 256 + v % 256) +
            256 ^ k * 256 * (v / 256 / 256 ^ k)) % 256 ^ (k + 1) := by rw [← hv]
      _ = (v / 256 % 256 ^ k * 256 + v % 256) % (256 ^ k * 256) := by
          rw [pow_succ]
          exact Nat.add_mul_mod_self_left _ _ _
      _ = v / 256 % 256 ^ k * 256 + v % 256 := Nat.mod_eq_of_lt hlt

theorem toUnsigned_lt (w : Nat) (v : Int) : toUnsigned w v < 2 ^ w := by
  have hpos : (0 : Int) < (2 ^ w : Nat) := by positivity
  have := Int.emod_lt_of_pos v hpos
  have h0 := Int.emod_nonneg v (by omega : ((2 ^ w : Nat) : Int) ≠ 0)
  unfold toUnsigned
  omega

theorem toSigned_toUnsigned (w : Nat) (v : Int) (hw : 1 ≤ w)
    (h : -(2 ^ (w - 1) : Nat) ≤ v ∧ v ≤ (2 ^ (w - 1) : Nat) - 1) :
    toSigned w (toUnsigned w v) = v := by
  have hsplit : 2 ^ w = 2 ^ (w - 1) * 2 := by
    rw [← pow_succ]
    congr 1
    omega
  have hpos : (0 : Int) < (2 ^ w : Nat) := by positivity
  have h2 : ((2 ^ w : Nat) : Int) = ((2 ^ (w - 1) : Nat) : Int) * 2 := by
    rw [hsplit]
    push_cast
    ring
  have hM : (1 : Int) ≤ ((2 ^ (w - 1) : Nat) : Int) := by
    exact_mod_cast Nat.one_le_two_pow
  rcases le_or_lt 0 v with hv | hv
  · have hmod : v % ((2 ^ w : Nat) : Int) = v := by
      apply Int.emod_eq_of_lt hv
      omega
    unfold toSigned toUnsigned
    rw [hmod]
    split <;> omega
  · have hmod : v % ((2 ^ w : Nat) : Int) = v + (2 ^ w : Nat) := by
      have h1 : (v + ((2 ^ w : Nat) : Int) * 1) % ((2 ^ w : Nat) : Int)
          = v % ((2 ^ w : Nat) : Int) := Int.add_mul_emod_self_left v _ 1
      rw [mul_one] at h1
      rw [← h1]
      apply Int.emod_eq_of_lt <;> omega
    unfold toSigned toUnsigned
    rw [hmod]
    split <;> omega

theorem getBytes_append_of_length (n : Nat) (l rest : List Nat) (h : l.length = n) :
    getBytes n (l ++ rest) = .ok (l, rest) := by
  subst h
  unfold getBytes
  rw [if_pos (by simp)]
  rw [List.take_left, List.drop_left]

theorem getBytes_append (l rest : List Nat) :
    getBytes l.length (l ++ rest) = .ok (l, rest) := by
  unfold getBytes
  rw [if_pos (by simp)]
  rw [List.take_left, List.drop_left]

theorem tryFrom_toNat (tp : JceType) : JceType.tryFrom tp.toNat = .ok tp := by
  cases tp <;> rfl

theorem toNat_lt (tp : JceType) : tp.toNat < 16 := by
  cases tp <;> simp [JceType.toNat]

theorem pushHead_ne_nil (tag : Nat) (tp : JceType) : pushHead tag tp ≠ [] := by
  unfold pushHead
  split <;> simp

theorem pickHead_pushHead (tag : Nat) (tp : JceType) (rest : List Nat)
    (htag : tag < 256) :
    pickHead (pushHead tag tp ++ rest) = .ok (tag, tp) := by
  have htp := toNat_lt tp
  unfold pushHead
  by_cases h : tag < 15
  · rw [if_pos h]
    unfold pickHead
    simp only [List.cons_append]
    have hmod : (tag * 16 + tp.toNat) % 16 = tp.toNat := by omega
    have hdiv : (tag * 16 + tp.toNat) / 16 = tag := by omega
    rw [hmod, tryFrom_toNat, hdiv]
    dsimp only
    rw [if_pos (by omega : tag ≠ 15)]
  · rw [if_neg h]
    unfold pickHead
    simp only [List.cons_append]
    have hmod : (0xf0 + tp.toNat) % 16 = tp.toNat := by omega
    have hdiv : (0xf0 + tp.toNat) / 16 = 15 := by omega
    rw [hmod, tryFrom_toNat, hdiv]
    dsimp only
    rw [if_neg (by omega : ¬ (15 : Nat) ≠ 15)]
    simp [Nat.mod_eq_of_lt htag]

theorem pickType_pushHead (tag : Nat) (tp : JceType) (rest : List Nat) :
    pickType (pushHead tag tp ++ rest) = .ok tp := by
  have htp := toNat_lt tp
  unfold pushHead
  by_cases h : tag < 15
  · rw [if_pos h]
    unfold pickType
    simp only [List.cons_append]
    have hmod : (tag * 16 + tp.toNat) % 16 = tp.toNat := by omega
    rw [hmod, tryFrom_toNat]
  · rw [if_neg h]
    unfold pickType
    simp only [List.cons_append]
    have hmod : (0xf0 + tp.toNat) % 16 = tp.toNat := by omega
    rw [hmod, tryFrom_toNat]

theorem getHead_pushHead (tag : Nat) (tp : JceType) (rest : List Nat)
    (htag : tag < 256) :
    getHead (pushHead tag tp ++ rest) = .ok ((tag, tp), rest) := by
  unfold getHead
  rw [pickHead_pushHead tag tp rest htag]
  dsimp only
  by_cases h : tag < 15
  · rw [if_pos h]
    unfold pushHead
    rw [if_pos h]
    simp
  · rw [if_neg h]
    unfold pushHead
    rw [if_neg h]
    simp

/-! ## Integer reader lemmas -/

theorem beVal_beBytes_toUnsigned (k w : Nat) (hw : w = 8 * k) (v : Int) :
    beVal (beBytes k (toUnsigned w v)) = toUnsigned w v := by
  rw [beVal_beBytes]
  apply Nat.mod_eq_of_lt
  have h := toUnsigned_lt w v
  subst hw
  calc toUnsigned (8 * k) v < 2 ^ (8 * k) := h
  _ = 256 ^ k := by
    rw [pow_mul]
    norm_num

theorem pi8_zero (tag : Nat) (htag : tag < 256) (rest : List Nat) :
    pi8 (pushHead tag .zero ++ rest) = .ok (0, rest) := by
  unfold pi8
  rw [getHead_pushHead _ _ _ htag]
  rfl

theorem pi16_zero (tag : Nat) (htag : tag < 256) (rest : List Nat) :
    pi16 (pushHead tag .zero ++ rest) = .ok (0, rest) := by
  unfold pi16
  rw [getHead_pushHead _ _ _ htag]
  rfl

theorem pi32_zero (tag : Nat) (htag : tag < 256) (rest : List Nat) :
    pi32 (pushHead tag .zero ++ rest) = .ok (0, rest) := by
  unfold pi32
  rw [getHead_pushHead _ _ _ htag]
  rfl

theorem pi64_zero (tag : Nat) (htag : tag < 256) (rest : List Nat) :
    pi64 (pushHead tag .zero ++ rest) = .ok (0, rest) := by
  unfold pi64
  rw [getHead_pushHead _ _ _ htag]
  rfl

theorem pi8_stored8 (tag : Nat) (htag : tag < 256) (v : Int)
    (hv : -128 ≤ v ∧ v ≤ 127) (rest : List Nat) :
    pi8 (pushHead tag .i8 ++ (beBytes 1 (toUnsigned 8 v) ++ rest)) = .ok (v, rest) := by
  unfold pi8
  rw [getHead_pushHead _ _ _ htag]
  show (do
    let (buf, b) ← getBytes 1 (beBytes 1 (toUnsigned 8 v) ++ rest)
    Except.ok (toSigned 8 (beVal buf), b)) = Except.ok (v, rest)
  rw [getBytes_append_of_length 1 _ rest (beBytes_length 1 _)]
  show Except.ok (toSigned 8 (beVal (beBytes 1 (toUnsigned 8 v))), rest) = Except.ok (v, rest)
  rw [beVal_beBytes_toUnsigned 1 8 (by norm_num) v]
  rw [toSigned_toUnsigned 8 v (by norm_num) (by push_cast; omega)]

theorem pi16_stored8 (tag : Nat) (htag : tag < 256) (v : Int)
    (hv : -128 ≤ v ∧ v ≤ 127) (rest : List Nat) :
    pi16 (pushHead tag .i8 ++ (beBytes 1 (toUnsigned 8 v) ++ rest)) = .ok (v, rest) := by
  unfold pi16
  rw [getHead_pushHead _ _ _ htag]
  show (do
    let (buf, b) ← getBytes 1 (beBytes 1 (toUnsigned 8 v) ++ rest)
    Except.ok (toSigned 8 (beVal buf), b)) = Except.ok (v, rest)
  rw [getBytes_append_of_length 1 _ rest (beBytes_length 1 _)]
  show Except.ok (toSigned 8 (beVal (beBytes 1 (toUnsigned 8 v))), rest) = Except.ok (v, rest)
  rw [beVal_beBytes_toUnsigned 1 8 (by norm_num) v]
  rw [toSigned_toUnsigned 8 v (by norm_num) (by push_cast; omega)]

theorem pi16_stored16 (tag : Nat) (htag : tag < 256) (v : Int)
    (hv : -32768 ≤ v ∧ v ≤ 32767) (rest : List Nat) :
    pi16 (pushHead tag .i16 ++ (beBytes 2 (toUnsigned 16 v) ++ rest)) = .ok (v, rest) := by
  unfold pi16
  rw [getHead_pushHead _ _ _ htag]
  show (do
    let (buf, b) ← getBytes 2 (beBytes 2 (toUnsigned 16 v) ++ rest)
    Except.ok (toSigned 16 (beVal buf), b)) = Except.ok (v, rest)
  rw [getBytes_append_of_length 2 _ rest (beBytes_length 2 _)]
  show Except.ok (toSigned 16 (beVal (beBytes 2 (toUnsigned 16 v))), rest) = Except.ok (v, rest)
  rw [beVal_beBytes_toUnsigned 2 16 (by norm_num) v]
  rw [toSigned_toUnsigned 16 v (by norm_num) (by push_cast; omega)]

theorem pi32_stored8 (tag : Nat) (htag : tag < 256) (v : Int)
    (hv : -128 ≤ v ∧ v ≤ 127) (rest : List Nat) :
    pi32 (pushHead tag .i8 ++ (beBytes 1 (toUnsigned 8 v) ++ rest)) = .ok (v, rest) := by
  unfold pi32
  rw [getHead_pushHead _ _ _ htag]
  show (do
    let (buf, b) ← getBytes 1 (beBytes 1 (toUnsigned 8 v) ++ rest)
    Except.ok (toSigned 8 (beVal buf), b)) = Except.ok (v, rest)
  rw [getBytes_append_of_length 1 _ rest (beBytes_length 1 _)]
  show Except.ok (toSigned 8 (beVal (beBytes 1 (toUnsigned 8 v))), rest) = Except.ok (v, rest)
  rw [beVal_beBytes_toUnsigned 1 8 (by norm_num) v]
  rw [toSigned_toUnsigned 8 v (by norm_num) (by push_cast; omega)]

theorem pi32_stored16 (tag : Nat) (htag : tag < 256) (v : Int)
    (hv : -32768 ≤ v ∧ v ≤ 32767) (rest : List Nat) :
    pi32 (pushHead tag .i16 ++ (beBytes 2 (toUnsigned 16 v) ++ rest)) = .ok (v, rest) := by
  unfold pi32
  rw [getHead_pushHead _ _ _ htag]
  show (do
    let (buf, b) ← getBytes 2 (beBytes 2 (toUnsigned 16 v) ++ rest)
    Except.ok (toSigned 16 (beVal buf), b)) = Except.ok (v, rest)
  rw [getBytes_append_of_length 2 _ rest (beBytes_length 2 _)]
  show Except.ok (toSigned 16 (beVal (beBytes 2 (toUnsigned 16 v))), rest) = Except.ok (v, rest)
  rw [beVal_beBytes_toUnsigned 2 16 (by norm_num) v]
  rw [toSigned_toUnsigned 16 v (by norm_num) (by push_cast; omega)]

theorem pi32_stored32 (tag : Nat) (htag : tag < 256) (v : Int)
    (hv : -2147483648 ≤ v ∧ v ≤ 2147483647) (rest : List Nat) :
    pi32 (pushHead tag .i32 ++ (beBytes 4 (toUnsigned 32 v) ++ rest)) = .ok (v, rest) := by
  unfold pi32
  rw [getHead_pushHead _ _ _ htag]
  show (do
    let (buf, b) ← getBytes 4 (beBytes 4 (toUnsigned 32 v) ++ rest)
    Except.ok (toSigned 32 (beVal buf), b)) = Except.ok (v, rest)
  rw [getBytes_append_of_length 4 _ rest (beBytes_length 4 _)]
  show Except.ok (toSigned 32 (beVal (beBytes 4 (toUnsigned 32 v))), rest) = Except.ok (v, rest)
  rw [beVal_beBytes_toUnsigned 4 32 (by norm_num) v]
  rw [toSigned_toUnsigned 32 v (by norm_num) (by push_cast; omega)]

theorem pi64_stored8 (tag : Nat) (htag : tag < 256) (v : Int)
    (hv : -128 ≤ v ∧ v ≤ 127) (rest : List Nat) :
    pi64 (pushHead tag .i8 ++ (beBytes 1 (toUnsigned 8 v) ++ rest)) = .ok (v, rest) := by
  unfold pi64
  rw [getHead_pushHead _ _ _ htag]
  show (do
    let (buf, b) ← getBytes 1 (beBytes 1 (toUnsigned 8 v) ++ rest)
    Except.ok (toSigned 8 (beVal buf), b)) = Except.ok (v, rest)
  rw [getBytes_append_of_length 1 _ rest (beBytes_length 1 _)]
  show Except.ok (toSigned 8 (beVal (beBytes 1 (toUnsigned 8 v))), rest) = Except.ok (v, rest)
  rw [beVal_beBytes_toUnsigned 1 8 (by norm_num) v]
  rw [toSigned_toUnsigned 8 v (by norm_num) (by push_cast; omega)]

theorem pi64_stored16 (tag : Nat) (htag : tag < 256) (v : Int)
    (hv : -32768 ≤ v ∧ v ≤ 32767) (rest : List Nat) :
    pi64 (pushHead tag .i16 ++ (beBytes 2 (toUnsigned 16 v) ++ rest)) = .ok (v, rest) := by
  unfold pi64
  rw [getHead_pushHead _ _ _ htag]
  show (do
    let (buf, b) ← getBytes 2 (beBytes 2 (toUnsigned 16 v) ++ rest)
    Except.ok (toSigned 16 (beVal buf), b)) = Except.ok (v, rest)
  rw [getBytes_append_of_length 2 _ rest (beBytes_length 2 _)]
  show Except.ok (toSigned 16 (beVal (beBytes 2 (toUnsigned 16 v))), rest) = Except.ok (v, rest)
  rw [beVal_beBytes_toUnsigned 2 16 (by norm_num) v]
  rw [toSigned_toUnsigned 16 v (by norm_num) (by push_cast; omega)]

theorem pi64_stored32 (tag : Nat) (htag : tag < 256) (v : Int)
    (hv : -2147483648 ≤ v ∧ v ≤ 2147483647) (rest : List Nat) :
    pi64 (pushHead tag .i32 ++ (beBytes 4 (toUnsigned 32 v) ++ rest)) = .ok (v, rest) := by
  unfold pi64
  rw [getHead_pushHead _ _ _ htag]
  show (do
    let (buf, b) ← getBytes 4 (beBytes 4 (toUnsigned 32 v) ++ rest)
    Except.ok (toSigned 32 (beVal buf), b)) = Except.ok (v, rest)
  rw [getBytes_append_of_length 4 _ rest (beBytes_length 4 _)]
  show Except.ok (toSigned 32 (beVal (beBytes 4 (toUnsigned 32 v))), rest) = Except.ok (v, rest)
  rw [beVal_beBytes_toUnsigned 4 32 (by norm_num) v]
  rw [toSigned_toUnsigned 32 v (by norm_num) (by push_cast; omega)]

theorem pi64_stored64 (tag : Nat) (htag : tag < 256) (v : Int)
    (hv : -(2 ^ 63 : Int) ≤ v ∧ v ≤ 2 ^ 63 - 1) (rest : List Nat) :
    pi64 (pushHead tag .i64 ++ (beBytes 8 (toUnsigned 64 v) ++ rest)) = .ok (v, rest) := by
  unfold pi64
  rw [getHead_pushHead _ _ _ htag]
  show (do
    let (buf, b) ← getBytes 8 (beBytes 8 (toUnsigned 64 v) ++ rest)
    Except.ok (toSigned 64 (beVal buf), b)) = Except.ok (v, rest)
  rw [getBytes_append_of_length 8 _ rest (beBytes_length 8 _)]
  show Except.ok (toSigned 64 (beVal (beBytes 8 (toUnsigned 64 v))), rest) = Except.ok (v, rest)
  rw [beVal_beBytes_toUnsigned 8 64 (by norm_num) v]
  rw [toSigned_toUnsigned 64 v (by norm_num) (by push_cast; omega)]

theorem pi8_wrongType (tag : Nat) (htag : tag < 256) (tp : JceType)
    (h : tp ≠ .zero ∧ tp ≠ .i8) (rest : List Nat) :
    pi8 (pushHead tag tp ++ rest) = .error .wrongType := by
  unfold pi8
  rw [getHead_pushHead _ _ _ htag]
  cases tp <;> first | rfl | simp_all

theorem pi16_wrongType (tag : Nat) (htag : tag < 256) (tp : JceType)
    (h : tp ≠ .zero ∧ tp ≠ .i8 ∧ tp ≠ .i16) (rest : List Nat) :
    pi16 (pushHead tag tp ++ rest) = .error .wrongType := by
  unfold pi16
  rw [getHead_pushHead _ _ _ htag]
  cases tp <;> first | rfl | simp_all

theorem pi32_wrongType (tag : Nat) (htag : tag < 256) (tp : JceType)
    (h : tp ≠ .zero ∧ tp ≠ .i8 ∧ tp ≠ .i16 ∧ tp ≠ .i32) (rest : List Nat) :
    pi32 (pushHead tag tp ++ rest) = .error .wrongType := by
  unfold pi32
  rw [getHead_pushHead _ _ _ htag]
  cases tp <;> first | rfl | simp_all

theorem pi64_wrongType (tag : Nat) (htag : tag < 256) (tp : JceType)
    (h : tp ≠ .zero ∧ tp ≠ .i8 ∧ tp ≠ .i16 ∧ tp ≠ .i32 ∧ tp ≠ .i64) (rest : List Nat) :
    pi64 (pushHead tag tp ++ rest) = .error .wrongType := by
  unfold pi64
  rw [getHead_pushHead _ _ _ htag]
  cases tp <;> first | rfl | simp_all

/-! ## Builder shape lemmas (narrowing case analysis) -/

theorem bi64_eq_zero (tag : Nat) {v : Int} (h : v = 0) :
    bi64 tag v = pushHead tag .zero := by
  subst h
  simp [bi64, bi32, bi16, bi8, bzero]

theorem bi64_eq_i8 (tag : Nat) {v : Int} (h0 : v ≠ 0)
    (h : -128 ≤ v ∧ v ≤ 127) :
    bi64 tag v = pushHead tag .i8 ++ beBytes 1 (toUnsigned 8 v) := by
  rw [bi64, if_pos (by omega), bi32, if_pos (by omega), bi16, if_pos (by omega),
    bi8, if_neg h0]

theorem bi64_eq_i16 (tag : Nat) {v : Int} (h8 : ¬(-128 ≤ v ∧ v ≤ 127))
    (h : -32768 ≤ v ∧ v ≤ 32767) :
    bi64 tag v = pushHead tag .i16 ++ beBytes 2 (toUnsigned 16 v) := by
  rw [bi64, if_pos (by omega), bi32, if_pos (by omega), bi16, if_neg h8]

theorem bi64_eq_i32 (tag : Nat) {v : Int} (h16 : ¬(-32768 ≤ v ∧ v ≤ 32767))
    (h : -2147483648 ≤ v ∧ v ≤ 2147483647) :
    bi64 tag v = pushHead tag .i32 ++ beBytes 4 (toUnsigned 32 v) := by
  rw [bi64, if_pos (by omega), bi32, if_neg h16]

theorem bi64_eq_i64 (tag : Nat) {v : Int}
    (h32 : ¬(-2147483648 ≤ v ∧ v ≤ 2147483647)) :
    bi64 tag v = pushHead tag .i64 ++ beBytes 8 (toUnsigned 64 v) := by
  rw [bi64, if_neg h32]

theorem bi32_eq_zero (tag : Nat) {v : Int} (h : v = 0) :
    bi32 tag v = pushHead tag .zero := by
  subst h
  simp [bi32, bi16, bi8, bzero]

theorem bi32_eq_i8 (tag : Nat) {v : Int} (h0 : v ≠ 0)
    (h : -128 ≤ v ∧ v ≤ 127) :
    bi32 tag v = pushHead tag .i8 ++ beBytes 1 (toUnsigned 8 v) := by
  rw [bi32, if_pos (by omega), bi16, if_pos (by omega), bi8, if_neg h0]

theorem bi32_eq_i16 (tag : Nat) {v : Int} (h8 : ¬(-128 ≤ v ∧ v ≤ 127))
    (h : -32768 ≤ v ∧ v ≤ 32767) :
    bi32 tag v = pushHead tag .i16 ++ beBytes 2 (toUnsigned 16 v) := by
  rw [bi32, if_pos (by omega), bi16, if_neg h8]

theorem bi32_eq_i32 (tag : Nat) {v : Int}
    (h16 : ¬(-32768 ≤ v ∧ v ≤ 32767)) :
    bi32 tag v = pushHead tag .i32 ++ beBytes 4 (toUnsigned 32 v) := by
  rw [bi32, if_neg h16]

/-- Decoding a `bi32`-narrowed encoding with the `i32` reader recovers
the value exactly. -/
theorem pi32_bi32 (tag : Nat) (htag : tag < 256) (v : Int)
    (hv : -2147483648 ≤ v ∧ v ≤ 2147483647) (rest : List Nat) :
    pi32 (bi32 tag v ++ rest) = .ok (v, rest) := by
  by_cases h0 : v = 0
  · rw [bi32_eq_zero tag h0, pi32_zero tag htag, h0]
  · by_cases h8 : -128 ≤ v ∧ v ≤ 127
    · rw [bi32_eq_i8 tag h0 h8, List.append_assoc]
      exact pi32_stored8 tag htag v h8 rest
    · by_cases h16 : -32768 ≤ v ∧ v ≤ 32767
      · rw [bi32_eq_i16 tag h8 h16, List.append_assoc]
        exact pi32_stored16 tag htag v h16 rest
      · rw [bi32_eq_i32 tag h16, List.append_assoc]
        exact pi32_stored32 tag htag v hv rest

/-- Decoding a `bi64`-narrowed encoding with the `i64` reader recovers
the value exactly. -/
theorem pi64_bi64 (tag : Nat) (htag : tag < 256) (v : Int)
    (hv : -(2 ^ 63 : Int) ≤ v ∧ v ≤ 2 ^ 63 - 1) (rest : List Nat) :
    pi64 (bi64 tag v ++ rest) = .ok (v, rest) := by
  by_cases h0 : v = 0
  · rw [bi64_eq_zero tag h0, pi64_zero tag htag, h0]
  · by_cases h8 : -128 ≤ v ∧ v ≤ 127
    · rw [bi64_eq_i8 tag h0 h8, List.append_assoc]
      exact pi64_stored8 tag htag v h8 rest
    · by_cases h16 : -32768 ≤ v ∧ v ≤ 32767
      · rw [bi64_eq_i16 tag h8 h16, List.append_assoc]
        exact pi64_stored16 tag htag v h16 rest
      · by_cases h32 : -2147483648 ≤ v ∧ v ≤ 2147483647
        · rw [bi64_eq_i32 tag h16 h32, List.append_assoc]
          exact pi64_stored32 tag htag v h32 rest
        · rw [bi64_eq_i64 tag h32, List.append_assoc]
          exact pi64_stored64 tag htag v hv rest

/-! ## Claim C2 -/

/-- C2: for every `i64` value `v` and tag, `Jcebuilder::i64` emits the
minimal-width wire form representing `v` exactly: the header-only
Absent (`Zero`) form when `v == 0`, `Int1` when `v` fits in `i8`,
`Int2` when it fits in `i16` but not `i8`, `Int4` when it fits in `i32`
but not `i16`, and `Int8` otherwise; it never emits a wider form than
necessary.  (The Absent form is the single header byte
`tag<<4 | 12` for tags ≤ 14 and the two-byte long-tag header
otherwise.) -/
theorem claim_C2_integer_narrowing (tag : Nat) (htag : tag < 256) (v : Int)
    (h64 : -(2 ^ 63 : Int) ≤ v ∧ v ≤ 2 ^ 63 - 1) :
    (v = 0 → bi64 tag v = pushHead tag .zero) ∧
    (v ≠ 0 → -128 ≤ v ∧ v ≤ 127 →
      bi64 tag v = pushHead tag .i8 ++ beBytes 1 (toUnsigned 8 v)) ∧
    (¬(-128 ≤ v ∧ v ≤ 127) → -32768 ≤ v ∧ v ≤ 32767 →
      bi64 tag v = pushHead tag .i16 ++ beBytes 2 (toUnsigned 16 v)) ∧
    (¬(-32768 ≤ v ∧ v ≤ 32767) → -2147483648 ≤ v ∧ v ≤ 2147483647 →
      bi64 tag v = pushHead tag .i32 ++ beBytes 4 (toUnsigned 32 v)) ∧
    (¬(-2147483648 ≤ v ∧ v ≤ 2147483647) →
      bi64 tag v = pushHead tag .i64 ++ beBytes 8 (toUnsigned 64 v)) :=
  ⟨fun h0 => bi64_eq_zero tag h0,
   fun h0 h8 => bi64_eq_i8 tag h0 h8,
   fun h8 h16 => bi64_eq_i16 tag h8 h16,
   fun h16 h32 => bi64_eq_i32 tag h16 h32,
   fun h32 => bi64_eq_i64 tag h32⟩

/-- Witness for C2: 300 is emitted as an `Int2` form. -/
theorem claim_C2_integer_narrowing_witness :
    bi64 3 300 = pushHead 3 .i16 ++ beBytes 2 (toUnsigned 16 300) :=
  (claim_C2_integer_narrowing 3 (by norm_num) 300 (by norm_num)).2.2.1
    (by norm_num) (by norm_num)

/-! ## Claim C3 -/

/-- C3: for every integer read of requested width N, a stored integer
of width ≤ N returns exactly the stored value (sign-extended), the
Absent/Zero marker returns 0 (in particular `pi64 [0x0C]` is 0), and a
stored integer of width > N or any non-integer wire type fails with
`WrongType`. -/
theorem claim_C3_integer_widening :
    (∀ tag, tag < 256 → ∀ rest : List Nat,
      pi8 (pushHead tag .zero ++ rest) = .ok (0, rest) ∧
      pi16 (pushHead tag .zero ++ rest) = .ok (0, rest) ∧
      pi32 (pushHead tag .zero ++ rest) = .ok (0, rest) ∧
      pi64 (pushHead tag .zero ++ rest) = .ok (0, rest)) ∧
    (∀ tag, tag < 256 → ∀ v : Int, -128 ≤ v ∧ v ≤ 127 → ∀ rest : List Nat,
      pi8 (pushHead tag .i8 ++ (beBytes 1 (toUnsigned 8 v) ++ rest)) = .ok (v, rest) ∧
      pi16 (pushHead tag .i8 ++ (beBytes 1 (toUnsigned 8 v) ++ rest)) = .ok (v, rest) ∧
      pi32 (pushHead tag .i8 ++ (beBytes 1 (toUnsigned 8 v) ++ rest)) = .ok (v, rest) ∧
      pi64 (pushHead tag .i8 ++ (beBytes 1 (toUnsigned 8 v) ++ rest)) = .ok (v, rest)) ∧
    (∀ tag, tag < 256 → ∀ v : Int, -32768 ≤ v ∧ v ≤ 32767 → ∀ rest : List Nat,
      pi16 (pushHead tag .i16 ++ (beBytes 2 (toUnsigned 16 v) ++ rest)) = .ok (v, rest) ∧
      pi32 (pushHead tag .i16 ++ (beBytes 2 (toUnsigned 16 v) ++ rest)) = .ok (v, rest) ∧
      pi64 (pushHead tag .i16 ++ (beBytes 2 (toUnsigned 16 v) ++ rest)) = .ok (v, rest)) ∧
    (∀ tag, tag < 256 → ∀ v : Int, -2147483648 ≤ v ∧ v ≤ 2147483647 → ∀ rest : List Nat,
      pi32 (pushHead tag .i32 ++ (beBytes 4 (toUnsigned 32 v) ++ rest)) = .ok (v, rest) ∧
      pi64 (pushHead tag .i32 ++ (beBytes 4 (toUnsigned 32 v) ++ rest)) = .ok (v, rest)) ∧
    (∀ tag, tag < 256 → ∀ v : Int, -(2 ^ 63 : Int) ≤ v ∧ v ≤ 2 ^ 63 - 1 → ∀ rest : List Nat,
      pi64 (pushHead tag .i64 ++ (beBytes 8 (toUnsigned 64 v) ++ rest)) = .ok (v, rest)) ∧
    (∀ tag, tag < 256 → ∀ tp : JceType, tp ≠ .zero ∧ tp ≠ .i8 → ∀ rest : List Nat,
      pi8 (pushHead tag tp ++ rest) = .error .wrongType) ∧
    (∀ tag, tag < 256 → ∀ tp : JceType, tp ≠ .zero ∧ tp ≠ .i8 ∧ tp ≠ .i16 → ∀ rest : List Nat,
      pi16 (pushHead tag tp ++ rest) = .error .wrongType) ∧
    (∀ tag, tag < 256 → ∀ tp : JceType,
      tp ≠ .zero ∧ tp ≠ .i8 ∧ tp ≠ .i16 ∧ tp ≠ .i32 → ∀ rest : List Nat,
      pi32 (pushHead tag tp ++ rest) = .error .wrongType) ∧
    (∀ tag, tag < 256 → ∀ tp : JceType,
      tp ≠ .zero ∧ tp ≠ .i8 ∧ tp ≠ .i16 ∧ tp ≠ .i32 ∧ tp ≠ .i64 → ∀ rest : List Nat,
      pi64 (pushHead tag tp ++ rest) = .error .wrongType) ∧
    pi64 [0x0c] = .ok (0, []) := by
  refine ⟨?_, ?_, ?_, ?_, ?_, ?_, ?_, ?_, ?_, ?_⟩
  · exact fun tag htag rest =>
      ⟨pi8_zero tag htag rest, pi16_zero tag htag rest,
       pi32_zero tag htag rest, pi64_zero tag htag rest⟩
  · exact fun tag htag v hv rest =>
      ⟨pi8_stored8 tag htag v hv rest, pi16_stored8 tag htag v hv rest,
       pi32_stored8 tag htag v hv rest, pi64_stored8 tag htag v hv rest⟩
  · exact fun tag htag v hv rest =>
      ⟨pi16_stored16 tag htag v hv rest, pi32_stored16 tag htag v hv rest,
       pi64_stored16 tag htag v hv rest⟩
  · exact fun tag htag v hv rest =>
      ⟨pi32_stored32 tag htag v hv rest, pi64_stored32 tag htag v hv rest⟩
  · exact fun tag htag v hv rest => pi64_stored64 tag htag v hv rest
  · exact fun tag htag tp h rest => pi8_wrongType tag htag tp h rest
  · exact fun tag htag tp h rest => pi16_wrongType tag htag tp h rest
  · exact fun tag htag tp h rest => pi32_wrongType tag htag tp h rest
  · exact fun tag htag tp h rest => pi64_wrongType tag htag tp h rest
  · have h := pi64_zero 0 (by norm_num) []
    simpa [pushHead] using h

/-- Witness for C3: the value 5 stored as `Int1` read back at width
64. -/
theorem claim_C3_integer_widening_witness :
    pi64 (pushHead 0 .i8 ++ (beBytes 1 (toUnsigned 8 5) ++ [])) = .ok (5, []) :=
  (claim_C3_integer_widening.2.1 0 (by norm_num) 5 (by norm_num) []).2.2.2

/-! ## Claim C7 -/

/-- Counterexample to C7 as stated: encoding the byte string
`[0x01, 0x02]` under tag 0 does NOT produce
`0D 00 00 00 00 02 01 02` (a raw 4-byte length); the inner 32-bit
length goes through the integer-narrowing path, so the output is the
6-byte sequence `0D 00 00 02 01 02`. -/
theorem claim_C7_counterexample :
    bbytes 0 [0x01, 0x02] = [0x0d, 0x00, 0x00, 0x02, 0x01, 0x02] ∧
    bbytes 0 [0x01, 0x02] ≠ [0x0d, 0x00, 0x00, 0x00, 0x00, 0x02, 0x01, 0x02] := by
  constructor
  · rfl
  · decide

/-- C7 (amended): encoding the byte string `[0x01, 0x02]` under tag 0
produces exactly `0D 00 00 02 01 02`: the `BytesMarker` header, the
`Int1`-typed inner header, the 32-bit length 2 written through the same
integer-narrowing path as any other `i32` (here an `Int1`-headered
byte `02`), and the two payload bytes — both at the builder level and
through the serde `serialize_bytes` path. -/
theorem claim_C7_bytes_encoding :
    bbytes 0 [0x01, 0x02] = [0x0d, 0x00, 0x00, 0x02, 0x01, 0x02] ∧
    encodeValue 0 (.bytes [0x01, 0x02]) = .ok [0x0d, 0x00, 0x00, 0x02, 0x01, 0x02] := by
  constructor
  · rfl
  · simp [encodeValue, BYTES_MAX_LENGTH]
    rfl

/-! ## Claim C8 -/

/-- Counterexample to C8 as stated: the byte `0x0F` is not a long-form
header marker (the marker nibble is the HIGH nibble: `0xF0 | type`);
its low nibble 15 is not a valid wire type, so decoding the header of
`0F 0A 12` fails with `UnknownJceType` instead of yielding tag 10. -/
theorem claim_C8_counterexample :
    pickHead [0x0f, 0x0a, 0x12] = .error .unknownJceType := by
  rfl

/-- C8 (amended): the long-form header marker is the byte
`0xF0 | type` followed by one raw tag byte.  Decoding the header of
`F0 0F 12` succeeds and yields tag 15 with wire type `Int1`, after
which the payload byte `0x12` is read as the `Int1` value `0x12`. -/
theorem claim_C8_long_tag_header :
    pickHead [0xf0, 0x0f, 0x12] = .ok (15, .i8) ∧
    pi8 [0xf0, 0x0f, 0x12] = .ok (0x12, []) := by
  constructor
  · rfl
  · rfl

/-! ## Claim C10 -/

/-- C10: on any input whose first header carries the `StructEnd` wire
type — e.g. the single byte `0x0B` — the schema-less decode-any path
hits the `todo!()` marker and panics rather than returning an error
result, so top-level decoding is not total over arbitrary inputs. -/
theorem claim_C10_struct_end_panics :
    (∀ fuel : Nat, decodeAny (fuel + 1) [0x0b] = .error .panicked) ∧
    (∀ fuel : Nat, fromBytesValue (fuel + 1) [0x0b] = .error .panicked) ∧
    (∀ e : JErr, DFail.panicked ≠ DFail.err e) := by
  have hd : ∀ fuel : Nat, decodeAny (fuel + 1) [0x0b] = .error .panicked := by
    intro fuel
    rw [decodeAny]
    rfl
  refine ⟨hd, ?_, ?_⟩
  · intro fuel
    unfold fromBytesValue
    rw [hd fuel]
  · intro e h
    exact DFail.noConfusion h

/-- Witness for C10 at fuel 1 and the `WrongType` error value. -/
theorem claim_C10_struct_end_panics_witness :
    decodeAny 1 [0x0b] = .error .panicked ∧
    DFail.panicked ≠ DFail.err .wrongType :=
  ⟨claim_C10_struct_end_panics.1 0, claim_C10_struct_end_panics.2.2 .wrongType⟩

/-! ## Claim C6 -/

/-- Counterexample to C6 as stated: the empty string does not encode to
the Absent form; `serialize_str` sends it through `Jcebuilder::str`,
which emits a `ShortString` header with a zero length byte
(`06 00` at tag 0). -/
theorem claim_C6_counterexample :
    encodeValue 0 (.string []) = .ok [0x06, 0x00] ∧
    ([0x06, 0x00] : List Nat) ≠ [0x0c] := by
  constructor
  · simp [encodeValue, STRING_MAX_LENGTH]
    rfl
  · decide

/-- C6 (amended): encoding the integer value 0 or a none/default
option under any tag emits the header-only Absent (`Zero`) form (a
single byte for tags ≤ 14), never a wider numeric encoding; the empty
string instead emits the two-byte `ShortString` form with length byte
0, not the Absent form. -/
theorem claim_C6_zero_elision (tag : Nat) (htag : tag < 256) :
    encodeValue tag (.int 0) = .ok (pushHead tag .zero) ∧
    encodeValue tag .zero = .ok (pushHead tag .zero) ∧
    encodeValue tag (.string []) = .ok (pushHead tag .string1 ++ [0]) ∧
    (tag < 15 → pushHead tag .zero = [tag * 16 + 12]) := by
  refine ⟨?_, ?_, ?_, ?_⟩
  · simp [encodeValue]
    rw [bi64_eq_zero tag rfl]
  · simp [encodeValue, bzero]
  · simp [encodeValue, STRING_MAX_LENGTH, bstr]
  · intro h
    simp [pushHead, if_pos h, JceType.toNat]

/-- Witness for C6 at tag 3. -/
theorem claim_C6_zero_elision_witness :
    encodeValue 3 (.int 0) = .ok (pushHead 3 .zero) ∧
    pushHead 3 .zero = [0x3c] :=
  ⟨(claim_C6_zero_elision 3 (by norm_num)).1,
   (claim_C6_zero_elision 3 (by norm_num)).2.2.2 (by norm_num)⟩

/-! ## Total-order laws for `Value.cmp` (claim C9) -/

theorem intCmp_lt_iff (a b : Int) : intCmp a b = .lt ↔ a < b := by
  unfold intCmp
  split_ifs with h1 h2
  · exact iff_of_true rfl h1
  · exact iff_of_false (by simp) (by omega)
  · exact iff_of_false (by simp) (by omega)

theorem intCmp_eq_iff (a b : Int) : intCmp a b = .eq ↔ a = b := by
  unfold intCmp
  split_ifs with h1 h2
  · exact iff_of_false (by simp) (by omega)
  · exact iff_of_true rfl h2
  · exact iff_of_false (by simp) (by omega)

theorem intCmp_gt_iff (a b : Int) : intCmp a b = .gt ↔ b < a := by
  unfold intCmp
  split_ifs with h1 h2
  · exact iff_of_false (by simp) (by omega)
  · exact iff_of_false (by simp) (by omega)
  · exact iff_of_true rfl (by omega)

theorem intCmp_refl (a : Int) : intCmp a a = .eq :=
  (intCmp_eq_iff a a).mpr rfl

theorem intCmp_swap (a b : Int) : (intCmp a b).swap = intCmp b a := by
  rcases hab : intCmp a b with _ | _ | _
  · rw [show intCmp b a = .gt from (intCmp_gt_iff b a).mpr ((intCmp_lt_iff a b).mp hab)]
    rfl
  · rw [show intCmp b a = .eq from (intCmp_eq_iff b a).mpr ((intCmp_eq_iff a b).mp hab).symm]
    rfl
  · rw [show intCmp b a = .lt from (intCmp_lt_iff b a).mpr ((intCmp_gt_iff a b).mp hab)]
    rfl

theorem intCmp_trans {a b c : Int} (h1 : intCmp a b = .lt) (h2 : intCmp b c = .lt) :
    intCmp a c = .lt := by
  rw [intCmp_lt_iff] at h1 h2 ⊢
  omega

theorem natCmp_lt_iff (a b : Nat) : natCmp a b = .lt ↔ a < b := by
  unfold natCmp
  split_ifs with h1 h2
  · exact iff_of_true rfl h1
  · exact iff_of_false (by simp) (by omega)
  · exact iff_of_false (by simp) (by omega)

theorem natCmp_eq_iff (a b : Nat) : natCmp a b = .eq ↔ a = b := by
  unfold natCmp
  split_ifs with h1 h2
  · exact iff_of_false (by simp) (by omega)
  · exact iff_of_true rfl h2
  · exact iff_of_false (by simp) (by omega)

theorem natCmp_gt_iff (a b : Nat) : natCmp a b = .gt ↔ b < a := by
  unfold natCmp
  split_ifs with h1 h2
  · exact iff_of_false (by simp) (by omega)
  · exact iff_of_false (by simp) (by omega)
  · exact iff_of_true rfl (by omega)

theorem natCmp_refl (a : Nat) : natCmp a a = .eq :=
  (natCmp_eq_iff a a).mpr rfl

theorem natCmp_swap (a b : Nat) : (natCmp a b).swap = natCmp b a := by
  rcases hab : natCmp a b with _ | _ | _
  · rw [show natCmp b a = .gt from (natCmp_gt_iff b a).mpr ((natCmp_lt_iff a b).mp hab)]
    rfl
  · rw [show natCmp b a = .eq from (natCmp_eq_iff b a).mpr ((natCmp_eq_iff a b).mp hab).symm]
    rfl
  · rw [show natCmp b a = .lt from (natCmp_lt_iff b a).mpr ((natCmp_gt_iff a b).mp hab)]
    rfl

theorem natCmp_trans {a b c : Nat} (h1 : natCmp a b = .lt) (h2 : natCmp b c = .lt) :
    natCmp a c = .lt := by
  rw [natCmp_lt_iff] at h1 h2 ⊢
  omega

theorem byteListCmp_refl (l : List Nat) : byteListCmp l l = .eq := by
  induction l with
  | nil => rfl
  | cons x xs ih => simp [byteListCmp, natCmp_refl, ih]

theorem byteListCmp_eq_iff (l m : List Nat) : byteListCmp l m = .eq ↔ l = m := by
  induction l generalizing m with
  | nil => cases m <;> simp [byteListCmp]
  | cons x xs ih =>
    cases m with
    | nil => simp [byteListCmp]
    | cons y ys =>
      simp only [byteListCmp]
      rcases hc : natCmp x y with _ | _ | _
      · constructor
        · intro h
          cases h
        · intro h
          injection h with h1 h2
          subst h1
          rw [natCmp_refl] at hc
          cases hc
      · have hxy := (natCmp_eq_iff x y).mp hc
        subst hxy
        rw [ih]
        constructor
        · intro h
          rw [h]
        · intro h
          injection h
      · constructor
        · intro h
          cases h
        · intro h
          injection h with h1 h2
          subst h1
          rw [natCmp_refl] at hc
          cases hc

theorem byteListCmp_swap (l m : List Nat) : (byteListCmp l m).swap = byteListCmp m l := by
  induction l generalizing m with
  | nil => cases m <;> rfl
  | cons x xs ih =>
    cases m with
    | nil => rfl
    | cons y ys =>
      simp only [byteListCmp]
      rcases hc : natCmp x y with _ | _ | _ <;>
        rw [← natCmp_swap x y, hc]
      · rfl
      · exact ih ys
      · rfl

theorem byteListCmp_trans {l m k : List Nat} (h1 : byteListCmp l m = .lt)
    (h2 : byteListCmp m k = .lt) : byteListCmp l k = .lt := by
  induction l generalizing m k with
  | nil =>
    cases m with
    | nil => exact absurd h1 (by simp [byteListCmp])
    | cons y ys =>
      cases k with
      | nil => exact absurd h2 (by simp [byteListCmp])
      | cons z zs => simp [byteListCmp]
  | cons x xs ih =>
    cases m with
    | nil => exact absurd h1 (by simp [byteListCmp])
    | cons y ys =>
      cases k with
      | nil => exact absurd h2 (by simp [byteListCmp])
      | cons z zs =>
        simp only [byteListCmp] at h1 h2 ⊢
        rcases hxy : natCmp x y with _ | _ | _ <;> rw [hxy] at h1 <;>
          rcases hyz : natCmp y z with _ | _ | _ <;> rw [hyz] at h2
        · rw [show natCmp x z = .lt from natCmp_trans hxy hyz]
        · rw [(natCmp_eq_iff y z).mp hyz] at hxy
          rw [hxy]
        · cases h2
        · rw [← (natCmp_eq_iff x y).mp hxy] at hyz
          rw [hyz]
        · rw [(natCmp_eq_iff x y).mp hxy, (natCmp_eq_iff y z).mp hyz,
            natCmp_refl]
          exact ih h1 h2
        · cases h2
        · cases h1
        · cases h1
        · cases h1

/-- The cross-variant rank of the `Value` order:
Absent < Int < Float < Double < String < Bytes < List < Map < Object. -/
def rank : Value → Nat
  | .zero => 0
  | .int _ => 1
  | .float _ => 2
  | .double _ => 3
  | .string _ => 4
  | .bytes _ => 5
  | .list _ => 6
  | .map _ => 7
  | .object _ => 8

theorem cmp_rank_lt (v w : Value) (h : rank v < rank w) : Value.cmp v w = .lt := by
  cases v <;> cases w <;> simp_all [rank, Value.cmp]

theorem cmp_rank_gt (v w : Value) (h : rank w < rank v) : Value.cmp v w = .gt := by
  cases v <;> cases w <;> simp_all [rank, Value.cmp]

theorem rank_zero_inv (v : Value) (h : rank v = 0) : v = .zero := by
  cases v <;> simp_all [rank]

theorem rank_int_inv (v : Value) (h : rank v = 1) : ∃ a, v = .int a := by
  cases v <;> simp_all [rank]

theorem rank_float_inv (v : Value) (h : rank v = 2) : ∃ a, v = .float a := by
  cases v <;> simp_all [rank]

theorem rank_double_inv (v : Value) (h : rank v = 3) : ∃ a, v = .double a := by
  cases v <;> simp_all [rank]

theorem rank_string_inv (v : Value) (h : rank v = 4) : ∃ s, v = .string s := by
  cases v <;> simp_all [rank]

theorem rank_bytes_inv (v : Value) (h : rank v = 5) : ∃ s, v = .bytes s := by
  cases v <;> simp_all [rank]

theorem rank_list_inv (v : Value) (h : rank v = 6) : ∃ l, v = .list l := by
  cases v <;> simp_all [rank]

theorem rank_map_inv (v : Value) (h : rank v = 7) : ∃ es, v = .map es := by
  cases v <;> simp_all [rank]

theorem rank_object_inv (v : Value) (h : rank v = 8) : ∃ fs, v = .object fs := by
  cases v <;> simp_all [rank]

mutual

theorem cmp_refl (v : Value) : Value.cmp v v = .eq := by
  cases v with
  | zero => simp [Value.cmp]
  | int a => simp [Value.cmp, intCmp_refl]
  | float a => simp [Value.cmp, natCmp_refl]
  | double a => simp [Value.cmp, natCmp_refl]
  | string s => simp [Value.cmp, byteListCmp_refl]
  | bytes s => simp [Value.cmp, byteListCmp_refl]
  | list l =>
    simp only [Value.cmp]
    exact listCmp_refl l
  | map es =>
    simp only [Value.cmp]
    exact entriesCmp_refl es
  | object fs =>
    simp only [Value.cmp]
    exact objEntriesCmp_refl fs
termination_by sizeOf v

theorem listCmp_refl (l : List Value) : Value.listCmp l l = .eq := by
  cases l with
  | nil => simp [Value.listCmp]
  | cons x xs =>
    simp only [Value.listCmp, cmp_refl x]
    exact listCmp_refl xs
termination_by sizeOf l

theorem entriesCmp_refl (es : List (Value × Value)) : Value.entriesCmp es es = .eq := by
  cases es with
  | nil => simp [Value.entriesCmp]
  | cons e rest =>
    rcases e with ⟨k, v⟩
    simp only [Value.entriesCmp, cmp_refl k, cmp_refl v]
    exact entriesCmp_refl rest
termination_by sizeOf es

theorem objEntriesCmp_refl (fs : List (Nat × Value)) : Value.objEntriesCmp fs fs = .eq := by
  cases fs with
  | nil => simp [Value.objEntriesCmp]
  | cons e rest =>
    rcases e with ⟨k, v⟩
    simp only [Value.objEntriesCmp, natCmp_refl, cmp_refl v]
    exact objEntriesCmp_refl rest
termination_by sizeOf fs

end

mutual

theorem cmp_eq_imp (v w : Value) (h : Value.cmp v w = .eq) : v = w := by
  rcases Nat.lt_trichotomy (rank v) (rank w) with hr | hr | hr
  · rw [cmp_rank_lt v w hr] at h
    cases h
  · cases v with
    | zero =>
      rw [rank_zero_inv w hr.symm]
    | int a =>
      obtain ⟨b, rfl⟩ := rank_int_inv w hr.symm
      simp only [Value.cmp] at h
      rw [(intCmp_eq_iff a b).mp h]
    | float a =>
      obtain ⟨b, rfl⟩ := rank_float_inv w hr.symm
      simp only [Value.cmp] at h
      rw [(natCmp_eq_iff a b).mp h]
    | double a =>
      obtain ⟨b, rfl⟩ := rank_double_inv w hr.symm
      simp only [Value.cmp] at h
      rw [(natCmp_eq_iff a b).mp h]
    | string s =>
      obtain ⟨t, rfl⟩ := rank_string_inv w hr.symm
      simp only [Value.cmp] at h
      rw [(byteListCmp_eq_iff s t).mp h]
    | bytes s =>
      obtain ⟨t, rfl⟩ := rank_bytes_inv w hr.symm
      simp only [Value.cmp] at h
      rw [(byteListCmp_eq_iff s t).mp h]
    | list l =>
      obtain ⟨m, rfl⟩ := rank_list_inv w hr.symm
      simp only [Value.cmp] at h
      rw [listCmp_eq_imp l m h]
    | map es =>
      obtain ⟨fs, rfl⟩ := rank_map_inv w hr.symm
      simp only [Value.cmp] at h
      rw [entriesCmp_eq_imp es fs h]
    | object es =>
      obtain ⟨fs, rfl⟩ := rank_object_inv w hr.symm
      simp only [Value.cmp] at h
      rw [objEntriesCmp_eq_imp es fs h]
  · rw [cmp_rank_gt v w hr] at h
    cases h
termination_by sizeOf v + sizeOf w
decreasing_by all_goals (subst_vars; simp_wf; try omega)

theorem listCmp_eq_imp (l m : List Value) (h : Value.listCmp l m = .eq) : l = m := by
  cases l with
  | nil =>
    cases m with
    | nil => rfl
    | cons y ys => simp [Value.listCmp] at h
  | cons x xs =>
    cases m with
    | nil => simp [Value.listCmp] at h
    | cons y ys =>
      simp only [Value.listCmp] at h
      rcases hc : Value.cmp x y with _ | _ | _ <;> rw [hc] at h
      · cases h
      · rw [cmp_eq_imp x y hc, listCmp_eq_imp xs ys h]
      · cases h
termination_by sizeOf l + sizeOf m
decreasing_by all_goals (subst_vars; simp_wf; try omega)

theorem entriesCmp_eq_imp (l m : List (Value × Value))
    (h : Value.entriesCmp l m = .eq) : l = m := by
  cases l with
  | nil =>
    cases m with
    | nil => rfl
    | cons y ys => simp [Value.entriesCmp] at h
  | cons x xs =>
    cases m with
    | nil => simp [Value.entriesCmp] at h
    | cons y ys =>
      rcases hx : x with ⟨k1, v1⟩
      rcases hy : y with ⟨k2, v2⟩
      subst hx hy
      simp only [Value.entriesCmp] at h
      rcases hk : Value.cmp k1 k2 with _ | _ | _ <;> rw [hk] at h
      · cases h
      · rcases hv : Value.cmp v1 v2 with _ | _ | _ <;> rw [hv] at h
        · cases h
        · rw [cmp_eq_imp k1 k2 hk, cmp_eq_imp v1 v2 hv, entriesCmp_eq_imp xs ys h]
        · cases h
      · cases h
termination_by sizeOf l + sizeOf m
decreasing_by all_goals (subst_vars; simp_wf; try omega)

theorem objEntriesCmp_eq_imp (l m : List (Nat × Value))
    (h : Value.objEntriesCmp l m = .eq) : l = m := by
  cases l with
  | nil =>
    cases m with
    | nil => rfl
    | cons y ys => simp [Value.objEntriesCmp] at h
  | cons x xs =>
    cases m with
    | nil => simp [Value.objEntriesCmp] at h
    | cons y ys =>
      rcases hx : x with ⟨k1, v1⟩
      rcases hy : y with ⟨k2, v2⟩
      subst hx hy
      simp only [Value.objEntriesCmp] at h
      rcases hk : natCmp k1 k2 with _ | _ | _ <;> rw [hk] at h
      · cases h
      · rcases hv : Value.cmp v1 v2 with _ | _ | _ <;> rw [hv] at h
        · cases h
        · rw [(natCmp_eq_iff k1 k2).mp hk, cmp_eq_imp v1 v2 hv,
            objEntriesCmp_eq_imp xs ys h]
        · cases h
      · cases h
termination_by sizeOf l + sizeOf m
decreasing_by all_goals (subst_vars; simp_wf; try omega)

end

/-- `Value.cmp` agrees with equality (the model's structural equality is
exactly the source `PartialEq for Value`). -/
theorem cmp_eq_iff (v w : Value) : Value.cmp v w = .eq ↔ v = w :=
  ⟨cmp_eq_imp v w, fun h => h ▸ cmp_refl v⟩

mutual

theorem cmp_swap (v w : Value) : (Value.cmp v w).swap = Value.cmp w v := by
  rcases Nat.lt_trichotomy (rank v) (rank w) with hr | hr | hr
  · rw [cmp_rank_lt v w hr, cmp_rank_gt w v hr]
    rfl
  · cases v with
    | zero =>
      rw [rank_zero_inv w hr.symm, cmp_refl]
      rfl
    | int a =>
      obtain ⟨b, rfl⟩ := rank_int_inv w hr.symm
      simp only [Value.cmp]
      exact intCmp_swap a b
    | float a =>
      obtain ⟨b, rfl⟩ := rank_float_inv w hr.symm
      simp only [Value.cmp]
      exact natCmp_swap a b
    | double a =>
      obtain ⟨b, rfl⟩ := rank_double_inv w hr.symm
      simp only [Value.cmp]
      exact natCmp_swap a b
    | string s =>
      obtain ⟨t, rfl⟩ := rank_string_inv w hr.symm
      simp only [Value.cmp]
      exact byteListCmp_swap s t
    | bytes s =>
      obtain ⟨t, rfl⟩ := rank_bytes_inv w hr.symm
      simp only [Value.cmp]
      exact byteListCmp_swap s t
    | list l =>
      obtain ⟨m, rfl⟩ := rank_list_inv w hr.symm
      simp only [Value.cmp]
      exact listCmp_swap l m
    | map es =>
      obtain ⟨fs, rfl⟩ := rank_map_inv w hr.symm
      simp only [Value.cmp]
      exact entriesCmp_swap es fs
    | object es =>
      obtain ⟨fs, rfl⟩ := rank_object_inv w hr.symm
      simp only [Value.cmp]
      exact objEntriesCmp_swap es fs
  · rw [cmp_rank_gt v w hr, cmp_rank_lt w v hr]
    rfl
termination_by sizeOf v + sizeOf w
decreasing_by all_goals (subst_vars; simp_wf; try omega)

theorem listCmp_swap (l m : List Value) :
    (Value.listCmp l m).swap = Value.listCmp m l := by
  cases l with
  | nil =>
    cases m with
    | nil => simp [Value.listCmp, Ordering.swap]
    | cons y ys => simp [Value.listCmp, Ordering.swap]
  | cons x xs =>
    cases m with
    | nil => simp [Value.listCmp, Ordering.swap]
    | cons y ys =>
      simp only [Value.listCmp]
      rw [← cmp_swap x y]
      rcases hc : Value.cmp x y with _ | _ | _
      · rfl
      · exact listCmp_swap xs ys
      · rfl
termination_by sizeOf l + sizeOf m
decreasing_by all_goals (subst_vars; simp_wf; try omega)

theorem entriesCmp_swap (l m : List (Value × Value)) :
    (Value.entriesCmp l m).swap = Value.entriesCmp m l := by
  cases l with
  | nil =>
    cases m with
    | nil => simp [Value.entriesCmp, Ordering.swap]
    | cons y ys => simp [Value.entriesCmp, Ordering.swap]
  | cons x xs =>
    cases m with
    | nil => simp [Value.entriesCmp, Ordering.swap]
    | cons y ys =>
      rcases hx : x with ⟨k1, v1⟩
      rcases hy : y with ⟨k2, v2⟩
      subst hx hy
      simp only [Value.entriesCmp]
      rw [← cmp_swap k1 k2]
      rcases hk : Value.cmp k1 k2 with _ | _ | _
      · rfl
      · rw [← cmp_swap v1 v2]
        rcases hv : Value.cmp v1 v2 with _ | _ | _
        · rfl
        · exact entriesCmp_swap xs ys
        · rfl
      · rfl
termination_by sizeOf l + sizeOf m
decreasing_by all_goals (subst_vars; simp_wf; try omega)

theorem objEntriesCmp_swap (l m : List (Nat × Value)) :
    (Value.objEntriesCmp l m).swap = Value.objEntriesCmp m l := by
  cases l with
  | nil =>
    cases m with
    | nil => simp [Value.objEntriesCmp, Ordering.swap]
    | cons y ys => simp [Value.objEntriesCmp, Ordering.swap]
  | cons x xs =>
    cases m with
    | nil => simp [Value.objEntriesCmp, Ordering.swap]
    | cons y ys =>
      rcases hx : x with ⟨k1, v1⟩
      rcases hy : y with ⟨k2, v2⟩
      subst hx hy
      simp only [Value.objEntriesCmp]
      rw [← natCmp_swap k1 k2]
      rcases hk : natCmp k1 k2 with _ | _ | _
      · rfl
      · rw [← cmp_swap v1 v2]
        rcases hv : Value.cmp v1 v2 with _ | _ | _
        · rfl
        · exact objEntriesCmp_swap xs ys
        · rfl
      · rfl
termination_by sizeOf l + sizeOf m
decreasing_by all_goals (subst_vars; simp_wf; try omega)

end

mutual

theorem cmp_trans (u v w : Value) (h1 : Value.cmp u v = .lt)
    (h2 : Value.cmp v w = .lt) : Value.cmp u w = .lt := by
  rcases Nat.lt_trichotomy (rank u) (rank v) with huv | huv | huv
  · rcases Nat.lt_trichotomy (rank v) (rank w) with hvw | hvw | hvw
    · exact cmp_rank_lt _ _ (huv.trans hvw)
    · exact cmp_rank_lt _ _ (hvw ▸ huv)
    · rw [cmp_rank_gt v w hvw] at h2
      cases h2
  · rcases Nat.lt_trichotomy (rank v) (rank w) with hvw | hvw | hvw
    · exact cmp_rank_lt _ _ (huv ▸ hvw)
    · -- all three ranks equal: same variant, payload transitivity
      cases u with
      | zero =>
        rw [rank_zero_inv v huv.symm] at h1
        rw [cmp_refl] at h1
        cases h1
      | int a =>
        obtain ⟨b, rfl⟩ := rank_int_inv v huv.symm
        obtain ⟨c, rfl⟩ := rank_int_inv w (huv ▸ hvw).symm
        simp only [Value.cmp] at h1 h2 ⊢
        exact intCmp_trans h1 h2
      | float a =>
        obtain ⟨b, rfl⟩ := rank_float_inv v huv.symm
        obtain ⟨c, rfl⟩ := rank_float_inv w (huv ▸ hvw).symm
        simp only [Value.cmp] at h1 h2 ⊢
        exact natCmp_trans h1 h2
      | double a =>
        obtain ⟨b, rfl⟩ := rank_double_inv v huv.symm
        obtain ⟨c, rfl⟩ := rank_double_inv w (huv ▸ hvw).symm
        simp only [Value.cmp] at h1 h2 ⊢
        exact natCmp_trans h1 h2
      | string s =>
        obtain ⟨t, rfl⟩ := rank_string_inv v huv.symm
        obtain ⟨r, rfl⟩ := rank_string_inv w (huv ▸ hvw).symm
        simp only [Value.cmp] at h1 h2 ⊢
        exact byteListCmp_trans h1 h2
      | bytes s =>
        obtain ⟨t, rfl⟩ := rank_bytes_inv v huv.symm
        obtain ⟨r, rfl⟩ := rank_bytes_inv w (huv ▸ hvw).symm
        simp only [Value.cmp] at h1 h2 ⊢
        exact byteListCmp_trans h1 h2
      | list l =>
        obtain ⟨m, rfl⟩ := rank_list_inv v huv.symm
        obtain ⟨k, rfl⟩ := rank_list_inv w (huv ▸ hvw).symm
        simp only [Value.cmp] at h1 h2 ⊢
        exact listCmp_trans l m k h1 h2
      | map es =>
        obtain ⟨fs, rfl⟩ := rank_map_inv v huv.symm
        obtain ⟨gs, rfl⟩ := rank_map_inv w (huv ▸ hvw).symm
        simp only [Value.cmp] at h1 h2 ⊢
        exact entriesCmp_trans es fs gs h1 h2
      | object es =>
        obtain ⟨fs, rfl⟩ := rank_object_inv v huv.symm
        obtain ⟨gs, rfl⟩ := rank_object_inv w (huv ▸ hvw).symm
        simp only [Value.cmp] at h1 h2 ⊢
        exact objEntriesCmp_trans es fs gs h1 h2
    · rw [cmp_rank_gt v w hvw] at h2
      cases h2
  · rw [cmp_rank_gt u v huv] at h1
    cases h1
termination_by sizeOf u + sizeOf v + sizeOf w
decreasing_by all_goals (subst_vars; simp_wf; try omega)

theorem listCmp_trans (l m k : List Value) (h1 : Value.listCmp l m = .lt)
    (h2 : Value.listCmp m k = .lt) : Value.listCmp l k = .lt := by
  cases l with
  | nil =>
    cases m with
    | nil => simp [Value.listCmp] at h1
    | cons y ys =>
      cases k with
      | nil => simp [Value.listCmp] at h2
      | cons z zs => simp [Value.listCmp]
  | cons x xs =>
    cases m with
    | nil => simp [Value.listCmp] at h1
    | cons y ys =>
      cases k with
      | nil => simp [Value.listCmp] at h2
      | cons z zs =>
        simp only [Value.listCmp] at h1 h2 ⊢
        rcases hxy : Value.cmp x y with _ | _ | _ <;> rw [hxy] at h1 <;>
          rcases hyz : Value.cmp y z with _ | _ | _ <;> rw [hyz] at h2
        · rw [cmp_trans x y z hxy hyz]
        · rw [cmp_eq_imp y z hyz] at hxy
          rw [hxy]
        · cases h2
        · rw [← cmp_eq_imp x y hxy] at hyz
          rw [hyz]
        · rw [cmp_eq_imp x y hxy, cmp_eq_imp y z hyz, cmp_refl]
          exact listCmp_trans xs ys zs h1 h2
        · cases h2
        · cases h1
        · cases h1
        · cases h1
termination_by sizeOf l + sizeOf m + sizeOf k
decreasing_by all_goals (subst_vars; simp_wf; try omega)

theorem entriesCmp_trans (l m k : List (Value × Value))
    (h1 : Value.entriesCmp l m = .lt) (h2 : Value.entriesCmp m k = .lt) :
    Value.entriesCmp l k = .lt := by
  cases l with
  | nil =>
    cases m with
    | nil => simp [Value.entriesCmp] at h1
    | cons y ys =>
      cases k with
      | nil => simp [Value.entriesCmp] at h2
      | cons z zs => simp [Value.entriesCmp]
  | cons x xs =>
    cases m with
    | nil => simp [Value.entriesCmp] at h1
    | cons y ys =>
      cases k with
      | nil => simp [Value.entriesCmp] at h2
      | cons z zs =>
        rcases hx : x with ⟨k1, v1⟩
        rcases hy : y with ⟨k2, v2⟩
        rcases hz : z with ⟨k3, v3⟩
        subst hx hy hz
        simp only [Value.entriesCmp] at h1 h2 ⊢
        rcases hk12 : Value.cmp k1 k2 with _ | _ | _ <;> rw [hk12] at h1 <;>
          rcases hk23 : Value.cmp k2 k3 with _ | _ | _ <;> rw [hk23] at h2
        · rw [cmp_trans k1 k2 k3 hk12 hk23]
        · rw [cmp_eq_imp k2 k3 hk23] at hk12
          rw [hk12]
        · cases h2
        · rw [← cmp_eq_imp k1 k2 hk12] at hk23
          rw [hk23]
        · rw [cmp_eq_imp k1 k2 hk12, cmp_eq_imp k2 k3 hk23, cmp_refl]
          rcases hv12 : Value.cmp v1 v2 with _ | _ | _ <;> rw [hv12] at h1 <;>
            rcases hv23 : Value.cmp v2 v3 with _ | _ | _ <;> rw [hv23] at h2
          · rw [cmp_trans v1 v2 v3 hv12 hv23]
          · rw [cmp_eq_imp v2 v3 hv23] at hv12
            rw [hv12]
          · cases h2
          · rw [← cmp_eq_imp v1 v2 hv12] at hv23
            rw [hv23]
          · rw [cmp_eq_imp v1 v2 hv12, cmp_eq_imp v2 v3 hv23, cmp_refl]
            exact entriesCmp_trans xs ys zs h1 h2
          · cases h2
          · cases h1
          · cases h1
          · cases h1
        · cases h2
        · cases h1
        · cases h1
        · cases h1
termination_by sizeOf l + sizeOf m + sizeOf k
decreasing_by all_goals (subst_vars; simp_wf; try omega)

theorem objEntriesCmp_trans (l m k : List (Nat × Value))
    (h1 : Value.objEntriesCmp l m = .lt) (h2 : Value.objEntriesCmp m k = .lt) :
    Value.objEntriesCmp l k = .lt := by
  cases l with
  | nil =>
    cases m with
    | nil => simp [Value.objEntriesCmp] at h1
    | cons y ys =>
      cases k with
      | nil => simp [Value.objEntriesCmp] at h2
      | cons z zs => simp [Value.objEntriesCmp]
  | cons x xs =>
    cases m with
    | nil => simp [Value.objEntriesCmp] at h1
    | cons y ys =>
      cases k with
      | nil => simp [Value.objEntriesCmp] at h2
      | cons z zs =>
        rcases hx : x with ⟨k1, v1⟩
        rcases hy : y with ⟨k2, v2⟩
        rcases hz : z with ⟨k3, v3⟩
        subst hx hy hz
        simp only [Value.objEntriesCmp] at h1 h2 ⊢
        rcases hk12 : natCmp k1 k2 with _ | _ | _ <;> rw [hk12] at h1 <;>
          rcases hk23 : natCmp k2 k3 with _ | _ | _ <;> rw [hk23] at h2
        · rw [natCmp_trans hk12 hk23]
        · rw [(natCmp_eq_iff k2 k3).mp hk23] at hk12
          rw [hk12]
        · cases h2
        · rw [← (natCmp_eq_iff k1 k2).mp hk12] at hk23
          rw [hk23]
        · rw [(natCmp_eq_iff k1 k2).mp hk12, (natCmp_eq_iff k2 k3).mp hk23,
            natCmp_refl]
          rcases hv12 : Value.cmp v1 v2 with _ | _ | _ <;> rw [hv12] at h1 <;>
            rcases hv23 : Value.cmp v2 v3 with _ | _ | _ <;> rw [hv23] at h2
          · rw [cmp_trans v1 v2 v3 hv12 hv23]
          · rw [cmp_eq_imp v2 v3 hv23] at hv12
            rw [hv12]
          · cases h2
          · rw [← cmp_eq_imp v1 v2 hv12] at hv23
            rw [hv23]
          · rw [cmp_eq_imp v1 v2 hv12, cmp_eq_imp v2 v3 hv23, cmp_refl]
            exact objEntriesCmp_trans xs ys zs h1 h2
          · cases h2
          · cases h1
          · cases h1
          · cases h1
        · cases h2
        · cases h1
        · cases h1
        · cases h1
termination_by sizeOf l + sizeOf m + sizeOf k
decreasing_by all_goals (subst_vars; simp_wf; try omega)

end

/-! ## Claim C9 -/

/-- C9: `Value.cmp` is a total order — reflexive, agreeing with
equality (hence antisymmetric), transitive, total (swap-symmetric and
trichotomous) — ordering variants as
Absent < Integer < Float32 < Float64 < Text < ByteString < List < Map <
Record (the `rank` function), with Float32/Float64 payloads compared by
their raw bit patterns, so NaN values are totally and reproducibly
ordered. -/
theorem claim_C9_total_order :
    (∀ v : Value, Value.cmp v v = .eq) ∧
    (∀ v w : Value, Value.cmp v w = .eq ↔ v = w) ∧
    (∀ u v w : Value, Value.cmp u v = .lt → Value.cmp v w = .lt →
      Value.cmp u w = .lt) ∧
    (∀ v w : Value, (Value.cmp v w).swap = Value.cmp w v) ∧
    (∀ v w : Value, Value.cmp v w = .lt ∨ Value.cmp v w = .eq ∨
      Value.cmp v w = .gt) ∧
    (∀ bits1 bits2 : Nat,
      Value.cmp (.float bits1) (.float bits2) = natCmp bits1 bits2) ∧
    (∀ bits1 bits2 : Nat,
      Value.cmp (.double bits1) (.double bits2) = natCmp bits1 bits2) ∧
    (∀ v w : Value, rank v < rank w → Value.cmp v w = .lt) := by
  refine ⟨cmp_refl, cmp_eq_iff, cmp_trans, cmp_swap, ?_, ?_, ?_, cmp_rank_lt⟩
  · intro v w
    rcases Value.cmp v w with _ | _ | _
    · exact Or.inl rfl
    · exact Or.inr (Or.inl rfl)
    · exact Or.inr (Or.inr rfl)
  · intro bits1 bits2
    simp [Value.cmp]
  · intro bits1 bits2
    simp [Value.cmp]

/-- Witness for C9: transitivity applied at Absent < Integer < Float32
(a NaN bit pattern). -/
theorem claim_C9_total_order_witness :
    Value.cmp .zero (.float 0x7fc00000) = .lt :=
  claim_C9_total_order.2.2.1 .zero (.int 1) (.float 0x7fc00000)
    (by simp [Value.cmp]) (by simp [Value.cmp])

/-! ## Parser lemmas on encoded payloads -/

theorem pzero_pushHead (tag : Nat) (htag : tag < 256) (rest : List Nat) :
    pzero (pushHead tag .zero ++ rest) = .ok rest := by
  unfold pzero
  rw [getHead_pushHead _ _ _ htag]
  rfl

theorem pstructBegin_pushHead (tag : Nat) (htag : tag < 256) (rest : List Nat) :
    pstructBegin (pushHead tag .structBegin ++ rest) = .ok rest := by
  unfold pstructBegin
  rw [getHead_pushHead _ _ _ htag]
  rfl

theorem pstructEnd_pushHead (tag : Nat) (htag : tag < 256) (rest : List Nat) :
    pstructEnd (pushHead tag .structEnd ++ rest) = .ok rest := by
  unfold pstructEnd
  rw [getHead_pushHead _ _ _ htag]
  rfl

theorem pf32_stored (tag : Nat) (htag : tag < 256) (n : Nat) (hn : n < 2 ^ 32)
    (rest : List Nat) :
    pf32 (pushHead tag .f32 ++ (beBytes 4 n ++ rest)) = .ok (n, rest) := by
  unfold pf32
  rw [getHead_pushHead _ _ _ htag]
  show (do
    let (buf, b) ← getBytes 4 (beBytes 4 n ++ rest)
    Except.ok (beVal buf, b)) = Except.ok (n, rest)
  rw [getBytes_append_of_length 4 _ rest (beBytes_length 4 _)]
  show Except.ok (beVal (beBytes 4 n), rest) = Except.ok (n, rest)
  rw [beVal_beBytes]
  rw [Nat.mod_eq_of_lt (by norm_num at hn ⊢; omega)]

theorem pf64_stored (tag : Nat) (htag : tag < 256) (n : Nat) (hn : n < 2 ^ 64)
    (rest : List Nat) :
    pf64 (pushHead tag .f64 ++ (beBytes 8 n ++ rest)) = .ok (n, rest) := by
  unfold pf64
  rw [getHead_pushHead _ _ _ htag]
  show (do
    let (buf, b) ← getBytes 8 (beBytes 8 n ++ rest)
    Except.ok (beVal buf, b)) = Except.ok (n, rest)
  rw [getBytes_append_of_length 8 _ rest (beBytes_length 8 _)]
  show Except.ok (beVal (beBytes 8 n), rest) = Except.ok (n, rest)
  rw [beVal_beBytes]
  rw [Nat.mod_eq_of_lt (by norm_num at hn ⊢; omega)]

theorem pstrSmall_short (tag : Nat) (htag : tag < 256) (s : List Nat)
    (hlen : s.length ≤ 255) (hutf : validUtf8 s = true) (rest : List Nat) :
    pstrSmall (pushHead tag .string1 ++ ([s.length] ++ (s ++ rest))) = .ok (s, rest) := by
  unfold pstrSmall
  rw [getHead_pushHead _ _ _ htag]
  show (do
    let (lenBuf, b) ← getBytes 1 ([s.length] ++ (s ++ rest))
    let (buf, b) ← getBytes (beVal lenBuf) b
    if validUtf8 buf then Except.ok (buf, b) else Except.error JErr.stringIsNotUtf8)
    = Except.ok (s, rest)
  rw [getBytes_append_of_length 1 [s.length] (s ++ rest) rfl]
  show (do
    let (buf, b) ← getBytes (beVal [s.length]) (s ++ rest)
    if validUtf8 buf then Except.ok (buf, b) else Except.error JErr.stringIsNotUtf8)
    = Except.ok (s, rest)
  rw [show beVal [s.length] = s.length by simp [beVal]]
  rw [getBytes_append s rest]
  show (if validUtf8 s then Except.ok (s, rest) else Except.error JErr.stringIsNotUtf8)
    = Except.ok (s, rest)
  rw [if_pos hutf]

theorem pstrBig_long (tag : Nat) (htag : tag < 256) (s : List Nat)
    (hlen : s.length < 2 ^ 32) (hutf : validUtf8 s = true) (rest : List Nat) :
    pstrBig (pushHead tag .string4 ++ (beBytes 4 s.length ++ (s ++ rest))) = .ok (s, rest) := by
  unfold pstrBig
  rw [getHead_pushHead _ _ _ htag]
  show (do
    let (lenBuf, b) ← getBytes 4 (beBytes 4 s.length ++ (s ++ rest))
    let (buf, b) ← getBytes (beVal lenBuf) b
    if validUtf8 buf then Except.ok (buf, b) else Except.error JErr.stringIsNotUtf8)
    = Except.ok (s, rest)
  rw [getBytes_append_of_length 4 _ (s ++ rest) (beBytes_length 4 _)]
  show (do
    let (buf, b) ← getBytes (beVal (beBytes 4 s.length)) (s ++ rest)
    if validUtf8 buf then Except.ok (buf, b) else Except.error JErr.stringIsNotUtf8)
    = Except.ok (s, rest)
  rw [beVal_beBytes, Nat.mod_eq_of_lt (by norm_num at hlen ⊢; omega)]
  rw [getBytes_append s rest]
  show (if validUtf8 s then Except.ok (s, rest) else Except.error JErr.stringIsNotUtf8)
    = Except.ok (s, rest)
  rw [if_pos hutf]

theorem pbytes_bbytes (tag : Nat) (htag : tag < 256) (v : List Nat)
    (hlen : v.length ≤ 2 ^ 31 - 1) (rest : List Nat) :
    pbytes (bbytes tag v ++ rest) = .ok (v, rest) := by
  have hmin : min v.length BYTES_MAX_LENGTH = v.length := by
    simp [BYTES_MAX_LENGTH]
    omega
  unfold bbytes
  rw [hmin]
  unfold pbytes
  rw [List.append_assoc, List.append_assoc, List.append_assoc,
    getHead_pushHead _ _ _ htag]
  show (do
    let ((_, tp2), b) ← getHead (pushHead 0 .i8 ++ (bi32 0 (v.length : Int) ++ (v.take v.length ++ rest)))
    match tp2 with
    | .i8 => do
      let (len, b) ← pi32 b
      if 0 ≤ len then getBytes len.toNat b else .error .wrongLength
    | _ => .error .wrongType) = Except.ok (v, rest)
  rw [getHead_pushHead 0 .i8 _ (by norm_num)]
  show (do
    let (len, b) ← pi32 (bi32 0 (v.length : Int) ++ (v.take v.length ++ rest))
    if 0 ≤ len then getBytes len.toNat b else .error .wrongLength) = Except.ok (v, rest)
  rw [pi32_bi32 0 (by norm_num) (v.length : Int) (by omega) _]
  show (if 0 ≤ (v.length : Int) then getBytes (v.length : Int).toNat (v.take v.length ++ rest)
    else .error .wrongLength) = Except.ok (v, rest)
  rw [if_pos (by omega : (0 : Int) ≤ (v.length : Int))]
  rw [Int.toNat_natCast, List.take_length]
  exact getBytes_append v rest

theorem pmap_encoded (tag : Nat) (htag : tag < 256) (len : Int)
    (hlen : 0 ≤ len ∧ len ≤ 2 ^ 31 - 1) (rest : List Nat) :
    pmap (bmapBegin tag len ++ rest) = .ok (len.toNat, rest) := by
  unfold bmapBegin pmap
  rw [List.append_assoc, getHead_pushHead _ _ _ htag]
  show (do
    let (l, b) ← pi32 (bi32 0 len ++ rest)
    if 0 ≤ l then .ok (l.toNat, b) else .error .wrongLength) = Except.ok (len.toNat, rest)
  rw [pi32_bi32 0 (by norm_num) len (by omega) rest]
  show (if 0 ≤ len then Except.ok (len.toNat, rest)
    else Except.error JErr.wrongLength) = Except.ok (len.toNat, rest)
  rw [if_pos hlen.1]

theorem plist_encoded (tag : Nat) (htag : tag < 256) (len : Int)
    (hlen : 0 ≤ len ∧ len ≤ 2 ^ 31 - 1) (rest : List Nat) :
    plist (blistBegin tag len ++ rest) = .ok (len.toNat, rest) := by
  unfold blistBegin plist
  rw [List.append_assoc, getHead_pushHead _ _ _ htag]
  show (do
    let (l, b) ← pi32 (bi32 0 len ++ rest)
    if 0 ≤ l then .ok (l.toNat, b) else .error .wrongLength) = Except.ok (len.toNat, rest)
  rw [pi32_bi32 0 (by norm_num) len (by omega) rest]
  show (if 0 ≤ len then Except.ok (len.toNat, rest)
    else Except.error JErr.wrongLength) = Except.ok (len.toNat, rest)
  rw [if_pos hlen.1]

/-! ## Sortedness and `BTreeMap` insertion lemmas -/

theorem cmp_gt_of_lt {v w : Value} (h : Value.cmp v w = .lt) :
    Value.cmp w v = .gt := by
  have hs := cmp_swap v w
  rw [h] at hs
  exact hs.symm

theorem ordBeq_iff (o o' : Ordering) : (o == o') = true ↔ o = o' := by
  cases o <;> cases o' <;> decide

theorem sortedKeys_chain (es : List (Value × Value)) :
    sortedKeys es = true ↔ es.Chain' (fun a b => Value.cmp a.1 b.1 = .lt) := by
  induction es with
  | nil => simp [sortedKeys]
  | cons a t ih =>
    cases t with
    | nil =>
      rcases a with ⟨k, v⟩
      simp [sortedKeys]
    | cons b t2 =>
      rcases a with ⟨k1, v1⟩
      rcases b with ⟨k2, v2⟩
      rw [List.chain'_cons]
      simp only [sortedKeys, Bool.and_eq_true, beq_iff_eq]
      rw [ih]
      exact and_congr_left (fun _ => ordBeq_iff _ _)


theorem sortedKeys_pairwise (es : List (Value × Value)) :
    sortedKeys es = true ↔
      es.Pairwise (fun a b => Value.cmp a.1 b.1 = .lt) := by
  rw [sortedKeys_chain]
  haveI : IsTrans (Value × Value) (fun a b => Value.cmp a.1 b.1 = .lt) :=
    ⟨fun a b c h1 h2 => cmp_trans _ _ _ h1 h2⟩
  exact List.chain'_iff_pairwise

theorem sortedTags_chain (es : List (Nat × Value)) :
    sortedTags es = true ↔ es.Chain' (fun a b => a.1 < b.1) := by
  induction es with
  | nil => simp [sortedTags]
  | cons a t ih =>
    cases t with
    | nil =>
      rcases a with ⟨k, v⟩
      simp [sortedTags]
    | cons b t2 =>
      rcases a with ⟨k1, v1⟩
      rcases b with ⟨k2, v2⟩
      rw [List.chain'_cons]
      simp only [sortedTags, Bool.and_eq_true, decide_eq_true_eq]
      rw [ih]

theorem sortedTags_pairwise (es : List (Nat × Value)) :
    sortedTags es = true ↔ es.Pairwise (fun a b => a.1 < b.1) := by
  rw [sortedTags_chain]
  haveI : IsTrans (Nat × Value) (fun a b => a.1 < b.1) :=
    ⟨fun a b c h1 h2 => Nat.lt_trans h1 h2⟩
  exact List.chain'_iff_pairwise

theorem mapInsert_append (done : List (Value × Value)) (k v : Value)
    (h : ∀ e ∈ done, Value.cmp e.1 k = .lt) :
    mapInsert done k v = done ++ [(k, v)] := by
  induction done with
  | nil => simp [mapInsert]
  | cons e t ih =>
    rcases e with ⟨k0, v0⟩
    have hk0 : Value.cmp k0 k = .lt := h (k0, v0) (List.mem_cons_self _ _)
    simp only [mapInsert]
    rw [cmp_gt_of_lt hk0]
    rw [ih (fun e he => h e (List.mem_cons_of_mem _ he))]
    simp

theorem objInsert_append (done : List (Nat × Value)) (k : Nat) (v : Value)
    (h : ∀ e ∈ done, e.1 < k) :
    objInsert done k v = done ++ [(k, v)] := by
  induction done with
  | nil => simp [objInsert]
  | cons e t ih =>
    rcases e with ⟨k0, v0⟩
    have hk0 : k0 < k := h (k0, v0) (List.mem_cons_self _ _)
    simp only [objInsert]
    rw [show natCmp k k0 = .gt from (natCmp_gt_iff k k0).mpr hk0]
    rw [ih (fun e he => h e (List.mem_cons_of_mem _ he))]
    simp

/-! ## Head shape of encoded values -/

/-- Every successful `encodeValue` output begins with a header for the
requested tag whose wire type is never `StructEnd`. -/
theorem encodeValue_head (tag : Nat) (v : Value) (bs : List Nat)
    (henc : encodeValue tag v = .ok bs) :
    ∃ tp payload, tp ≠ JceType.structEnd ∧ bs = pushHead tag tp ++ payload := by
  cases v with
  | zero =>
    simp only [encodeValue, Except.ok.injEq] at henc
    exact ⟨.zero, [], by simp, by rw [← henc, bzero]; simp⟩
  | int a =>
    simp only [encodeValue, Except.ok.injEq] at henc
    by_cases h0 : a = 0
    · exact ⟨.zero, [], by simp, by rw [← henc, bi64_eq_zero tag h0]; simp⟩
    · by_cases h8 : -128 ≤ a ∧ a ≤ 127
      · exact ⟨.i8, _, by simp, by rw [← henc, bi64_eq_i8 tag h0 h8]⟩
      · by_cases h16 : -32768 ≤ a ∧ a ≤ 32767
        · exact ⟨.i16, _, by simp, by rw [← henc, bi64_eq_i16 tag h8 h16]⟩
        · by_cases h32 : -2147483648 ≤ a ∧ a ≤ 2147483647
          · exact ⟨.i32, _, by simp, by rw [← henc, bi64_eq_i32 tag h16 h32]⟩
          · exact ⟨.i64, _, by simp, by rw [← henc, bi64_eq_i64 tag h32]⟩
  | float a =>
    simp only [encodeValue, Except.ok.injEq] at henc
    exact ⟨.f32, _, by simp, by rw [← henc, bf32]⟩
  | double a =>
    simp only [encodeValue, Except.ok.injEq] at henc
    exact ⟨.f64, _, by simp, by rw [← henc, bf64]⟩
  | string s =>
    simp only [encodeValue] at henc
    split at henc
    · simp only [Except.ok.injEq] at henc
      by_cases hshort : s.length ≤ 255
      · refine ⟨.string1, [s.length] ++ s, by simp, ?_⟩
        rw [← henc, bstr, if_pos hshort]
        simp
      · refine ⟨.string4, beBytes 4 (min s.length STRING_MAX_LENGTH) ++
          s.take (min s.length STRING_MAX_LENGTH), by simp, ?_⟩
        rw [← henc, bstr, if_neg hshort]
        simp [List.append_assoc]
    · cases henc
  | bytes b =>
    simp only [encodeValue] at henc
    split at henc
    · simp only [Except.ok.injEq] at henc
      refine ⟨.bytes, pushHead 0 .i8 ++ bi32 0 ((min b.length BYTES_MAX_LENGTH : Nat) : Int) ++
        b.take (min b.length BYTES_MAX_LENGTH), by simp, ?_⟩
      rw [← henc, bbytes]
      simp [List.append_assoc]
    · cases henc
  | list l =>
    simp only [encodeValue] at henc
    split at henc
    · cases hE : encodeElems l with
      | ok body =>
        rw [hE] at henc
        have henc2 : blistBegin tag ((l.length : Nat) : Int) ++ body = bs := by
          injection henc
        refine ⟨.list, bi32 0 ((l.length : Nat) : Int) ++ body, by simp, ?_⟩
        rw [← henc2, blistBegin]
        rw [List.append_assoc]
      | error e =>
        rw [hE] at henc
        cases henc
    · cases henc
  | map es =>
    simp only [encodeValue] at henc
    split at henc
    · cases hE : encodeEntries es with
      | ok body =>
        rw [hE] at henc
        have henc2 : bmapBegin tag ((es.length : Nat) : Int) ++ body = bs := by
          injection henc
        refine ⟨.map, bi32 0 ((es.length : Nat) : Int) ++ body, by simp, ?_⟩
        rw [← henc2, bmapBegin]
        rw [List.append_assoc]
      | error e =>
        rw [hE] at henc
        cases henc
    · cases henc
  | object fs =>
    simp only [encodeValue] at henc
    cases hE : encodeFields [] fs with
    | ok body =>
      rw [hE] at henc
      have henc2 : bstructBegin tag ++ body ++ bstructEnd = bs := by
        injection henc
      refine ⟨.structBegin, body ++ bstructEnd, by simp, ?_⟩
      rw [← henc2, bstructBegin]
      rw [List.append_assoc]
    | error e =>
      rw [hE] at henc
      cases henc

/-- Reduction of one field step of the schema-less record decode when
the peeked header is not the terminator and the tag is fresh. -/
theorem decodeObjFields_step (fuel : Nat) (seen : List Nat)
    (acc : List (Nat × Value)) (b : List Nat) (tag : Nat) (tp : JceType)
    (hp : pickHead b = .ok (tag, tp)) (hne : tp ≠ .structEnd)
    (hns : tag ∉ seen) :
    decodeObjFields (fuel + 1) seen acc b =
      (do
        let (v, b2) ← decodeAny fuel b
        decodeObjFields fuel (tag :: seen) (objInsert acc tag v) b2) := by
  rw [decodeObjFields]
  rw [hp]
  cases tp
  case structEnd => exact absurd rfl hne
  all_goals
    show (if tag ∈ seen then Except.error (DFail.err JErr.duplicateFieldTag)
      else do
        let (v, b2) ← decodeAny fuel b
        decodeObjFields fuel (tag :: seen) (objInsert acc tag v) b2)
      = (do
        let (v, b2) ← decodeAny fuel b
        decodeObjFields fuel (tag :: seen) (objInsert acc tag v) b2)
    rw [if_neg hns]

/-! ## Encoding succeeds on well-formed values -/

mutual

theorem encode_ok (tag : Nat) (v : Value) (hwf : wf v = true) :
    ∃ bs, encodeValue tag v = .ok bs := by
  cases v with
  | zero => exact ⟨_, rfl⟩
  | int a => exact ⟨_, rfl⟩
  | float a => exact ⟨_, rfl⟩
  | double a => exact ⟨_, rfl⟩
  | string s =>
    simp only [wf, Bool.and_eq_true, decide_eq_true_eq] at hwf
    refine ⟨bstr tag s, ?_⟩
    simp only [encodeValue]
    rw [if_pos (by simp [STRING_MAX_LENGTH]; omega)]
  | bytes b =>
    simp only [wf, Bool.and_eq_true, decide_eq_true_eq] at hwf
    refine ⟨bbytes tag b, ?_⟩
    simp only [encodeValue]
    rw [if_pos (by simp [BYTES_MAX_LENGTH]; omega)]
  | list l =>
    simp only [wf, Bool.and_eq_true, decide_eq_true_eq] at hwf
    obtain ⟨body, hbody⟩ := encode_elems_ok l hwf.2
    refine ⟨blistBegin tag ((l.length : Nat) : Int) ++ body, ?_⟩
    simp only [encodeValue]
    rw [if_pos hwf.1, hbody]
    rfl
  | map es =>
    simp only [wf, Bool.and_eq_true, decide_eq_true_eq] at hwf
    obtain ⟨body, hbody⟩ := encode_entries_ok es hwf.2
    refine ⟨bmapBegin tag ((es.length : Nat) : Int) ++ body, ?_⟩
    simp only [encodeValue]
    rw [if_pos hwf.1.1, hbody]
    rfl
  | object fs =>
    simp only [wf, Bool.and_eq_true] at hwf
    obtain ⟨body, hbody⟩ := encode_fields_ok fs [] hwf.2
      ((sortedTags_pairwise fs).mp hwf.1) (by simp)
    refine ⟨bstructBegin tag ++ body ++ bstructEnd, ?_⟩
    simp only [encodeValue]
    rw [hbody]
    rfl
termination_by sizeOf v
decreasing_by all_goals (subst_vars; simp_wf; try omega)

theorem encode_elems_ok (l : List Value) (hwf : wfElems l = true) :
    ∃ bs, encodeElems l = .ok bs := by
  cases l with
  | nil => exact ⟨[], rfl⟩
  | cons v t =>
    simp only [wfElems, Bool.and_eq_true] at hwf
    obtain ⟨b, hb⟩ := encode_ok 0 v hwf.1
    obtain ⟨bs, hbs⟩ := encode_elems_ok t hwf.2
    refine ⟨b ++ bs, ?_⟩
    simp only [encodeElems]
    rw [hb, hbs]
    rfl
termination_by sizeOf l
decreasing_by all_goals (subst_vars; simp_wf; try omega)

theorem encode_entries_ok (es : List (Value × Value)) (hwf : wfEntries es = true) :
    ∃ bs, encodeEntries es = .ok bs := by
  cases es with
  | nil => exact ⟨[], rfl⟩
  | cons e t =>
    rcases he : e with ⟨k, v⟩
    subst he
    simp only [wfEntries, Bool.and_eq_true] at hwf
    obtain ⟨kb, hkb⟩ := encode_ok 0 k hwf.1.1
    obtain ⟨vb, hvb⟩ := encode_ok 1 v hwf.1.2
    obtain ⟨bs, hbs⟩ := encode_entries_ok t hwf.2
    refine ⟨kb ++ vb ++ bs, ?_⟩
    simp only [encodeEntries]
    rw [hkb, hvb, hbs]
    rfl
termination_by sizeOf es
decreasing_by all_goals (subst_vars; simp_wf; try omega)

theorem encode_fields_ok (fs : List (Nat × Value)) (seen : List Nat)
    (hwf : wfFields fs = true)
    (hpair : fs.Pairwise (fun a b => a.1 < b.1))
    (hseen : ∀ e ∈ fs, e.1 ∉ seen) :
    ∃ bs, encodeFields seen fs = .ok bs := by
  cases fs with
  | nil => exact ⟨[], rfl⟩
  | cons e t =>
    rcases he : e with ⟨tg, v⟩
    subst he
    simp only [wfFields, Bool.and_eq_true] at hwf
    obtain ⟨b, hb⟩ := encode_ok tg v hwf.1.2
    obtain ⟨bs, hbs⟩ := encode_fields_ok t (tg :: seen) hwf.2
      (List.Pairwise.of_cons hpair)
      (by
        intro e he
        rcases List.pairwise_cons.mp hpair with ⟨hlt, _⟩
        have h1 : e.1 ≠ tg := Nat.ne_of_gt (hlt e he)
        have h2 : e.1 ∉ seen := hseen e (List.mem_cons_of_mem _ he)
        simp [h1, h2])
    refine ⟨b ++ bs, ?_⟩
    simp only [encodeFields]
    rw [if_neg (hseen (tg, v) (List.mem_cons_self _ _)), hb, hbs]
    rfl
termination_by sizeOf fs
decreasing_by all_goals (subst_vars; simp_wf; try omega)

end

theorem pushHead_length_pos (tag : Nat) (tp : JceType) :
    1 ≤ (pushHead tag tp).length := by
  unfold pushHead
  split <;> simp

theorem encodeValue_length_pos (tag : Nat) (v : Value) (bs : List Nat)
    (henc : encodeValue tag v = .ok bs) : 1 ≤ bs.length := by
  obtain ⟨tp, payload, _, rfl⟩ := encodeValue_head tag v bs henc
  have := pushHead_length_pos tag tp
  simp
  omega

theorem bi32_length_pos (tag : Nat) (v : Int) : 1 ≤ (bi32 tag v).length := by
  unfold bi32 bi16 bi8 bzero
  have h1 := pushHead_length_pos tag JceType.zero
  have h2 := pushHead_length_pos tag JceType.i8
  have h3 := pushHead_length_pos tag JceType.i16
  have h4 := pushHead_length_pos tag JceType.i32
  split <;> [skip; (simp; omega)]
  split <;> [skip; (simp; omega)]
  split <;> [exact h1; (simp; omega)]

/-! ## The round-trip induction (claim C1)

Decoding the bytes of a well-formed value in which no `Int` sub-value
carries 0 recovers the value exactly. -/

mutual

theorem decode_encode (v : Value) (tag : Nat) (htag : tag < 256)
    (hwf : wf v = true) (hnz : noZeroInt v = true)
    (bs : List Nat) (henc : encodeValue tag v = .ok bs)
    (fuel : Nat) (hfuel : bs.length ≤ fuel) (rest : List Nat) :
    decodeAny fuel (bs ++ rest) = .ok (v, rest) := by
  obtain ⟨g, rfl⟩ : ∃ g, fuel = g + 1 :=
    ⟨fuel - 1, by have := encodeValue_length_pos tag v bs henc; omega⟩
  cases v with
  | zero =>
    obtain rfl : bzero tag = bs := by injection henc
    rw [bzero] at hfuel ⊢
    rw [decodeAny, pickHead_pushHead tag .zero rest htag]
    show (do
      let b ← liftP (pzero (pushHead tag .zero ++ rest))
      Except.ok (Value.zero, b)) = Except.ok (Value.zero, rest)
    rw [pzero_pushHead tag htag rest]
    rfl
  | int a =>
    obtain rfl : bi64 tag a = bs := by injection henc
    simp only [noZeroInt, decide_eq_true_eq] at hnz
    by_cases h8 : -128 ≤ a ∧ a ≤ 127
    · rw [bi64_eq_i8 tag hnz h8] at hfuel ⊢
      rw [List.append_assoc, decodeAny, pickHead_pushHead tag .i8 _ htag]
      show (do
        let (v, b) ← liftP (pi8 (pushHead tag .i8 ++ (beBytes 1 (toUnsigned 8 a) ++ rest)))
        Except.ok (Value.int v, b)) = Except.ok (Value.int a, rest)
      rw [pi8_stored8 tag htag a h8 rest]
      rfl
    · by_cases h16 : -32768 ≤ a ∧ a ≤ 32767
      · rw [bi64_eq_i16 tag h8 h16] at hfuel ⊢
        rw [List.append_assoc, decodeAny, pickHead_pushHead tag .i16 _ htag]
        show (do
          let (v, b) ← liftP (pi16 (pushHead tag .i16 ++ (beBytes 2 (toUnsigned 16 a) ++ rest)))
          Except.ok (Value.int v, b)) = Except.ok (Value.int a, rest)
        rw [pi16_stored16 tag htag a h16 rest]
        rfl
      · by_cases h32 : -2147483648 ≤ a ∧ a ≤ 2147483647
        · rw [bi64_eq_i32 tag h16 h32] at hfuel ⊢
          rw [List.append_assoc, decodeAny, pickHead_pushHead tag .i32 _ htag]
          show (do
            let (v, b) ← liftP (pi32 (pushHead tag .i32 ++ (beBytes 4 (toUnsigned 32 a) ++ rest)))
            Except.ok (Value.int v, b)) = Except.ok (Value.int a, rest)
          rw [pi32_stored32 tag htag a h32 rest]
          rfl
        · simp only [wf, decide_eq_true_eq] at hwf
          rw [bi64_eq_i64 tag h32] at hfuel ⊢
          rw [List.append_assoc, decodeAny, pickHead_pushHead tag .i64 _ htag]
          show (do
            let (v, b) ← liftP (pi64 (pushHead tag .i64 ++ (beBytes 8 (toUnsigned 64 a) ++ rest)))
            Except.ok (Value.int v, b)) = Except.ok (Value.int a, rest)
          rw [pi64_stored64 tag htag a (by omega) rest]
          rfl
  | float bits =>
    obtain rfl : bf32 tag bits = bs := by injection henc
    simp only [wf, decide_eq_true_eq] at hwf
    rw [bf32, Nat.mod_eq_of_lt hwf] at hfuel ⊢
    rw [List.append_assoc, decodeAny, pickHead_pushHead tag .f32 _ htag]
    show (do
      let (bits2, b) ← liftP (pf32 (pushHead tag .f32 ++ (beBytes 4 bits ++ rest)))
      Except.ok (Value.float bits2, b)) = Except.ok (Value.float bits, rest)
    rw [pf32_stored tag htag bits hwf rest]
    rfl
  | double bits =>
    obtain rfl : bf64 tag bits = bs := by injection henc
    simp only [wf, decide_eq_true_eq] at hwf
    rw [bf64, Nat.mod_eq_of_lt hwf] at hfuel ⊢
    rw [List.append_assoc, decodeAny, pickHead_pushHead tag .f64 _ htag]
    show (do
      let (bits2, b) ← liftP (pf64 (pushHead tag .f64 ++ (beBytes 8 bits ++ rest)))
      Except.ok (Value.double bits2, b)) = Except.ok (Value.double bits, rest)
    rw [pf64_stored tag htag bits hwf rest]
    rfl
  | string s =>
    simp only [wf, Bool.and_eq_true, decide_eq_true_eq] at hwf
    simp only [encodeValue] at henc
    rw [if_pos (by simp [STRING_MAX_LENGTH]; omega)] at henc
    obtain rfl : bstr tag s = bs := by injection henc
    by_cases hshort : s.length ≤ 255
    · rw [bstr, if_pos hshort] at hfuel ⊢
      rw [List.append_assoc, List.append_assoc, decodeAny,
        pickHead_pushHead tag .string1 _ htag]
      show (do
        let (s2, b) ← liftP (pstrSmall (pushHead tag .string1 ++ ([s.length] ++ (s ++ rest))))
        Except.ok (Value.string s2, b)) = Except.ok (Value.string s, rest)
      rw [pstrSmall_short tag htag s hshort hwf.2 rest]
      rfl
    · rw [bstr, if_neg hshort] at hfuel ⊢
      have hmin : min s.length STRING_MAX_LENGTH = s.length := by
        simp [STRING_MAX_LENGTH]
        omega
      simp only [hmin, List.take_length] at hfuel ⊢
      rw [List.append_assoc, List.append_assoc, decodeAny,
        pickHead_pushHead tag .string4 _ htag]
      show (do
        let (s2, b) ← liftP (pstrBig (pushHead tag .string4 ++ (beBytes 4 s.length ++ (s ++ rest))))
        Except.ok (Value.string s2, b)) = Except.ok (Value.string s, rest)
      rw [pstrBig_long tag htag s (by simp [STRING_MAX_LENGTH] at hwf ⊢; omega) hwf.2 rest]
      rfl
  | bytes bb =>
    simp only [wf, Bool.and_eq_true, decide_eq_true_eq] at hwf
    simp only [encodeValue] at henc
    rw [if_pos (by simp [BYTES_MAX_LENGTH]; omega)] at henc
    obtain rfl : bbytes tag bb = bs := by injection henc
    have hhead : pickHead (bbytes tag bb ++ rest) = .ok (tag, .bytes) := by
      rw [bbytes]
      have hmin : min bb.length BYTES_MAX_LENGTH = bb.length := by
        simp [BYTES_MAX_LENGTH]
        omega
      rw [hmin, List.take_length]
      rw [List.append_assoc, List.append_assoc, List.append_assoc]
      exact pickHead_pushHead tag .bytes _ htag
    rw [decodeAny, hhead]
    show (do
      let (v, b) ← liftP (pbytes (bbytes tag bb ++ rest))
      Except.ok (Value.bytes v, b)) = Except.ok (Value.bytes bb, rest)
    rw [pbytes_bbytes tag htag bb hwf.1 rest]
    rfl
  | list l =>
    simp only [wf, Bool.and_eq_true, decide_eq_true_eq] at hwf
    simp only [encodeValue] at henc
    rw [if_pos hwf.1] at henc
    cases hE : encodeElems l with
    | error e =>
      rw [hE] at henc
      cases henc
    | ok body =>
      rw [hE] at henc
      obtain rfl : blistBegin tag ((l.length : Nat) : Int) ++ body = bs := by
        injection henc
      simp only [noZeroInt] at hnz
      rw [List.append_assoc, decodeAny]
      have hpick : pickHead (blistBegin tag ((l.length : Nat) : Int) ++ (body ++ rest))
          = .ok (tag, .list) := by
        rw [blistBegin, List.append_assoc]
        exact pickHead_pushHead tag .list _ htag
      rw [hpick]
      show (do
        let (len, b) ← liftP (plist (blistBegin tag ((l.length : Nat) : Int) ++ (body ++ rest)))
        decodeElems g len [] b) = Except.ok (Value.list l, rest)
      rw [plist_encoded tag htag ((l.length : Nat) : Int) (by omega) (body ++ rest)]
      show decodeElems g ((l.length : Nat) : Int).toNat [] (body ++ rest)
        = Except.ok (Value.list l, rest)
      rw [Int.toNat_natCast]
      have hlb : 1 ≤ (blistBegin tag ((l.length : Nat) : Int)).length := by
        rw [blistBegin]
        have := pushHead_length_pos tag .list
        simp
        omega
      have hlen2 : (blistBegin tag ((l.length : Nat) : Int)).length + body.length ≤ g + 1 := by
        simpa using hfuel
      have := decode_elems_enc l [] hwf.2 hnz body hE g (by omega) rest
      rw [this]
      simp
  | map es =>
    simp only [wf, Bool.and_eq_true, decide_eq_true_eq] at hwf
    simp only [encodeValue] at henc
    rw [if_pos hwf.1.1] at henc
    cases hE : encodeEntries es with
    | error e =>
      rw [hE] at henc
      cases henc
    | ok body =>
      rw [hE] at henc
      obtain rfl : bmapBegin tag ((es.length : Nat) : Int) ++ body = bs := by
        injection henc
      simp only [noZeroInt] at hnz
      rw [List.append_assoc, decodeAny]
      have hpick : pickHead (bmapBegin tag ((es.length : Nat) : Int) ++ (body ++ rest))
          = .ok (tag, .map) := by
        rw [bmapBegin, List.append_assoc]
        exact pickHead_pushHead tag .map _ htag
      rw [hpick]
      show (do
        let (len, b) ← liftP (pmap (bmapBegin tag ((es.length : Nat) : Int) ++ (body ++ rest)))
        decodeEntries g len [] b) = Except.ok (Value.map es, rest)
      rw [pmap_encoded tag htag ((es.length : Nat) : Int) (by omega) (body ++ rest)]
      show decodeEntries g ((es.length : Nat) : Int).toNat [] (body ++ rest)
        = Except.ok (Value.map es, rest)
      rw [Int.toNat_natCast]
      have hmb : 1 ≤ (bmapBegin tag ((es.length : Nat) : Int)).length := by
        rw [bmapBegin]
        have := pushHead_length_pos tag .map
        simp
        omega
      have hlen2 : (bmapBegin tag ((es.length : Nat) : Int)).length + body.length ≤ g + 1 := by
        simpa using hfuel
      have := decode_entries_enc es [] hwf.2 hnz
        (by simpa using (sortedKeys_pairwise es).mp hwf.1.2)
        body hE g (by omega) rest
      simpa using this
  | object fs =>
    simp only [wf, Bool.and_eq_true] at hwf
    simp only [encodeValue] at henc
    cases hE : encodeFields [] fs with
    | error e =>
      rw [hE] at henc
      cases henc
    | ok body =>
      rw [hE] at henc
      obtain rfl : bstructBegin tag ++ body ++ bstructEnd = bs := by
        injection henc
      simp only [noZeroInt] at hnz
      rw [bstructBegin] at hfuel ⊢
      rw [List.append_assoc, List.append_assoc, decodeAny,
        pickHead_pushHead tag .structBegin _ htag]
      show (do
        let b ← liftP (pstructBegin (pushHead tag .structBegin ++ (body ++ (bstructEnd ++ rest))))
        decodeObjFields g [] [] b) = Except.ok (Value.object fs, rest)
      rw [pstructBegin_pushHead tag htag _]
      show decodeObjFields g [] [] (body ++ (bstructEnd ++ rest))
        = Except.ok (Value.object fs, rest)
      have hplen : 1 ≤ (pushHead tag .structBegin).length := pushHead_length_pos _ _
      have hfuel2 : body.length + 1 ≤ g := by
        have hlen : (pushHead tag .structBegin).length + (body.length + 1) ≤ g + 1 := by
          simpa [bstructEnd, pushHead] using hfuel
        omega
      have := decode_fields_enc fs [] [] [] hwf.2 hnz
        (by simpa using (sortedTags_pairwise fs).mp hwf.1)
        (by simp) body hE g hfuel2 rest
      simpa using this
termination_by sizeOf v
decreasing_by all_goals (subst_vars; simp_wf; try omega)

theorem decode_elems_enc (l : List Value) (acc : List Value)
    (hwf : wfElems l = true) (hnz : noZeroElems l = true)
    (bs : List Nat) (henc : encodeElems l = .ok bs)
    (fuel : Nat) (hfuel : bs.length ≤ fuel) (rest : List Nat) :
    decodeElems fuel l.length acc (bs ++ rest) = .ok (.list (acc.reverse ++ l), rest) := by
  cases l with
  | nil =>
    obtain rfl : ([] : List Nat) = bs := by injection henc
    rw [List.length_nil, decodeElems]
    simp
  | cons v t =>
    simp only [wfElems, Bool.and_eq_true] at hwf
    simp only [noZeroElems, Bool.and_eq_true] at hnz
    simp only [encodeElems] at henc
    cases hv : encodeValue 0 v with
    | error e =>
      rw [hv] at henc
      cases henc
    | ok b =>
      rw [hv] at henc
      cases ht : encodeElems t with
      | error e =>
        rw [ht] at henc
        cases henc
      | ok bs2 =>
        rw [ht] at henc
        obtain rfl : b ++ bs2 = bs := by injection henc
        rw [List.length_cons, decodeElems, List.append_assoc]
        have hlb : 1 ≤ b.length := encodeValue_length_pos 0 v b hv
        rw [decode_encode v 0 (by norm_num) hwf.1 hnz.1 b hv fuel
          (by simp at hfuel; omega) (bs2 ++ rest)]
        show decodeElems fuel t.length (v :: acc) (bs2 ++ rest)
          = Except.ok (Value.list (acc.reverse ++ v :: t), rest)
        rw [decode_elems_enc t (v :: acc) hwf.2 hnz.2 bs2 ht fuel
          (by simp at hfuel; omega) rest]
        simp
termination_by sizeOf l
decreasing_by all_goals (subst_vars; simp_wf; try omega)

theorem decode_entries_enc (es : List (Value × Value)) (done : List (Value × Value))
    (hwf : wfEntries es = true) (hnz : noZeroEntries es = true)
    (hpair : (done ++ es).Pairwise (fun a b => Value.cmp a.1 b.1 = .lt))
    (bs : List Nat) (henc : encodeEntries es = .ok bs)
    (fuel : Nat) (hfuel : bs.length ≤ fuel) (rest : List Nat) :
    decodeEntries fuel es.length done (bs ++ rest) = .ok (.map (done ++ es), rest) := by
  cases es with
  | nil =>
    obtain rfl : ([] : List Nat) = bs := by injection henc
    rw [List.length_nil, decodeEntries]
    simp
  | cons e t =>
    rcases he : e with ⟨k, v⟩
    subst he
    simp only [wfEntries, Bool.and_eq_true] at hwf
    simp only [noZeroEntries, Bool.and_eq_true] at hnz
    simp only [encodeEntries] at henc
    cases hk : encodeValue 0 k with
    | error e2 =>
      rw [hk] at henc
      cases henc
    | ok kb =>
      rw [hk] at henc
      cases hv : encodeValue 1 v with
      | error e2 =>
        rw [hv] at henc
        cases henc
      | ok vb =>
        rw [hv] at henc
        cases ht : encodeEntries t with
        | error e2 =>
          rw [ht] at henc
          cases henc
        | ok bs2 =>
          rw [ht] at henc
          obtain rfl : kb ++ vb ++ bs2 = bs := by injection henc
          have hkb : 1 ≤ kb.length := encodeValue_length_pos 0 k kb hk
          have hvb : 1 ≤ vb.length := encodeValue_length_pos 1 v vb hv
          rw [List.length_cons, decodeEntries]
          rw [List.append_assoc, List.append_assoc]
          rw [decode_encode k 0 (by norm_num) hwf.1.1 hnz.1.1 kb hk fuel
            (by simp at hfuel ⊢; omega) (vb ++ (bs2 ++ rest))]
          show (do
            let (v2, b) ← decodeAny fuel (vb ++ (bs2 ++ rest))
            decodeEntries fuel t.length (mapInsert done k v2) b)
            = Except.ok (Value.map (done ++ (k, v) :: t), rest)
          rw [decode_encode v 1 (by norm_num) hwf.1.2 hnz.1.2 vb hv fuel
            (by simp at hfuel ⊢; omega) (bs2 ++ rest)]
          show decodeEntries fuel t.length (mapInsert done k v) (bs2 ++ rest)
            = Except.ok (Value.map (done ++ (k, v) :: t), rest)
          have hins : mapInsert done k v = done ++ [(k, v)] := by
            apply mapInsert_append
            intro e2 he2
            have := (List.pairwise_append.mp hpair).2.2 e2 he2 (k, v)
              (List.mem_cons_self _ _)
            exact this
          rw [hins]
          have hpair2 : ((done ++ [(k, v)]) ++ t).Pairwise
              (fun a b => Value.cmp a.1 b.1 = .lt) := by
            rw [List.append_assoc]
            simpa using hpair
          rw [decode_entries_enc t (done ++ [(k, v)]) hwf.2 hnz.2 hpair2 bs2 ht fuel
            (by simp at hfuel ⊢; omega) rest]
          simp
termination_by sizeOf es
decreasing_by all_goals (subst_vars; simp_wf; try omega)

theorem decode_fields_enc (fs : List (Nat × Value)) (done : List (Nat × Value))
    (seen : List Nat) (encSeen : List Nat)
    (hwf : wfFields fs = true) (hnz : noZeroFields fs = true)
    (hpair : (done ++ fs).Pairwise (fun a b => a.1 < b.1))
    (hseen : ∀ e ∈ fs, e.1 ∉ seen)
    (bs : List Nat) (henc : encodeFields encSeen fs = .ok bs)
    (fuel : Nat) (hfuel : bs.length + 1 ≤ fuel) (rest : List Nat) :
    decodeObjFields fuel seen done (bs ++ (bstructEnd ++ rest))
      = .ok (.object (done ++ fs), rest) := by
  obtain ⟨g, rfl⟩ : ∃ g, fuel = g + 1 := ⟨fuel - 1, by omega⟩
  cases fs with
  | nil =>
    obtain rfl : ([] : List Nat) = bs := by injection henc
    rw [List.nil_append, decodeObjFields, bstructEnd,
      pickHead_pushHead 0 .structEnd rest (by norm_num)]
    show (do
      let b ← liftP (pstructEnd (pushHead 0 .structEnd ++ rest))
      Except.ok (Value.object done, b)) = Except.ok (Value.object (done ++ []), rest)
    rw [pstructEnd_pushHead 0 (by norm_num) rest]
    show Except.ok (Value.object done, rest) = Except.ok (Value.object (done ++ []), rest)
    simp
  | cons e t =>
    rcases he : e with ⟨tg, v⟩
    subst he
    simp only [wfFields, Bool.and_eq_true, decide_eq_true_eq] at hwf
    simp only [noZeroFields, Bool.and_eq_true] at hnz
    simp only [encodeFields] at henc
    by_cases hms : tg ∈ encSeen
    · rw [if_pos hms] at henc
      cases henc
    · rw [if_neg hms] at henc
      cases hv : encodeValue tg v with
      | error e2 =>
        rw [hv] at henc
        cases henc
      | ok b =>
        rw [hv] at henc
        cases ht : encodeFields (tg :: encSeen) t with
        | error e2 =>
          rw [ht] at henc
          cases henc
        | ok bs2 =>
          rw [ht] at henc
          obtain rfl : b ++ bs2 = bs := by injection henc
          have hb1 : 1 ≤ b.length := encodeValue_length_pos tg v b hv
          obtain ⟨tp, payload, htp, hshape⟩ := encodeValue_head tg v b hv
          have hpick : pickHead ((b ++ bs2) ++ (bstructEnd ++ rest))
              = .ok (tg, tp) := by
            rw [hshape, List.append_assoc, List.append_assoc]
            exact pickHead_pushHead tg tp _ hwf.1.1
          rw [decodeObjFields_step g seen done _ tg tp hpick htp
            (hseen (tg, v) (List.mem_cons_self _ _))]
          rw [List.append_assoc]
          rw [decode_encode v tg hwf.1.1 hwf.1.2 hnz.1 b hv g
            (by simp at hfuel ⊢; omega) (bs2 ++ (bstructEnd ++ rest))]
          show decodeObjFields g (tg :: seen) (objInsert done tg v)
            (bs2 ++ (bstructEnd ++ rest))
            = Except.ok (Value.object (done ++ (tg, v) :: t), rest)
          have hins : objInsert done tg v = done ++ [(tg, v)] := by
            apply objInsert_append
            intro e2 he2
            exact (List.pairwise_append.mp hpair).2.2 e2 he2 (tg, v)
              (List.mem_cons_self _ _)
          rw [hins]
          have hpair2 : ((done ++ [(tg, v)]) ++ t).Pairwise
              (fun a b => a.1 < b.1) := by
            rw [List.append_assoc]
            simpa using hpair
          have hseen2 : ∀ e2 ∈ t, e2.1 ∉ (tg :: seen) := by
            intro e2 he2
            have hlt : tg < e2.1 := by
              have hp := (List.pairwise_append.mp hpair).2.1
              exact (List.pairwise_cons.mp hp).1 e2 he2
            have hne : e2.1 ≠ tg := Nat.ne_of_gt hlt
            have hnm : e2.1 ∉ seen := hseen e2 (List.mem_cons_of_mem _ he2)
            simp [hne, hnm]
          rw [decode_fields_enc t (done ++ [(tg, v)]) (tg :: seen) (tg :: encSeen)
            hwf.2 hnz.2 hpair2 hseen2 bs2 ht g (by simp at hfuel ⊢; omega) rest]
          simp
termination_by sizeOf fs
decreasing_by all_goals (subst_vars; simp_wf; try omega)

end

/-! ## Claim C1 -/

/-- Counterexample to C1 as stated: the round trip is not the identity
on `Value::Int(0)`.  Encoding `Int(0)` emits the Absent form `0C`,
which decodes back as the `Zero` variant, a different variant kind. -/
theorem claim_C1_counterexample :
    encodeValue 0 (.int 0) = .ok [0x0c] ∧
    fromBytesValue 1 [0x0c] = .ok Value.zero ∧
    Value.zero ≠ Value.int 0 := by
  refine ⟨?_, ?_, ?_⟩
  · simp only [encodeValue]
    rw [bi64_eq_zero 0 rfl]
    rfl
  · unfold fromBytesValue
    rw [show decodeAny 1 [0x0c] = .ok (Value.zero, []) from by rw [decodeAny]; rfl]
  · exact fun h => Value.noConfusion h

/-- C1 (amended): for every representable `Value` in which the `Int`
variant never carries 0 (the wire's canonical form of integer zero is
the `Zero` variant), decoding the encoding yields the value back
exactly — same variant kind, and bit-identical `Float`/`Double`
payloads (payloads are modelled as raw bit patterns, so equality is
bit-pattern identity).  The decode consumes the entire buffer, so the
top-level `from_bytes` round trip succeeds as well. -/
theorem claim_C1_roundtrip (v : Value) (hwf : wf v = true)
    (hnz : noZeroInt v = true) :
    ∃ bs, encodeValue 0 v = .ok bs ∧ fromBytesValue bs.length bs = .ok v := by
  obtain ⟨bs, hbs⟩ := encode_ok 0 v hwf
  refine ⟨bs, hbs, ?_⟩
  unfold fromBytesValue
  have hdec := decode_encode v 0 (by norm_num) hwf hnz bs hbs bs.length le_rfl []
  rw [List.append_nil] at hdec
  rw [hdec]

/-- Witness for C1: a list containing an integer, a NaN float and a
string round-trips. -/
theorem claim_C1_roundtrip_witness :
    ∃ bs, encodeValue 0 (.list [.int 5, .float 0x7fc00000, .string [97]]) = .ok bs ∧
      fromBytesValue bs.length bs = .ok (.list [.int 5, .float 0x7fc00000, .string [97]]) :=
  claim_C1_roundtrip (.list [.int 5, .float 0x7fc00000, .string [97]])
    (by rw [wf, wfElems, wf, wfElems, wf, wfElems, wf, wfElems]; decide)
    (by rw [noZeroInt, noZeroElems, noZeroInt, noZeroElems, noZeroInt,
      noZeroElems, noZeroInt, noZeroElems]; decide)

/-! ## Correctness of the generic skip (`JceParser::ignore`) -/

/-- Reduction of one field step of the skip loop inside a record when
the peeked type is not the terminator. -/
theorem pignoreStruct_step (fuel : Nat) (b : List Nat) (tp : JceType)
    (hp : pickType b = .ok tp) (hne : tp ≠ .structEnd) :
    pignoreStruct (fuel + 1) b =
      (do
        let b2 ← pignore fuel b
        pignoreStruct fuel b2) := by
  rw [pignoreStruct]
  rw [hp]
  cases tp
  case structEnd => exact absurd rfl hne
  all_goals rfl

mutual

theorem ignore_encoded (v : Value) (tag : Nat) (htag : tag < 256)
    (hwf : wf v = true)
    (bs : List Nat) (henc : encodeValue tag v = .ok bs)
    (fuel : Nat) (hfuel : bs.length ≤ fuel) (rest : List Nat) :
    pignore fuel (bs ++ rest) = .ok rest := by
  obtain ⟨g, rfl⟩ : ∃ g, fuel = g + 1 :=
    ⟨fuel - 1, by have := encodeValue_length_pos tag v bs henc; omega⟩
  cases v with
  | zero =>
    obtain rfl : bzero tag = bs := by injection henc
    rw [bzero, pignore, pickType_pushHead tag .zero rest]
    show liftP (pzero (pushHead tag .zero ++ rest)) = Except.ok rest
    rw [pzero_pushHead tag htag rest]
    rfl
  | int a =>
    obtain rfl : bi64 tag a = bs := by injection henc
    by_cases h0 : a = 0
    · rw [bi64_eq_zero tag h0, pignore, pickType_pushHead tag .zero rest]
      show liftP (pzero (pushHead tag .zero ++ rest)) = Except.ok rest
      rw [pzero_pushHead tag htag rest]
      rfl
    · by_cases h8 : -128 ≤ a ∧ a ≤ 127
      · rw [bi64_eq_i8 tag h0 h8, List.append_assoc, pignore,
          pickType_pushHead tag .i8 _]
        show (do
          let (_, b) ← liftP (pi8 (pushHead tag .i8 ++ (beBytes 1 (toUnsigned 8 a) ++ rest)))
          Except.ok b) = Except.ok rest
        rw [pi8_stored8 tag htag a h8 rest]
        rfl
      · by_cases h16 : -32768 ≤ a ∧ a ≤ 32767
        · rw [bi64_eq_i16 tag h8 h16, List.append_assoc, pignore,
            pickType_pushHead tag .i16 _]
          show (do
            let (_, b) ← liftP (pi16 (pushHead tag .i16 ++ (beBytes 2 (toUnsigned 16 a) ++ rest)))
            Except.ok b) = Except.ok rest
          rw [pi16_stored16 tag htag a h16 rest]
          rfl
        · by_cases h32 : -2147483648 ≤ a ∧ a ≤ 2147483647
          · rw [bi64_eq_i32 tag h16 h32, List.append_assoc, pignore,
              pickType_pushHead tag .i32 _]
            show (do
              let (_, b) ← liftP (pi32 (pushHead tag .i32 ++ (beBytes 4 (toUnsigned 32 a) ++ rest)))
              Except.ok b) = Except.ok rest
            rw [pi32_stored32 tag htag a h32 rest]
            rfl
          · simp only [wf, decide_eq_true_eq] at hwf
            rw [bi64_eq_i64 tag h32, List.append_assoc, pignore,
              pickType_pushHead tag .i64 _]
            show (do
              let (_, b) ← liftP (pi64 (pushHead tag .i64 ++ (beBytes 8 (toUnsigned 64 a) ++ rest)))
              Except.ok b) = Except.ok rest
            rw [pi64_stored64 tag htag a (by omega) rest]
            rfl
  | float bits =>
    obtain rfl : bf32 tag bits = bs := by injection henc
    simp only [wf, decide_eq_true_eq] at hwf
    rw [bf32, Nat.mod_eq_of_lt hwf, List.append_assoc, pignore,
      pickType_pushHead tag .f32 _]
    show (do
      let (_, b) ← liftP (pf32 (pushHead tag .f32 ++ (beBytes 4 bits ++ rest)))
      Except.ok b) = Except.ok rest
    rw [pf32_stored tag htag bits hwf rest]
    rfl
  | double bits =>
    obtain rfl : bf64 tag bits = bs := by injection henc
    simp only [wf, decide_eq_true_eq] at hwf
    rw [bf64, Nat.mod_eq_of_lt hwf, List.append_assoc, pignore,
      pickType_pushHead tag .f64 _]
    show (do
      let (_, b) ← liftP (pf64 (pushHead tag .f64 ++ (beBytes 8 bits ++ rest)))
      Except.ok b) = Except.ok rest
    rw [pf64_stored tag htag bits hwf rest]
    rfl
  | string s =>
    simp only [wf, Bool.and_eq_true, decide_eq_true_eq] at hwf
    simp only [encodeValue] at henc
    rw [if_pos (by simp [STRING_MAX_LENGTH]; omega)] at henc
    obtain rfl : bstr tag s = bs := by injection henc
    by_cases hshort : s.length ≤ 255
    · rw [bstr, if_pos hshort, List.append_assoc, List.append_assoc, pignore,
        pickType_pushHead tag .string1 _]
      show (do
        let (_, b) ← liftP (pstrSmall (pushHead tag .string1 ++ ([s.length] ++ (s ++ rest))))
        Except.ok b) = Except.ok rest
      rw [pstrSmall_short tag htag s hshort hwf.2 rest]
      rfl
    · rw [bstr, if_neg hshort]
      have hmin : min s.length STRING_MAX_LENGTH = s.length := by
        simp [STRING_MAX_LENGTH]
        omega
      simp only [hmin, List.take_length]
      rw [List.append_assoc, List.append_assoc, pignore,
        pickType_pushHead tag .string4 _]
      show (do
        let (_, b) ← liftP (pstrBig (pushHead tag .string4 ++ (beBytes 4 s.length ++ (s ++ rest))))
        Except.ok b) = Except.ok rest
      rw [pstrBig_long tag htag s (by simp [STRING_MAX_LENGTH] at hwf ⊢; omega) hwf.2 rest]
      rfl
  | bytes bb =>
    simp only [wf, Bool.and_eq_true, decide_eq_true_eq] at hwf
    simp only [encodeValue] at henc
    rw [if_pos (by simp [BYTES_MAX_LENGTH]; omega)] at henc
    obtain rfl : bbytes tag bb = bs := by injection henc
    have hpick : pickType (bbytes tag bb ++ rest) = .ok .bytes := by
      rw [bbytes, List.append_assoc, List.append_assoc, List.append_assoc]
      exact pickType_pushHead tag .bytes _
    rw [pignore, hpick]
    show (do
      let (_, b) ← liftP (pbytes (bbytes tag bb ++ rest))
      Except.ok b) = Except.ok rest
    rw [pbytes_bbytes tag htag bb hwf.1 rest]
    rfl
  | list l =>
    simp only [wf, Bool.and_eq_true, decide_eq_true_eq] at hwf
    simp only [encodeValue] at henc
    rw [if_pos hwf.1] at henc
    cases hE : encodeElems l with
    | error e =>
      rw [hE] at henc
      cases henc
    | ok body =>
      rw [hE] at henc
      obtain rfl : blistBegin tag ((l.length : Nat) : Int) ++ body = bs := by
        injection henc
      rw [List.append_assoc, pignore]
      have hpick : pickType (blistBegin tag ((l.length : Nat) : Int) ++ (body ++ rest))
          = .ok .list := by
        rw [blistBegin, List.append_assoc]
        exact pickType_pushHead tag .list _
      rw [hpick]
      show (do
        let (len, b) ← liftP (plist (blistBegin tag ((l.length : Nat) : Int) ++ (body ++ rest)))
        pignoreN g len b) = Except.ok rest
      rw [plist_encoded tag htag ((l.length : Nat) : Int) (by omega) (body ++ rest)]
      show pignoreN g ((l.length : Nat) : Int).toNat (body ++ rest) = Except.ok rest
      rw [Int.toNat_natCast]
      have hlb : 1 ≤ (blistBegin tag ((l.length : Nat) : Int)).length := by
        rw [blistBegin]
        have := pushHead_length_pos tag .list
        simp
        omega
      have hlen2 : (blistBegin tag ((l.length : Nat) : Int)).length + body.length ≤ g + 1 := by
        simpa using hfuel
      exact ignore_elems l hwf.2 body hE g (by omega) rest
  | map es =>
    simp only [wf, Bool.and_eq_true, decide_eq_true_eq] at hwf
    simp only [encodeValue] at henc
    rw [if_pos hwf.1.1] at henc
    cases hE : encodeEntries es with
    | error e =>
      rw [hE] at henc
      cases henc
    | ok body =>
      rw [hE] at henc
      obtain rfl : bmapBegin tag ((es.length : Nat) : Int) ++ body = bs := by
        injection henc
      rw [List.append_assoc, pignore]
      have hpick : pickType (bmapBegin tag ((es.length : Nat) : Int) ++ (body ++ rest))
          = .ok .map := by
        rw [bmapBegin, List.append_assoc]
        exact pickType_pushHead tag .map _
      rw [hpick]
      show (do
        let (len, b) ← liftP (pmap (bmapBegin tag ((es.length : Nat) : Int) ++ (body ++ rest)))
        pignoreN g (2 * len) b) = Except.ok rest
      rw [pmap_encoded tag htag ((es.length : Nat) : Int) (by omega) (body ++ rest)]
      show pignoreN g (2 * ((es.length : Nat) : Int).toNat) (body ++ rest) = Except.ok rest
      rw [Int.toNat_natCast]
      have hmb : 1 ≤ (bmapBegin tag ((es.length : Nat) : Int)).length := by
        rw [bmapBegin]
        have := pushHead_length_pos tag .map
        simp
        omega
      have hlen2 : (bmapBegin tag ((es.length : Nat) : Int)).length + body.length ≤ g + 1 := by
        simpa using hfuel
      exact ignore_entries es hwf.2 body hE g (by omega) rest
  | object fs =>
    simp only [wf, Bool.and_eq_true] at hwf
    simp only [encodeValue] at henc
    cases hE : encodeFields [] fs with
    | error e =>
      rw [hE] at henc
      cases henc
    | ok body =>
      rw [hE] at henc
      obtain rfl : bstructBegin tag ++ body ++ bstructEnd = bs := by
        injection henc
      rw [bstructBegin] at hfuel ⊢
      rw [List.append_assoc, List.append_assoc, pignore,
        pickType_pushHead tag .structBegin _]
      show (do
        let b ← liftP (pstructBegin (pushHead tag .structBegin ++ (body ++ (bstructEnd ++ rest))))
        pignoreStruct g b) = Except.ok rest
      rw [pstructBegin_pushHead tag htag _]
      show pignoreStruct g (body ++ (bstructEnd ++ rest)) = Except.ok rest
      have hplen : 1 ≤ (pushHead tag .structBegin).length := pushHead_length_pos _ _
      have hfuel2 : body.length + 1 ≤ g := by
        have hlen : (pushHead tag .structBegin).length + (body.length + 1) ≤ g + 1 := by
          simpa [bstructEnd, pushHead] using hfuel
        omega
      exact ignore_fields fs [] hwf.2 body hE g hfuel2 rest
termination_by sizeOf v
decreasing_by all_goals (subst_vars; simp_wf; try omega)

theorem ignore_elems (l : List Value) (hwf : wfElems l = true)
    (bs : List Nat) (henc : encodeElems l = .ok bs)
    (fuel : Nat) (hfuel : bs.length ≤ fuel) (rest : List Nat) :
    pignoreN fuel l.length (bs ++ rest) = .ok rest := by
  cases l with
  | nil =>
    obtain rfl : ([] : List Nat) = bs := by injection henc
    rw [List.length_nil, pignoreN]
    rfl
  | cons v t =>
    simp only [wfElems, Bool.and_eq_true] at hwf
    simp only [encodeElems] at henc
    cases hv : encodeValue 0 v with
    | error e =>
      rw [hv] at henc
      cases henc
    | ok b =>
      rw [hv] at henc
      cases ht : encodeElems t with
      | error e =>
        rw [ht] at henc
        cases henc
      | ok bs2 =>
        rw [ht] at henc
        obtain rfl : b ++ bs2 = bs := by injection henc
        have hlb : 1 ≤ b.length := encodeValue_length_pos 0 v b hv
        rw [List.length_cons, pignoreN, List.append_assoc]
        rw [ignore_encoded v 0 (by norm_num) hwf.1 b hv fuel
          (by simp at hfuel; omega) (bs2 ++ rest)]
        show pignoreN fuel t.length (bs2 ++ rest) = Except.ok rest
        exact ignore_elems t hwf.2 bs2 ht fuel (by simp at hfuel; omega) rest
termination_by sizeOf l
decreasing_by all_goals (subst_vars; simp_wf; try omega)

theorem ignore_entries (es : List (Value × Value)) (hwf : wfEntries es = true)
    (bs : List Nat) (henc : encodeEntries es = .ok bs)
    (fuel : Nat) (hfuel : bs.length ≤ fuel) (rest : List Nat) :
    pignoreN fuel (2 * es.length) (bs ++ rest) = .ok rest := by
  cases es with
  | nil =>
    obtain rfl : ([] : List Nat) = bs := by injection henc
    rw [List.length_nil, Nat.mul_zero, pignoreN]
    rfl
  | cons e t =>
    rcases he : e with ⟨k, v⟩
    subst he
    simp only [wfEntries, Bool.and_eq_true] at hwf
    simp only [encodeEntries] at henc
    cases hk : encodeValue 0 k with
    | error e2 =>
      rw [hk] at henc
      cases henc
    | ok kb =>
      rw [hk] at henc
      cases hv : encodeValue 1 v with
      | error e2 =>
        rw [hv] at henc
        cases henc
      | ok vb =>
        rw [hv] at henc
        cases ht : encodeEntries t with
        | error e2 =>
          rw [ht] at henc
          cases henc
        | ok bs2 =>
          rw [ht] at henc
          obtain rfl : kb ++ vb ++ bs2 = bs := by injection henc
          have hkb : 1 ≤ kb.length := encodeValue_length_pos 0 k kb hk
          have hvb : 1 ≤ vb.length := encodeValue_length_pos 1 v vb hv
          rw [List.length_cons, show 2 * (t.length + 1) = (2 * t.length + 1) + 1 by ring,
            pignoreN, List.append_assoc, List.append_assoc]
          rw [ignore_encoded k 0 (by norm_num) hwf.1.1 kb hk fuel
            (by simp at hfuel ⊢; omega) (vb ++ (bs2 ++ rest))]
          show pignoreN fuel (2 * t.length + 1) (vb ++ (bs2 ++ rest)) = Except.ok rest
          rw [pignoreN]
          rw [ignore_encoded v 1 (by norm_num) hwf.1.2 vb hv fuel
            (by simp at hfuel ⊢; omega) (bs2 ++ rest)]
          show pignoreN fuel (2 * t.length) (bs2 ++ rest) = Except.ok rest
          exact ignore_entries t hwf.2 bs2 ht fuel (by simp at hfuel ⊢; omega) rest
termination_by sizeOf es
decreasing_by all_goals (subst_vars; simp_wf; try omega)

theorem ignore_fields (fs : List (Nat × Value)) (encSeen : List Nat)
    (hwf : wfFields fs = true)
    (bs : List Nat) (henc : encodeFields encSeen fs = .ok bs)
    (fuel : Nat) (hfuel : bs.length + 1 ≤ fuel) (rest : List Nat) :
    pignoreStruct fuel (bs ++ (bstructEnd ++ rest)) = .ok rest := by
  obtain ⟨g, rfl⟩ : ∃ g, fuel = g + 1 := ⟨fuel - 1, by omega⟩
  cases fs with
  | nil =>
    obtain rfl : ([] : List Nat) = bs := by injection henc
    rw [List.nil_append, pignoreStruct, bstructEnd, pickType_pushHead 0 .structEnd rest]
    show liftP (pstructEnd (pushHead 0 .structEnd ++ rest)) = Except.ok rest
    rw [pstructEnd_pushHead 0 (by norm_num) rest]
    rfl
  | cons e t =>
    rcases he : e with ⟨tg, v⟩
    subst he
    simp only [wfFields, Bool.and_eq_true, decide_eq_true_eq] at hwf
    simp only [encodeFields] at henc
    by_cases hms : tg ∈ encSeen
    · rw [if_pos hms] at henc
      cases henc
    · rw [if_neg hms] at henc
      cases hv : encodeValue tg v with
      | error e2 =>
        rw [hv] at henc
        cases henc
      | ok b =>
        rw [hv] at henc
        cases ht : encodeFields (tg :: encSeen) t with
        | error e2 =>
          rw [ht] at henc
          cases henc
        | ok bs2 =>
          rw [ht] at henc
          obtain rfl : b ++ bs2 = bs := by injection henc
          have hb1 : 1 ≤ b.length := encodeValue_length_pos tg v b hv
          obtain ⟨tp, payload, htp, hshape⟩ := encodeValue_head tg v b hv
          have hpick : pickType ((b ++ bs2) ++ (bstructEnd ++ rest)) = .ok tp := by
            rw [hshape, List.append_assoc, List.append_assoc]
            exact pickType_pushHead tg tp _
          rw [pignoreStruct_step g _ tp hpick htp]
          rw [List.append_assoc]
          rw [ignore_encoded v tg hwf.1.1 hwf.1.2 b hv g
            (by simp at hfuel ⊢; omega) (bs2 ++ (bstructEnd ++ rest))]
          show pignoreStruct g (bs2 ++ (bstructEnd ++ rest)) = Except.ok rest
          exact ignore_fields t (tg :: encSeen) hwf.2 bs2 ht g
            (by simp at hfuel ⊢; omega) rest
termination_by sizeOf fs
decreasing_by all_goals (subst_vars; simp_wf; try omega)

end

/-! ## Typed-record scanning (claim C5) -/

/-- `TagsAccess::get_tag` on a fresh field header: the tag is recorded
and the cursor is left on the header. -/
theorem getTag_field (seen b : List Nat) (t : Nat) (tp : JceType)
    (hp : pickHead b = .ok (t, tp)) (hne : tp ≠ .structEnd) (hs : t ∉ seen) :
    getTag seen b = .ok (some t, t :: seen, b) := by
  unfold getTag
  rw [hp]
  cases tp
  case structEnd => exact absurd rfl hne
  all_goals
    show (if t ∈ seen then Except.error JErr.duplicateFieldTag
      else Except.ok (some t, t :: seen, b)) = Except.ok (some t, t :: seen, b)
    rw [if_neg hs]

/-- `TagsAccess::get_tag` at the record terminator: the terminator is
consumed and end-of-record is signalled. -/
theorem getTag_end (seen rest : List Nat) :
    getTag seen (bstructEnd ++ rest) = .ok (none, seen, rest) := by
  unfold getTag
  rw [bstructEnd, pickHead_pushHead 0 .structEnd rest (by norm_num)]
  show (match pstructEnd (pushHead 0 .structEnd ++ rest) with
    | .error e => Except.error e
    | .ok b => Except.ok (none, seen, b)) = Except.ok (none, seen, rest)
  rw [pstructEnd_pushHead 0 (by norm_num) rest]

/-- One-step unfolding of the typed-record scan loop. -/
theorem scanTyped_succ (E : List Nat) (f : Nat) (seen : List Nat)
    (acc : List (Nat × Value)) (b : List Nat) :
    scanTyped E (f + 1) seen acc b =
      (do
        let (opt, seen2, b) ← nextKeyTyped E (f + 1) seen b
        match opt with
        | none => Except.ok (acc.reverse, b)
        | some tag => do
          let (v, b) ← decodeAny f b
          scanTyped E f seen2 ((tag, v) :: acc) b) := by
  rw [scanTyped]

/-- Encoding a record succeeds whenever its fields are well formed and
its tags are pairwise distinct (sortedness is not needed). -/
theorem encode_fields_ok_nodup (fs : List (Nat × Value)) (seen : List Nat)
    (hwf : wfFields fs = true)
    (hnodup : (fs.map Prod.fst).Nodup)
    (hseen : ∀ e ∈ fs, e.1 ∉ seen) :
    ∃ bs, encodeFields seen fs = .ok bs := by
  induction fs generalizing seen with
  | nil => exact ⟨[], rfl⟩
  | cons e t ih =>
    rcases he : e with ⟨tg, v⟩
    subst he
    simp only [wfFields, Bool.and_eq_true] at hwf
    simp only [List.map_cons, List.nodup_cons] at hnodup
    obtain ⟨b, hb⟩ := encode_ok tg v hwf.1.2
    obtain ⟨bs, hbs⟩ := ih (tg :: seen) hwf.2 hnodup.2
      (by
        intro e2 he2 hmem
        rcases List.mem_cons.mp hmem with hEq | hIn
        · have hm := List.mem_map_of_mem Prod.fst he2
          rw [hEq] at hm
          exact hnodup.1 hm
        · exact hseen e2 (List.mem_cons_of_mem _ he2) hIn)
    refine ⟨b ++ bs, ?_⟩
    simp only [encodeFields]
    rw [if_neg (hseen (tg, v) (List.mem_cons_self _ _)), hb, hbs]
    rfl

/-- The body of the typed-record scan over the encoding of a field
list followed by the terminator: fields with unexpected tags are
skipped via `ignore`, fields with expected tags are decoded, and the
scan ends exactly at the terminator having collected, in wire order,
precisely the expected fields. -/
theorem scan_step (E : List Nat) (fs : List (Nat × Value))
    (acc : List (Nat × Value)) (seen : List Nat)
    (hwf : wfFields fs = true) (hnz : noZeroFields fs = true)
    (hnodup : (fs.map Prod.fst).Nodup)
    (hseen : ∀ e ∈ fs, e.1 ∉ seen)
    (encSeen bs : List Nat) (henc : encodeFields encSeen fs = .ok bs)
    (f : Nat) (hf : bs.length ≤ f)
    (nkFuel : Nat) (hnk : bs.length + 1 ≤ nkFuel) (rest : List Nat) :
    (do
      let (opt, seen2, b) ← nextKeyTyped E nkFuel seen (bs ++ (bstructEnd ++ rest))
      match opt with
      | none => Except.ok (acc.reverse, b)
      | some tag => do
        let (v, b) ← decodeAny f b
        scanTyped E f seen2 ((tag, v) :: acc) b)
    = .ok (acc.reverse ++ fs.filter (fun e => decide (e.1 ∈ E)), rest) := by
  obtain ⟨nk, rfl⟩ : ∃ nk, nkFuel = nk + 1 := ⟨nkFuel - 1, by omega⟩
  cases fs with
  | nil =>
    obtain rfl : ([] : List Nat) = bs := by injection henc
    rw [List.nil_append, nextKeyTyped, getTag_end seen rest]
    show (Except.ok (acc.reverse, rest) : Except DFail _)
      = Except.ok (acc.reverse ++ List.filter (fun e => decide (e.1 ∈ E)) [], rest)
    simp
  | cons e ft =>
    rcases he : e with ⟨t, v⟩
    subst he
    simp only [wfFields, Bool.and_eq_true, decide_eq_true_eq] at hwf
    simp only [noZeroFields, Bool.and_eq_true] at hnz
    simp only [List.map_cons, List.nodup_cons] at hnodup
    simp only [encodeFields] at henc
    by_cases hms : t ∈ encSeen
    · rw [if_pos hms] at henc
      cases henc
    · rw [if_neg hms] at henc
      cases hv : encodeValue t v with
      | error e2 =>
        rw [hv] at henc
        cases henc
      | ok b1 =>
        rw [hv] at henc
        cases ht : encodeFields (t :: encSeen) ft with
        | error e2 =>
          rw [ht] at henc
          cases henc
        | ok bs2 =>
          rw [ht] at henc
          obtain rfl : b1 ++ bs2 = bs := by injection henc
          have hb1 : 1 ≤ b1.length := encodeValue_length_pos t v b1 hv
          obtain ⟨tp, payload, htp, hshape⟩ := encodeValue_head t v b1 hv
          have hpickb : pickHead ((b1 ++ bs2) ++ (bstructEnd ++ rest)) = .ok (t, tp) := by
            rw [hshape, List.append_assoc, List.append_assoc]
            exact pickHead_pushHead t tp _ hwf.1.1
          have hgt : getTag seen ((b1 ++ bs2) ++ (bstructEnd ++ rest))
              = .ok (some t, t :: seen, (b1 ++ bs2) ++ (bstructEnd ++ rest)) :=
            getTag_field _ _ t tp hpickb htp (hseen (t, v) (List.mem_cons_self _ _))
          have hseen2 : ∀ e2 ∈ ft, e2.1 ∉ t :: seen := by
            intro e2 he2 hmem
            rcases List.mem_cons.mp hmem with hEq | hIn
            · have hm := List.mem_map_of_mem Prod.fst he2
              rw [hEq] at hm
              exact hnodup.1 hm
            · exact hseen e2 (List.mem_cons_of_mem _ he2) hIn
          by_cases htE : t ∈ E
          · have hnkt : nextKeyTyped E (nk + 1) seen ((b1 ++ bs2) ++ (bstructEnd ++ rest))
                = .ok (some t, t :: seen, (b1 ++ bs2) ++ (bstructEnd ++ rest)) := by
              rw [nextKeyTyped, hgt]
              show (if t ∈ E
                then Except.ok (some t, t :: seen, (b1 ++ bs2) ++ (bstructEnd ++ rest))
                else do
                  let b ← pignore nk ((b1 ++ bs2) ++ (bstructEnd ++ rest))
                  nextKeyTyped E nk (t :: seen) b)
                = Except.ok (some t, t :: seen, (b1 ++ bs2) ++ (bstructEnd ++ rest))
              rw [if_pos htE]
            rw [hnkt]
            show (do
              let (v2, b) ← decodeAny f ((b1 ++ bs2) ++ (bstructEnd ++ rest))
              scanTyped E f (t :: seen) ((t, v2) :: acc) b)
              = Except.ok (acc.reverse
                ++ List.filter (fun e2 => decide (e2.1 ∈ E)) ((t, v) :: ft), rest)
            rw [List.append_assoc]
            rw [decode_encode v t hwf.1.1 hwf.1.2 hnz.1 b1 hv f
              (by simp at hf ⊢; omega) (bs2 ++ (bstructEnd ++ rest))]
            show scanTyped E f (t :: seen) ((t, v) :: acc) (bs2 ++ (bstructEnd ++ rest))
              = Except.ok (acc.reverse
                ++ List.filter (fun e2 => decide (e2.1 ∈ E)) ((t, v) :: ft), rest)
            obtain ⟨f2, rfl⟩ : ∃ f2, f = f2 + 1 := ⟨f - 1, by simp at hf; omega⟩
            rw [scanTyped_succ]
            rw [scan_step E ft ((t, v) :: acc) (t :: seen) hwf.2 hnz.2 hnodup.2 hseen2
              (t :: encSeen) bs2 ht f2 (by simp at hf; omega) (f2 + 1)
              (by simp at hf; omega) rest]
            simp [htE]
          · have hnkt : nextKeyTyped E (nk + 1) seen ((b1 ++ bs2) ++ (bstructEnd ++ rest))
                = nextKeyTyped E nk (t :: seen) (bs2 ++ (bstructEnd ++ rest)) := by
              rw [nextKeyTyped, hgt]
              show (if t ∈ E
                then Except.ok (some t, t :: seen, (b1 ++ bs2) ++ (bstructEnd ++ rest))
                else do
                  let b ← pignore nk ((b1 ++ bs2) ++ (bstructEnd ++ rest))
                  nextKeyTyped E nk (t :: seen) b)
                = nextKeyTyped E nk (t :: seen) (bs2 ++ (bstructEnd ++ rest))
              rw [if_neg htE, List.append_assoc]
              rw [ignore_encoded v t hwf.1.1 hwf.1.2 b1 hv nk
                (by simp at hnk ⊢; omega) (bs2 ++ (bstructEnd ++ rest))]
              rfl
            rw [hnkt]
            rw [scan_step E ft acc (t :: seen) hwf.2 hnz.2 hnodup.2 hseen2
              (t :: encSeen) bs2 ht f (by simp at hf; omega) nk
              (by simp at hnk; omega) rest]
            simp [htE]
termination_by sizeOf fs
decreasing_by all_goals (subst_vars; simp_wf; try omega)

/-- C5: decoding a record against a known expected-tag set `E` skips
every well-formed field whose tag is not in `E` wholesale via the
generic `ignore` (which recurses through nested maps, lists and
records), decodes every field whose tag is in `E` normally from the
correct cursor position, and succeeds, returning exactly the expected
fields in wire order with the cursor just past the terminator. -/
theorem claim_C5_skip_unknown (fs : List (Nat × Value)) (E : List Nat)
    (tag : Nat) (htag : tag < 256)
    (hwf : wfFields fs = true) (hnz : noZeroFields fs = true)
    (hnodup : (fs.map Prod.fst).Nodup) (rest : List Nat) :
    ∃ bs, encodeFields [] fs = .ok bs ∧
      scanStructTyped E (bs.length + 1)
        (bstructBegin tag ++ (bs ++ (bstructEnd ++ rest)))
        = .ok (fs.filter (fun e => decide (e.1 ∈ E)), rest) := by
  obtain ⟨bs, hbs⟩ := encode_fields_ok_nodup fs [] hwf hnodup (by simp)
  refine ⟨bs, hbs, ?_⟩
  unfold scanStructTyped
  rw [bstructBegin, pstructBegin_pushHead tag htag _]
  show scanTyped E (bs.length + 1) [] [] (bs ++ (bstructEnd ++ rest))
    = Except.ok (List.filter (fun e => decide (e.1 ∈ E)) fs, rest)
  rw [scanTyped_succ]
  have h := scan_step E fs [] [] hwf hnz hnodup (by simp) [] bs hbs
    bs.length le_rfl (bs.length + 1) le_rfl rest
  simpa using h

/-- Witness for C5: a record with fields at tags 0 and 1, scanned
against the expected set containing only tag 1; the tag-0 integer
field is skipped and the tag-1 field is returned. -/
theorem claim_C5_skip_unknown_witness :
    ∃ bs, encodeFields [] [(0, Value.int 1), (1, Value.zero)] = .ok bs ∧
      scanStructTyped [1] (bs.length + 1)
        (bstructBegin 2 ++ (bs ++ (bstructEnd ++ [])))
        = .ok ([(1, Value.zero)], []) := by
  have h := claim_C5_skip_unknown [(0, Value.int 1), (1, Value.zero)] [1] 2 (by decide)
    (by rw [wfFields, wf, wfFields, wf, wfFields]; decide)
    (by rw [noZeroFields, noZeroInt, noZeroFields, noZeroInt, noZeroFields]; decide)
    (by decide) []
  simpa using h

/-! ## Duplicate field tags (claim C4) -/

/-- Reduction of one field step of the schema-less record decode when
the peeked header carries a tag already seen: the decode fails with
`DuplicateFieldTag`. -/
theorem decodeObjFields_dup (fuel : Nat) (seen : List Nat)
    (acc : List (Nat × Value)) (b : List Nat) (tag : Nat) (tp : JceType)
    (hp : pickHead b = .ok (tag, tp)) (hne : tp ≠ .structEnd)
    (hs : tag ∈ seen) :
    decodeObjFields (fuel + 1) seen acc b = .error (.err .duplicateFieldTag) := by
  rw [decodeObjFields, hp]
  cases tp
  case structEnd => exact absurd rfl hne
  all_goals
    show (if tag ∈ seen then Except.error (DFail.err JErr.duplicateFieldTag)
      else do
        let (v, b2) ← decodeAny fuel b
        decodeObjFields fuel (tag :: seen) (objInsert acc tag v) b2)
      = Except.error (DFail.err JErr.duplicateFieldTag)
    rw [if_pos hs]

/-- Threading the exposed serializer state through a duplicate-free
well-formed prefix: the buffer accumulates exactly the prefix's
encoding and the seen-tag set grows by exactly the prefix's tags. -/
theorem serFields_prefix (pre : List (Nat × Value)) (X : List (Nat × Value))
    (buf seen : List Nat)
    (hwf : wfFields pre = true)
    (hnodup : (pre.map Prod.fst).Nodup)
    (hseen : ∀ e ∈ pre, e.1 ∉ seen) :
    ∃ preBytes seen2, encodeFields seen pre = .ok preBytes ∧
      serFields (buf, seen) (pre ++ X) = serFields (buf ++ preBytes, seen2) X ∧
      ∀ x, x ∈ seen2 ↔ x ∈ seen ∨ x ∈ pre.map Prod.fst := by
  induction pre generalizing buf seen with
  | nil =>
    refine ⟨[], seen, rfl, ?_, ?_⟩
    · rw [List.nil_append, List.append_nil]
    · intro x
      simp
  | cons e pt ih =>
    rcases he : e with ⟨tg, v⟩
    subst he
    simp only [wfFields, Bool.and_eq_true] at hwf
    simp only [List.map_cons, List.nodup_cons] at hnodup
    obtain ⟨b, hb⟩ := encode_ok tg v hwf.1.2
    have htg : tg ∉ seen := hseen (tg, v) (List.mem_cons_self _ _)
    obtain ⟨pb, seen2, hpb, hser, hmem⟩ := ih (buf ++ b) (tg :: seen) hwf.2 hnodup.2
      (by
        intro e2 he2 hmem2
        rcases List.mem_cons.mp hmem2 with hEq | hIn
        · have hm := List.mem_map_of_mem Prod.fst he2
          rw [hEq] at hm
          exact hnodup.1 hm
        · exact hseen e2 (List.mem_cons_of_mem _ he2) hIn)
    refine ⟨b ++ pb, seen2, ?_, ?_, ?_⟩
    · simp only [encodeFields]
      rw [if_neg htg, hb, hpb]
      rfl
    · show serFields (buf, seen) ((tg, v) :: (pt ++ X)) = serFields (buf ++ (b ++ pb), seen2) X
      rw [serFields, if_neg htg, hb]
      show serFields (buf ++ b, tg :: seen) (pt ++ X) = serFields (buf ++ (b ++ pb), seen2) X
      rw [hser, List.append_assoc]
    · intro x
      rw [hmem x]
      simp only [List.map_cons, List.mem_cons]
      tauto

/-- Decoding the encoding of a duplicate-free well-formed field prefix
followed by a field whose tag repeats an earlier tag fails with
`DuplicateFieldTag`. -/
theorem decode_fields_dup (pre : List (Nat × Value)) (seen : List Nat)
    (acc : List (Nat × Value))
    (hwf : wfFields pre = true) (hnz : noZeroFields pre = true)
    (hnodup : (pre.map Prod.fst).Nodup)
    (hseen : ∀ e ∈ pre, e.1 ∉ seen)
    (encSeen preBytes : List Nat) (henc : encodeFields encSeen pre = .ok preBytes)
    (t : Nat) (ht : t < 256) (v2 : Value) (b2 : List Nat)
    (hb2 : encodeValue t v2 = .ok b2)
    (hdup : t ∈ pre.map Prod.fst ∨ t ∈ seen)
    (fuel : Nat) (hfuel : preBytes.length + 1 ≤ fuel) (tail : List Nat) :
    decodeObjFields fuel seen acc (preBytes ++ (b2 ++ tail))
      = .error (.err .duplicateFieldTag) := by
  cases pre with
  | nil =>
    obtain rfl : ([] : List Nat) = preBytes := by injection henc
    obtain ⟨g, rfl⟩ : ∃ g, fuel = g + 1 := ⟨fuel - 1, by omega⟩
    have hdup2 : t ∈ seen := by
      rcases hdup with h | h
      · exact absurd h (by simp)
      · exact h
    obtain ⟨tp, payload, htp, hshape⟩ := encodeValue_head t v2 b2 hb2
    have hpick : pickHead (([] : List Nat) ++ (b2 ++ tail)) = .ok (t, tp) := by
      rw [List.nil_append, hshape, List.append_assoc]
      exact pickHead_pushHead t tp _ ht
    exact decodeObjFields_dup g seen acc _ t tp hpick htp hdup2
  | cons e pt =>
    rcases he : e with ⟨tg, v⟩
    subst he
    simp only [wfFields, Bool.and_eq_true, decide_eq_true_eq] at hwf
    simp only [noZeroFields, Bool.and_eq_true] at hnz
    simp only [List.map_cons, List.nodup_cons] at hnodup
    simp only [encodeFields] at henc
    by_cases hms : tg ∈ encSeen
    · rw [if_pos hms] at henc
      cases henc
    · rw [if_neg hms] at henc
      cases hv : encodeValue tg v with
      | error e2 =>
        rw [hv] at henc
        cases henc
      | ok b1 =>
        rw [hv] at henc
        cases hrest : encodeFields (tg :: encSeen) pt with
        | error e2 =>
          rw [hrest] at henc
          cases henc
        | ok rest1 =>
          rw [hrest] at henc
          obtain rfl : b1 ++ rest1 = preBytes := by injection henc
          have hb1 : 1 ≤ b1.length := encodeValue_length_pos tg v b1 hv
          obtain ⟨g, rfl⟩ : ∃ g, fuel = g + 1 := ⟨fuel - 1, by omega⟩
          obtain ⟨tp1, payload1, htp1, hshape1⟩ := encodeValue_head tg v b1 hv
          have hpick : pickHead ((b1 ++ rest1) ++ (b2 ++ tail)) = .ok (tg, tp1) := by
            rw [hshape1, List.append_assoc, List.append_assoc]
            exact pickHead_pushHead tg tp1 _ hwf.1.1
          have hseen2 : ∀ e2 ∈ pt, e2.1 ∉ tg :: seen := by
            intro e2 he2 hmem2
            rcases List.mem_cons.mp hmem2 with hEq | hIn
            · have hm := List.mem_map_of_mem Prod.fst he2
              rw [hEq] at hm
              exact hnodup.1 hm
            · exact hseen e2 (List.mem_cons_of_mem _ he2) hIn
          have hdup2 : t ∈ pt.map Prod.fst ∨ t ∈ tg :: seen := by
            rcases hdup with h | h
            · simp only [List.map_cons, List.mem_cons] at h
              rcases h with hEq | hIn
              · exact Or.inr (by rw [hEq]; exact List.mem_cons_self tg seen)
              · exact Or.inl hIn
            · exact Or.inr (List.mem_cons_of_mem _ h)
          rw [decodeObjFields_step g seen acc _ tg tp1 hpick htp1
            (hseen (tg, v) (List.mem_cons_self _ _))]
          rw [List.append_assoc]
          rw [decode_encode v tg hwf.1.1 hwf.1.2 hnz.1 b1 hv g
            (by simp at hfuel ⊢; omega) (rest1 ++ (b2 ++ tail))]
          show decodeObjFields g (tg :: seen) (objInsert acc tg v) (rest1 ++ (b2 ++ tail))
            = Except.error (DFail.err JErr.duplicateFieldTag)
          exact decode_fields_dup pt (tg :: seen) (objInsert acc tg v) hwf.2 hnz.2
            hnodup.2 hseen2 (tg :: encSeen) rest1 hrest t ht v2 b2 hb2 hdup2 g
            (by simp at hfuel; omega) tail
termination_by sizeOf pre
decreasing_by all_goals (subst_vars; simp_wf; try omega)

/-- C4: encoding a record in which a later field repeats the tag `t`
of an earlier field fails with `DuplicateFieldTag`, with the exposed
serializer buffer holding exactly the bytes of the prior fields and
nothing of the duplicate field; and schema-less decoding of record
wire data carrying the tag `t` twice fails with `DuplicateFieldTag`. -/
theorem claim_C4_duplicate_tag (pre : List (Nat × Value)) (t : Nat) (v2 : Value)
    (post : List (Nat × Value)) (tagR : Nat) (htagR : tagR < 256) (ht : t < 256)
    (hwf : wfFields pre = true) (hnz : noZeroFields pre = true)
    (hnodup : (pre.map Prod.fst).Nodup)
    (hdup : t ∈ pre.map Prod.fst)
    (hwfv : wf v2 = true) (tail : List Nat) :
    ∃ preBytes seenF b2,
      encodeFields [] pre = .ok preBytes ∧
      encodeValue t v2 = .ok b2 ∧
      serFields ([], []) (pre ++ (t, v2) :: post)
        = ((preBytes, seenF), some .duplicateFieldTag) ∧
      decodeAny (preBytes.length + 2) (bstructBegin tagR ++ (preBytes ++ (b2 ++ tail)))
        = .error (.err .duplicateFieldTag) := by
  obtain ⟨preBytes, seenF, hpre, hser, hmem⟩ :=
    serFields_prefix pre ((t, v2) :: post) [] [] hwf hnodup (by simp)
  obtain ⟨b2, hb2⟩ := encode_ok t v2 hwfv
  refine ⟨preBytes, seenF, b2, hpre, hb2, ?_, ?_⟩
  · rw [hser]
    have htF : t ∈ seenF := (hmem t).mpr (Or.inr hdup)
    rw [serFields, if_pos htF]
    simp
  · rw [bstructBegin]
    show decodeAny (preBytes.length + 1 + 1)
      (pushHead tagR .structBegin ++ (preBytes ++ (b2 ++ tail)))
      = Except.error (DFail.err JErr.duplicateFieldTag)
    rw [decodeAny, pickHead_pushHead tagR .structBegin _ htagR]
    show (do
      let b ← liftP (pstructBegin
        (pushHead tagR .structBegin ++ (preBytes ++ (b2 ++ tail))))
      decodeObjFields (preBytes.length + 1) [] [] b)
      = Except.error (DFail.err JErr.duplicateFieldTag)
    rw [pstructBegin_pushHead tagR htagR _]
    show decodeObjFields (preBytes.length + 1) [] [] (preBytes ++ (b2 ++ tail))
      = Except.error (DFail.err JErr.duplicateFieldTag)
    exact decode_fields_dup pre [] [] hwf hnz hnodup (by simp) [] preBytes hpre
      t ht v2 b2 hb2 (Or.inl hdup) _ le_rfl tail

/-- Witness for C4: the record `[(0, Int 1), (0, Zero)]` repeats tag 0;
both the serializer and the decoder reject it with
`DuplicateFieldTag`. -/
theorem claim_C4_duplicate_tag_witness :
    ∃ preBytes seenF b2,
      encodeFields [] [(0, Value.int 1)] = .ok preBytes ∧
      encodeValue 0 Value.zero = .ok b2 ∧
      serFields ([], []) ([(0, Value.int 1)] ++ (0, Value.zero) :: [])
        = ((preBytes, seenF), some .duplicateFieldTag) ∧
      decodeAny (preBytes.length + 2)
        (bstructBegin 1 ++ (preBytes ++ (b2 ++ [])))
        = .error (.err .duplicateFieldTag) := by
  have h := claim_C4_duplicate_tag [(0, Value.int 1)] 0 Value.zero [] 1
    (by decide) (by decide)
    (by rw [wfFields, wf, wfFields]; decide)
    (by rw [noZeroFields, noZeroInt, noZeroFields]; decide)
    (by decide) (by decide)
    (by rw [wf]) []
  exact h

end SerdeJce
